import Mathlib

/-!
# Schemer: migration resolution and execution engine

A shallow embedding of `internal/core/migrations.go`, `internal/core/database.go`
and `internal/input/command.go`, followed by theorems about the catalog
(`LoadMigrations`), the script loader (`Migration.load`), the resolver
(`resolveExecutionPlan`), the executor (`executionPlan.execute`) and the command
parser (`ParseCommand`).

Conventions of the embedding.

* Go `int` and `int64` values are mathematical integers (`Int`); `int` is taken
  to be 64 bits wide, so that `int(cmd.Operand)` is the operand itself.  The two
  places where an operand supplied on the command line enters index arithmetic
  (`cur+int(cmd.Operand)` and `cur-int(cmd.Operand)`) are wrapped to 64 bits by
  `wrapInt`; every other addition is on values bounded by the catalog length.
* `Migration.load` stores the two script bodies in the migration it is called
  on; `execute` reads only `Name` and `Version` of the catalog entries afterwards,
  so the loaded migration is local to `Migration.run` and the catalog is not
  threaded through the loops.
* A slice access that Go would abort with "index out of range" yields `panic`.
* Loops are defined by recursion on a fuel argument; `stuck` is the result of a
  loop that ran out of fuel.  The call sites supply the fuel, and the theorems
  show the results are never `stuck`.
* The database behind a `Connection` is explicit state: the stored version, the
  versions of the migrations whose forward script is in effect, and the log of
  statements of the committed transactions.  Which database call fails is
  decided by a `World`, an arbitrary deterministic environment.
-/

namespace Schemer

/-! ## Data model -/

/-- Record `Migration` of migrations.go. -/
structure Migration where
  Name : String
  Path : String
  Version : Int
  Up : String
  Down : String
deriving DecidableEq

/-- Type `Migrations` of migrations.go: the catalog. -/
abbrev Migrations := List Migration

/-- Type `actionType` of migrations.go. -/
inductive actionType where
  | noAction
  | upAction
  | downAction
deriving DecidableEq

/-- Type `CommandType` of command.go. -/
inductive CommandType where
  | UpCommand
  | DownCommand
  | GotoCommand
  | HelpCommand
deriving DecidableEq

/-- Record `Command` of command.go (field `Type` is spelled `Typ`). -/
structure Command where
  Typ : CommandType
  HasOperand : Bool
  Operand : Int
deriving DecidableEq

/-- Record `executionPlan` of migrations.go (field `end` is spelled `end_`). -/
structure executionPlan where
  action : actionType
  beg : Int
  end_ : Int
deriving DecidableEq

/-- Outcome of a Go call: a normal return, a returned `error`, a run-time panic
(index out of range), or a loop of the embedding that ran out of fuel. -/
inductive Res (ε α : Type) where
  | ok (a : α)
  | err (e : ε)
  | panic
  | stuck
deriving DecidableEq

/-- Two's-complement wrap-around of a 64-bit signed addition or subtraction. -/
def wrapInt (x : Int) : Int := (x + 2 ^ 63) % 2 ^ 64 - 2 ^ 63

/-- Slice access `migrations[i]`; `none` is the index-out-of-range panic. -/
def index (ms : Migrations) (i : Int) : Option Migration :=
  if 0 ≤ i then ms[i.toNat]? else none

/-! ## Errors -/

/-- Errors of `Migration.load`: a failed file read, or one of the
`invalidFileErrorf` messages of the loader. -/
inductive LoadError where
  | read (e : String)
  | missingUp
  | downBeforeUp
  | missingDown
  | duplicateUp
  | unexpected (m : String)
deriving DecidableEq

/-- Errors returned by `Migration.run`. -/
inductive RunError where
  | load (e : LoadError)
  | begin (e : String)
  | exec (e : String)
  | save (e : String)
  | commit (e : String)
deriving DecidableEq

/-- Error of `executionPlan.execute`: `fmt.Errorf("%q: %v", migration.Name, err)`. -/
structure ExecError where
  name : String
  cause : RunError
deriving DecidableEq

/-- Errors of `resolveExecutionPlan`. -/
inductive ResolveError where
  | currentNotFound (version : Int)
  | targetNotFound (version : Int)
deriving DecidableEq

/-! ## Database state -/

/-- One statement seen by the database inside a transaction. -/
inductive Event where
  | exec (script : String)
  | save (version : Int)
  | commit
deriving DecidableEq

/-- State of the target database: the value held by the version-state backend,
the versions of the migrations whose forward script is in effect, and the
statements of all committed transactions in order. -/
structure Database where
  version : Int
  applied : List Int
  log : List Event
deriving DecidableEq

/-- Record `Connection` of database.go, as explicit state: the database, and a
journal of the database state observed at the end of every transaction
(committed or rolled back). -/
structure Connection where
  db : Database
  journal : List Database
deriving DecidableEq

/-- Environment of a run: the contents of the migration files and the outcome
(error or not) of every database call, as a function of the state it is made in. -/
structure World where
  readFileLines : String → Except String (List String)
  beginErr : Database → Option String
  execErr : Database → String → Option String
  saveErr : Database → Int → Option String
  commitErr : Database → Option String

/-! ## Script loader -/

/-- Class `\s` of Go regular expressions: tab, newline, form feed, carriage
return, space. -/
def isSpace (c : Char) : Bool :=
  c == '\t' || c == '\n' || c == '\x0c' || c == '\r' || c == ' '

/-- Function `matchDirective`: the capture group of
`^\s*--\s*@(up|down)\s*$` on the line, if the line matches. -/
def matchDirective (line : String) : Option String :=
  match line.toList.dropWhile isSpace with
  | '-' :: '-' :: rest =>
    match rest.dropWhile isSpace with
    | '@' :: 'u' :: 'p' :: tail => if tail.all isSpace then some "up" else none
    | '@' :: 'd' :: 'o' :: 'w' :: 'n' :: tail => if tail.all isSpace then some "down" else none
    | _ => none
  | _ => none

/-- Record `migrationLoader`. -/
structure migrationLoader where
  lines : List String
  i : Nat
  n : Nat
deriving DecidableEq

/-- Function `newMigrationLoader`. -/
def newMigrationLoader (lines : List String) : migrationLoader :=
  { lines := lines, i := 0, n := lines.length }

/-- Method `eof`. -/
def migrationLoader.eof (l : migrationLoader) : Bool := l.i == l.n

/-- Method `line`; `none` is the index-out-of-range panic. -/
def migrationLoader.line (l : migrationLoader) : Option String := l.lines[l.i]?

/-- Method `next`. -/
def migrationLoader.next (l : migrationLoader) : migrationLoader := { l with i := l.i + 1 }

/-- Method `skipHeader`: the loader after the `@up` header, or the error. -/
def migrationLoader.skipHeader : Nat → migrationLoader → Res LoadError migrationLoader
  | 0, _ => .stuck
  | fuel + 1, l =>
    if l.eof then .err .missingUp
    else
      match l.line with
      | none => .panic
      | some line =>
        match matchDirective line with
        | some m => if m = "up" then .ok l.next else .err .downBeforeUp
        | none => migrationLoader.skipHeader fuel l.next

/-- Method `loadUpSection`: the forward body built so far is `b`; every body
line is written with `fmt.Fprintln`, that is, followed by a newline. -/
def migrationLoader.loadUpSection :
    Nat → migrationLoader → String → Res LoadError (String × migrationLoader)
  | 0, _, _ => .stuck
  | fuel + 1, l, b =>
    if l.eof then .err .missingDown
    else
      match l.line with
      | none => .panic
      | some line =>
        match matchDirective line with
        | some m => if m = "down" then .ok (b, l.next) else .err .duplicateUp
        | none => migrationLoader.loadUpSection fuel l.next (b ++ line ++ "\n")

/-- Method `loadDownSection`. -/
def migrationLoader.loadDownSection :
    Nat → migrationLoader → String → Res LoadError (String × migrationLoader)
  | 0, _, _ => .stuck
  | fuel + 1, l, b =>
    if !l.eof then
      match l.line with
      | none => .panic
      | some line =>
        match matchDirective line with
        | some m => .err (.unexpected m)
        | none => migrationLoader.loadDownSection fuel l.next (b ++ line ++ "\n")
    else .ok (b, l)

/-- Method `Migration.load`: the migration with its `Up` and `Down` bodies
filled in from the file at `Path`.  Each loader loop gets one unit of fuel per
line plus one for the final test. -/
def Migration.load (w : World) (m : Migration) : Res LoadError Migration :=
  match w.readFileLines m.Path with
  | .error e => .err (.read e)
  | .ok lines =>
    let loader := newMigrationLoader lines
    match loader.skipHeader (lines.length + 1) with
    | .err e => .err e
    | .panic => .panic
    | .stuck => .stuck
    | .ok l1 =>
      match l1.loadUpSection (lines.length + 1) "" with
      | .err e => .err e
      | .panic => .panic
      | .stuck => .stuck
      | .ok (up, l2) =>
        match l2.loadDownSection (lines.length + 1) "" with
        | .err e => .err e
        | .panic => .panic
        | .stuck => .stuck
        | .ok (down, _) => .ok { m with Up := up, Down := down }

/-! ## Database operations (database.go) -/

/-- Effect of `tx.Exec(script)` for the script of migration `m` in direction
`action`: the statement is logged, and `m` becomes applied (forward script) or
stops being applied (reverse script). -/
def Database.exec (tx : Database) (action : actionType) (m : Migration) (script : String) :
    Database :=
  { tx with
    applied :=
      if action = actionType.upAction then tx.applied ++ [m.Version]
      else tx.applied.filter (fun v => decide (v ≠ m.Version))
    log := tx.log ++ [Event.exec script] }

/-- Effect of `conn.saveVersion(tx, version)`: the stored version is overwritten. -/
def Database.saveVersion (tx : Database) (version : Int) : Database :=
  { tx with version := version, log := tx.log ++ [Event.save version] }

/-- Effect of `tx.Commit()`. -/
def Database.commit (tx : Database) : Database :=
  { tx with log := tx.log ++ [Event.commit] }

/-- Method `Connection.transact`: begin, run `fn` on the transaction, roll back
when `fn` fails, commit otherwise.  A transaction that is rolled back, or whose
commit fails, leaves the database as it was. -/
def Connection.transact (w : World) (c : Connection) (fn : Database → Except RunError Database) :
    Option RunError × Connection :=
  match w.beginErr c.db with
  | some e => (some (RunError.begin e), c)
  | none =>
    match fn c.db with
    | .error e => (some e, { c with journal := c.journal ++ [c.db] })
    | .ok tx =>
      match w.commitErr tx with
      | some e => (some (RunError.commit e), { c with journal := c.journal ++ [c.db] })
      | none => (none, { db := tx.commit, journal := c.journal ++ [tx.commit] })

/-! ## Migrations (migrations.go) -/

/-- Local function `get` of `Migration.run`. -/
def get {α : Type} (action : actionType) (up down : α) : α :=
  if action = actionType.upAction then up else down

/-- Method `Migration.run`: load the scripts, then in one transaction execute
the script of the direction and save `final` as the version.  The outcome of the
load is one of the `Res` cases; `panic` and `stuck` are passed on as such.  The
progress line printed before the load is not part of the state. -/
def Migration.run (w : World) (m : Migration) (action : actionType) (conn : Connection)
    (final : Int) : Res RunError Unit × Connection :=
  match m.load w with
  | .err e => (.err (RunError.load e), conn)
  | .panic => (.panic, conn)
  | .stuck => (.stuck, conn)
  | .ok m1 =>
    match conn.transact w (fun tx =>
        match w.execErr tx (get action m1.Up m1.Down) with
        | some e => .error (RunError.exec e)
        | none =>
          match w.saveErr (tx.exec action m (get action m1.Up m1.Down)) final with
          | some e => .error (RunError.save e)
          | none => .ok ((tx.exec action m (get action m1.Up m1.Down)).saveVersion final)) with
    | (some e, conn1) => (.err e, conn1)
    | (none, conn1) => (.ok (), conn1)

/-- Loop of `Migrations.search`: `for j-i > 1 { k := (i+j)/2; ... }`; the loop
variables are never negative. -/
def searchLoop (ms : Migrations) (version : Int) : Nat → Nat → Nat → Res Unit Nat
  | 0, i, j => if j - i > 1 then .stuck else .ok i
  | fuel + 1, i, j =>
    if j - i > 1 then
      match ms[(i + j) / 2]? with
      | none => .panic
      | some mk =>
        if version < mk.Version then searchLoop ms version fuel i ((i + j) / 2)
        else searchLoop ms version fuel ((i + j) / 2) j
    else .ok i

/-- Method `Migrations.search`: the index of `version` (`-1` for version 0) and
whether it was found. -/
def search (ms : Migrations) (version : Int) : Res Unit (Int × Bool) :=
  if version = 0 then .ok (-1, true)
  else
    match searchLoop ms version ms.length 0 ms.length with
    | .ok i =>
      match ms[i]? with
      | none => .panic
      | some mi => .ok ((i : Int), decide (mi.Version = version))
    | .err e => .err e
    | .panic => .panic
    | .stuck => .stuck

/-- Function `resolveExecutionPlan`.  A command whose type has no case in the
switch (help) leaves the zero-valued plan. -/
def resolveExecutionPlan (cmd : Command) (version : Int) (migrations : Migrations) :
    Res ResolveError executionPlan :=
  match search migrations version with
  | .err _ => .panic
  | .panic => .panic
  | .stuck => .stuck
  | .ok (_, false) => .err (ResolveError.currentNotFound version)
  | .ok (cur, true) =>
    match cmd.Typ with
    | CommandType.UpCommand =>
      let last : Int := (migrations.length : Int) - 1
      if cmd.HasOperand then
        .ok { action := actionType.upAction, beg := cur + 1,
              end_ := min (wrapInt (cur + cmd.Operand)) last }
      else
        .ok { action := actionType.upAction, beg := cur + 1, end_ := last }
    | CommandType.DownCommand =>
      if cmd.HasOperand then
        .ok { action := actionType.downAction, beg := cur,
              end_ := max (wrapInt (cur - cmd.Operand)) (-1) }
      else
        .ok { action := actionType.downAction, beg := cur, end_ := -1 }
    | CommandType.GotoCommand =>
      match search migrations cmd.Operand with
      | .err _ => .panic
      | .panic => .panic
      | .stuck => .stuck
      | .ok (_, false) => .err (ResolveError.targetNotFound cmd.Operand)
      | .ok (tar, true) =>
        if cur < tar then
          .ok { action := actionType.upAction, beg := cur + 1, end_ := tar }
        else if cur > tar then
          .ok { action := actionType.downAction, beg := cur, end_ := tar }
        else
          .ok { action := actionType.noAction, beg := 0, end_ := 0 }
    | CommandType.HelpCommand =>
      .ok { action := actionType.noAction, beg := 0, end_ := 0 }

/-- Forward loop of `execute`: `for i := p.beg; i <= p.end; i++`. -/
def upLoop (w : World) (ms : Migrations) (end_ : Int) :
    Nat → Int → Connection → Res ExecError Unit × Connection
  | 0, i, conn => if i ≤ end_ then (.stuck, conn) else (.ok (), conn)
  | fuel + 1, i, conn =>
    if i ≤ end_ then
      match index ms i with
      | none => (.panic, conn)
      | some migration =>
        match migration.run w actionType.upAction conn migration.Version with
        | (.ok _, conn1) => upLoop w ms end_ fuel (i + 1) conn1
        | (.err e, conn1) => (.err { name := migration.Name, cause := e }, conn1)
        | (.panic, conn1) => (.panic, conn1)
        | (.stuck, conn1) => (.stuck, conn1)
    else (.ok (), conn)

/-- Backward loop of `execute`: `for i := p.beg; i > p.end; i--`, each step
saving `migrations[i-1].Version`. -/
def downLoop (w : World) (ms : Migrations) (end_ : Int) :
    Nat → Int → Connection → Res ExecError Unit × Connection
  | 0, i, conn => if i > end_ then (.stuck, conn) else (.ok (), conn)
  | fuel + 1, i, conn =>
    if i > end_ then
      match index ms i with
      | none => (.panic, conn)
      | some migration =>
        match index ms (i - 1) with
        | none => (.panic, conn)
        | some prev =>
          match migration.run w actionType.downAction conn prev.Version with
          | (.ok _, conn1) => downLoop w ms end_ fuel (i - 1) conn1
          | (.err e, conn1) => (.err { name := migration.Name, cause := e }, conn1)
          | (.panic, conn1) => (.panic, conn1)
          | (.stuck, conn1) => (.stuck, conn1)
    else (.ok (), conn)

/-- Method `executionPlan.execute`.  The forward loop gets `end - beg + 1` units
of fuel and the backward loop `beg - end`, one per iteration. -/
def executionPlan.execute (w : World) (p : executionPlan) (migrations : Migrations)
    (conn : Connection) : Res ExecError Unit × Connection :=
  match p.action with
  | actionType.upAction => upLoop w migrations p.end_ (p.end_ + 1 - p.beg).toNat p.beg conn
  | actionType.downAction =>
    if p.beg = -1 then (.ok (), conn)
    else
      let zero : Bool := decide (p.end_ = -1)
      let end1 : Int := if zero then 0 else p.end_
      match downLoop w migrations end1 (p.beg - end1).toNat p.beg conn with
      | (.ok _, conn1) =>
        if zero then
          match index migrations 0 with
          | none => (.panic, conn1)
          | some migration =>
            match migration.run w actionType.downAction conn1 0 with
            | (.ok _, conn2) => (.ok (), conn2)
            | (.err e, conn2) => (.err { name := migration.Name, cause := e }, conn2)
            | (.panic, conn2) => (.panic, conn2)
            | (.stuck, conn2) => (.stuck, conn2)
        else (.ok (), conn1)
      | (.err e, conn1) => (.err e, conn1)
      | (.panic, conn1) => (.panic, conn1)
      | (.stuck, conn1) => (.stuck, conn1)
  | actionType.noAction => (.ok (), conn)

/-- Method `Migrations.Run`: resolve the plan, then execute it. -/
def Run (w : World) (ms : Migrations) (cmd : Command) (conn : Connection) (version : Int) :
    Res (ResolveError ⊕ ExecError) Unit × Connection :=
  match resolveExecutionPlan cmd version ms with
  | .err e => (.err (Sum.inl e), conn)
  | .panic => (.panic, conn)
  | .stuck => (.stuck, conn)
  | .ok plan =>
    match plan.execute w ms conn with
    | (.ok _, conn1) => (.ok (), conn1)
    | (.err e, conn1) => (.err (Sum.inr e), conn1)
    | (.panic, conn1) => (.panic, conn1)
    | (.stuck, conn1) => (.stuck, conn1)

/-! ## Specification-side notions -/

/-- Catalog invariant of the data model: strictly increasing by version. -/
def StrictInc (ms : Migrations) : Prop :=
  ms.Pairwise (fun a b => a.Version < b.Version)

/-- Version `v` sits at position `i` of the catalog: position `-1` for version 0,
otherwise the index of the entry whose version is `v`. -/
def At (ms : Migrations) (v : Int) (i : Int) : Prop :=
  (v = 0 ∧ i = -1) ∨ (v ≠ 0 ∧ ∃ m, index ms i = some m ∧ m.Version = v)

/-- Version denoted by position `i`: `Catalog[i].version`, and 0 outside the
catalog (in particular at the sentinel position `-1`). -/
def verAt (ms : Migrations) (i : Int) : Int :=
  match index ms i with
  | some m => m.Version
  | none => 0

/-- Text of the script of `m` in direction `action`, as loaded from its file. -/
def script (w : World) (action : actionType) (m : Migration) : String :=
  match m.load w with
  | .ok m1 => get action m1.Up m1.Down
  | _ => ""

/-- Connection after one committed transaction that ran the script of `m` in
direction `action` and saved `final`. -/
def Connection.commitStep (w : World) (action : actionType) (m : Migration) (final : Int)
    (c : Connection) : Connection :=
  { db := ((c.db.exec action m (script w action m)).saveVersion final).commit
    journal := c.journal ++ [((c.db.exec action m (script w action m)).saveVersion final).commit] }

/-- Version the specification persists with step `k`: forward, the migration's
own version; backward, the preceding migration's version, or 0 at the start of
the catalog. -/
def persisted (action : actionType) (ms : Migrations) (k : Int) : Int :=
  if action = actionType.upAction then verAt ms k
  else if k = 0 then 0 else verAt ms (k - 1)

/-- One step of the specification's uniform loop: apply `Catalog[k]` in the
direction of the plan, persisting `persisted action ms k`. -/
def specStep (w : World) (action : actionType) (ms : Migrations) (c : Connection) (k : Int) :
    Connection :=
  match index ms k with
  | none => c
  | some m => c.commitStep w action m (persisted action ms k)

/-- Statements of the transaction of step `k`. -/
def stepEvents (w : World) (action : actionType) (ms : Migrations) (k : Int) : List Event :=
  match index ms k with
  | none => []
  | some m => [Event.exec (script w action m), Event.save (persisted action ms k), Event.commit]

/-- Indices `beg, beg+1, ..., end` in ascending order. -/
def upIndices (beg end_ : Int) : List Int :=
  (List.range (end_ + 1 - beg).toNat).map (fun (d : Nat) => beg + (d : Int))

/-- Indices `beg, beg-1, ..., end+1` in descending order. -/
def downIndices (beg end_ : Int) : List Int :=
  (List.range (beg - end_).toNat).map (fun (d : Nat) => beg - (d : Int))

/-- Every file of the catalog loads and every database call succeeds. -/
def World.Succeeds (w : World) (ms : Migrations) : Prop :=
  (∀ m ∈ ms, ∃ m1, m.load w = .ok m1) ∧ (∀ db, w.beginErr db = none) ∧
  (∀ db s, w.execErr db s = none) ∧ (∀ db v, w.saveErr db v = none) ∧
  (∀ db, w.commitErr db = none)

/-- Indices a plan walks, in the order the specification walks them: forward
`beg..end` ascending, backward `beg` down to `end+1`. -/
def planIndices (p : executionPlan) : List Int :=
  match p.action with
  | actionType.upAction => upIndices p.beg p.end_
  | actionType.downAction => downIndices p.beg p.end_
  | actionType.noAction => []

/-- Uniform loop of the specification (section 4.4): walk the indices in order,
apply `Catalog[k]` in the direction of the plan persisting `persisted action ms k`,
and stop at the first failure, reported with the name of the failing migration. -/
def specLoop (w : World) (action : actionType) (ms : Migrations) :
    List Int → Connection → Res ExecError Unit × Connection
  | [], conn => (.ok (), conn)
  | k :: ks, conn =>
    match index ms k with
    | none => (.panic, conn)
    | some migration =>
      match migration.run w action conn (persisted action ms k) with
      | (.ok _, conn1) => specLoop w action ms ks conn1
      | (.err e, conn1) => (.err { name := migration.Name, cause := e }, conn1)
      | (.panic, conn1) => (.panic, conn1)
      | (.stuck, conn1) => (.stuck, conn1)

/-- Error with which the database rejects the transaction of `m` on state `db`:
the failure of the script, else the failure of the version save, if any. -/
def txErr (w : World) (action : actionType) (m : Migration) (final : Int) (db : Database) :
    Option RunError :=
  match w.execErr db (script w action m) with
  | some e => some (RunError.exec e)
  | none =>
    match w.saveErr (db.exec action m (script w action m)) final with
    | some e => some (RunError.save e)
    | none => none

/-- Error of step `k` of a plan on state `db` (`txErr` of `Catalog[k]`). -/
def stepErr (w : World) (action : actionType) (ms : Migrations) (k : Int) (db : Database) :
    Option RunError :=
  match index ms k with
  | none => none
  | some m => txErr w action m (persisted action ms k) db

/-- Step `k` of a plan succeeds on connection `c`: the call of `run` for
`Catalog[k]` returns no error. -/
def stepOk (w : World) (action : actionType) (ms : Migrations) (k : Int) (c : Connection) :
    Prop :=
  ∀ m, index ms k = some m → (m.run w action c (persisted action ms k)).1 = .ok ()

/-- The database is at position `j` of the catalog: the recorded version is the
one denoted by `j` and the applied migrations are exactly `Catalog[0..j]`. -/
def ConsistentAt (ms : Migrations) (db : Database) (j : Int) : Prop :=
  db.version = verAt ms j ∧ db.applied = (ms.take (j + 1).toNat).map (fun m => m.Version)

/-- The recorded version is 0 or a catalog version, at some position `j`, and
the applied migrations are exactly `Catalog[0..j]`. -/
def Consistent (ms : Migrations) (db : Database) : Prop :=
  ∃ j : Int, -1 ≤ j ∧ j < ms.length ∧ ConsistentAt ms db j

/-! ## Scenario data -/

/-- Catalog entry as `LoadMigrations` builds it for a file of directory `db`:
the scripts are not loaded. -/
def entry (name : String) (version : Int) : Migration :=
  { Name := name, Path := "db/" ++ name, Version := version, Up := "", Down := "" }

/-- Catalog with versions 1, 2, 3 of the scenarios of the specification. -/
def scenarioCatalog : Migrations :=
  [entry "1_users.sql" 1, entry "2_orders.sql" 2, entry "3_index.sql" 3]

/-- World in which every file is well formed and every database call succeeds. -/
def scenarioWorld : World :=
  { readFileLines := fun path => .ok ["-- @up", "CREATE " ++ path, "-- @down", "DROP " ++ path]
    beginErr := fun _ => none
    execErr := fun _ _ => none
    saveErr := fun _ _ => none
    commitErr := fun _ => none }

/-- World of the failure scenario: as `scenarioWorld`, but the database rejects
the forward script of migration 2. -/
def failingWorld : World :=
  { scenarioWorld with
    execErr := fun _ s => if s = "CREATE db/2_orders.sql\n" then some "syntax error" else none }

/-- Connection whose database records `version`, with the migrations of
`applied` in effect, and nothing logged yet. -/
def scenarioConn (version : Int) (applied : List Int) : Connection :=
  { db := { version := version, applied := applied, log := [] }, journal := [] }

/-! ## Script loader on a given sequence of lines -/

/-- Body of `Migration.load` after the file is read: `skipHeader`, then
`loadUpSection`, then `loadDownSection` on a fresh loader; the result is the
pair of the forward and the reverse body. -/
def loadLines (lines : List String) : Res LoadError (String × String) :=
  match (newMigrationLoader lines).skipHeader (lines.length + 1) with
  | .err e => .err e
  | .panic => .panic
  | .stuck => .stuck
  | .ok l1 =>
    match l1.loadUpSection (lines.length + 1) "" with
    | .err e => .err e
    | .panic => .panic
    | .stuck => .stuck
    | .ok (up, l2) =>
      match l2.loadDownSection (lines.length + 1) "" with
      | .err e => .err e
      | .panic => .panic
      | .stuck => .stuck
      | .ok (down, _) => .ok (up, down)

/-- Loop of `skipHeader` on the lines not yet read: the lines after the `@up`
header, or the error. -/
def scanHeader : List String → Res LoadError (List String)
  | [] => .err .missingUp
  | line :: rest =>
    match matchDirective line with
    | some m => if m = "up" then .ok rest else .err .downBeforeUp
    | none => scanHeader rest

/-- Loop of `loadUpSection` on the lines not yet read, with the body built so
far: the forward body and the lines after the `@down` header, or the error. -/
def scanUp : List String → String → Res LoadError (String × List String)
  | [], _ => .err .missingDown
  | line :: rest, b =>
    match matchDirective line with
    | some m => if m = "down" then .ok (b, rest) else .err .duplicateUp
    | none => scanUp rest (b ++ line ++ "\n")

/-- Loop of `loadDownSection` on the lines not yet read, with the body built so
far: the reverse body, or the error. -/
def scanDown : List String → String → Res LoadError String
  | [], b => .ok b
  | line :: rest, b =>
    match matchDirective line with
    | some m => .err (.unexpected m)
    | none => scanDown rest (b ++ line ++ "\n")

/-- Kinds (`up` or `down`) of the header lines of a file, in order: the
subsequence of the lines that match the header pattern. -/
def headerKinds (lines : List String) : List String :=
  lines.filterMap matchDirective

/-- Text that `fmt.Fprintln` builds from body lines: every line followed by a
newline character. -/
def bodyText (body : List String) : String :=
  String.join (body.map (fun line => line ++ "\n"))

/-- Body lines joined by newline characters, as the specification words it: a
newline between consecutive lines and none at the end. -/
def joinedText (body : List String) : String :=
  "\n".intercalate body

/-- Error the specification assigns to a sequence of header kinds, `none` for
the accepted sequence `up, down`. -/
def kindsVerdict : List String → Option LoadError
  | [] => some .missingUp
  | k :: ks =>
    if k = "up" then
      match ks with
      | [] => some .missingDown
      | k2 :: ks2 =>
        if k2 = "down" then
          match ks2 with
          | [] => none
          | k3 :: _ => some (.unexpected k3)
        else some .duplicateUp
    else some .downBeforeUp

/-- World in which the files of `7_init` and of migration 2 hold the single line
`-- @up`; every other file is well formed and every database call succeeds. -/
def brokenFileWorld : World :=
  { scenarioWorld with
    readFileLines := fun path =>
      if path = "db/7_init" ∨ path = "db/2_orders.sql" then .ok ["-- @up"]
      else scenarioWorld.readFileLines path }

/-! ## Catalog construction (`LoadMigrations`) -/

/-- Value of a string of decimal digits. -/
def digitsValue (ds : List Char) : Nat :=
  ds.foldl (fun acc c => 10 * acc + (c.toNat - 48)) 0

/-- Function `strconv.ParseInt(s, 10, 64)` of the Go standard library: an
optional sign `+` or `-`, then at least one decimal digit and nothing else;
`none` stands for its error (wrong syntax, or a value outside `int64`). -/
def parseInt64 (s : String) : Option Int :=
  match s.toList with
  | '+' :: ds =>
    if ds ≠ [] ∧ ds.all Char.isDigit ∧ digitsValue ds < 2 ^ 63 then some (digitsValue ds : Int)
    else none
  | '-' :: ds =>
    if ds ≠ [] ∧ ds.all Char.isDigit ∧ digitsValue ds ≤ 2 ^ 63 then some (-(digitsValue ds : Int))
    else none
  | ds =>
    if ds ≠ [] ∧ ds.all Char.isDigit ∧ digitsValue ds < 2 ^ 63 then some (digitsValue ds : Int)
    else none

/-- Errors of `LoadMigrations`: a failed directory read, "does not specify a
version", "does not have a valid version", "duplicate version found". -/
inductive CatalogError where
  | readDir (e : String)
  | noVersion (name : String)
  | invalidVersion (name : String)
  | duplicate (version : Int)
deriving DecidableEq

/-- Result of `versionRe.FindString(name)` for `versionRe = ^\d+`: the leading
run of decimal digits of the name. -/
def leadingDigits (name : String) : String :=
  String.mk (name.toList.takeWhile Char.isDigit)

/-- Function `parseVersion`. -/
def parseVersion (name : String) : Except CatalogError Int :=
  if leadingDigits name = "" then .error (.noVersion name)
  else
    match parseInt64 (leadingDigits name) with
    | none => .error (.invalidVersion name)
    | some version =>
      if version = 0 then .error (.invalidVersion name) else .ok version

/-- Loop of `LoadMigrations` over the directory entries, with the catalog built
so far and the set `versions` of the versions seen; `join` is `filepath.Join`. -/
def loadLoop (dir : String) (join : String → String → String) :
    List String → Migrations → List Int → Except CatalogError Migrations
  | [], migrations, _ => .ok migrations
  | name :: files, migrations, versions =>
    match parseVersion name with
    | .error e => .error e
    | .ok version =>
      if version ∈ versions then .error (.duplicate version)
      else
        loadLoop dir join files
          (migrations ++
            [{ Name := name, Path := join dir name, Version := version, Up := "", Down := "" }])
          (version :: versions)

/-- Call `sort.Slice(migrations, less)` with `less` comparing versions: the
catalog sorted by version.  The versions are pairwise distinct when it is
called, so the sorted order does not depend on the sorting algorithm. -/
def sortSlice (migrations : Migrations) : Migrations :=
  migrations.insertionSort (fun a b => a.Version ≤ b.Version)

/-- Function `LoadMigrations`; `readDir` is the outcome of `os.ReadDir(dir)`,
the names of the directory entries or an error, and `join` is `filepath.Join`. -/
def LoadMigrations (dir : String) (join : String → String → String)
    (readDir : Except String (List String)) : Except CatalogError Migrations :=
  match readDir with
  | .error e => .error (.readDir e)
  | .ok files =>
    match loadLoop dir join files [] [] with
    | .error e => .error e
    | .ok migrations => .ok (sortSlice migrations)

/-- Version a file name resolves to (0 when it resolves to none). -/
def versionOf (name : String) : Int :=
  match parseVersion name with
  | .ok version => version
  | .error _ => 0

/-- Catalog entry `LoadMigrations` builds for a file name. -/
def entryOf (dir : String) (join : String → String → String) (name : String) : Migration :=
  { Name := name, Path := join dir name, Version := versionOf name, Up := "", Down := "" }

/-! ## Command parsing (command.go) -/

/-- Errors of `ParseCommand`: "no command was specified", "is not a valid number
of migrations", "is not a postive number", "no target was specified", "is not a
valid target", "is not a valid command". -/
inductive ParseError where
  | noCommand
  | invalidNumber (arg : String)
  | notPositive (arg : String)
  | noTarget
  | invalidTarget (arg : String)
  | invalidCommand (name : String)
deriving DecidableEq

/-- Function `parseNumber`. -/
def parseNumber (arg : String) : Except ParseError Int :=
  match parseInt64 arg with
  | none => .error (.invalidNumber arg)
  | some num => if num ≤ 0 then .error (.notPositive arg) else .ok num

/-- Function `parseTarget`. -/
def parseTarget (arg : String) : Except ParseError Int :=
  match parseInt64 arg with
  | none => .error (.invalidTarget arg)
  | some tar => if tar < 0 then .error (.invalidTarget arg) else .ok tar

/-- Function `ParseCommand`; the command types are spelled as `migrations.go`
spells them (`UpCommand` for `CommandUp`, and so on), and a field the source
leaves out of a `Command` literal has its zero value. -/
def ParseCommand (args : List String) : Except ParseError Command :=
  match args with
  | [] => .error .noCommand
  | name :: rest =>
    if name = "up" ∨ name = "down" then
      match rest with
      | [] =>
        .ok { Typ := if name = "up" then CommandType.UpCommand else CommandType.DownCommand,
              HasOperand := false, Operand := 0 }
      | arg :: _ =>
        match parseNumber arg with
        | .error e => .error e
        | .ok num =>
          .ok { Typ := if name = "up" then CommandType.UpCommand else CommandType.DownCommand,
                HasOperand := true, Operand := num }
    else if name = "goto" then
      match rest with
      | [] => .error .noTarget
      | arg :: _ =>
        match parseTarget arg with
        | .error e => .error e
        | .ok tar => .ok { Typ := CommandType.GotoCommand, HasOperand := true, Operand := tar }
    else if name = "help" then
      .ok { Typ := CommandType.HelpCommand, HasOperand := false, Operand := 0 }
    else .error (.invalidCommand name)

/-- Value of a decimal integer numeral: an optional sign `+` or `-` followed by
one or more decimal digits; `none` when the string is not such a numeral. -/
def decimalValue (s : String) : Option Int :=
  match s.toList with
  | '+' :: ds => if ds ≠ [] ∧ ds.all Char.isDigit then some (digitsValue ds : Int) else none
  | '-' :: ds => if ds ≠ [] ∧ ds.all Char.isDigit then some (-(digitsValue ds : Int)) else none
  | ds => if ds ≠ [] ∧ ds.all Char.isDigit then some (digitsValue ds : Int) else none

/-! ## Search -/

theorem searchLoop_bounds (ms : Migrations) (version : Int) :
    ∀ (fuel i j : Nat), i < j → j ≤ ms.length → j - i ≤ fuel + 1 →
      ∃ r, searchLoop ms version fuel i j = .ok r ∧ i ≤ r ∧ r < j := by
  intro fuel
  induction fuel with
  | zero =>
    intro i j hij hj hf
    refine ⟨i, ?_, le_refl _, hij⟩
    have : ¬ (j - i > 1) := by omega
    simp [searchLoop, this]
  | succ fuel ih =>
    intro i j hij hj hf
    by_cases h : j - i > 1
    · have hk : (i + j) / 2 < ms.length := by omega
      obtain ⟨mk, hmk⟩ : ∃ mk, ms[(i + j) / 2]? = some mk :=
        ⟨ms[(i + j) / 2], List.getElem?_eq_getElem hk⟩
      by_cases hv : version < mk.Version
      · obtain ⟨r, hr, h1, h2⟩ := ih i ((i + j) / 2) (by omega) (by omega) (by omega)
        refine ⟨r, ?_, h1, by omega⟩
        simp [searchLoop, h, hmk, hv, hr]
      · obtain ⟨r, hr, h1, h2⟩ := ih ((i + j) / 2) j (by omega) hj (by omega)
        refine ⟨r, ?_, by omega, h2⟩
        simp [searchLoop, h, hmk, hv, hr]
    · refine ⟨i, ?_, le_refl _, hij⟩
      simp [searchLoop, h]

theorem StrictInc.lt_of_lt {ms : Migrations} (h : StrictInc ms) {a b : Nat} {ma mb : Migration}
    (ha : ms[a]? = some ma) (hb : ms[b]? = some mb) (hab : a < b) : ma.Version < mb.Version := by
  have hb1 : b < ms.length := by
    by_contra hc
    rw [List.getElem?_eq_none (by omega)] at hb
    cases hb
  have ha1 : a < ms.length := by omega
  rw [List.getElem?_eq_getElem ha1] at ha
  rw [List.getElem?_eq_getElem hb1] at hb
  cases ha
  cases hb
  exact (List.pairwise_iff_getElem.mp h) a b ha1 hb1 hab

theorem searchLoop_found {ms : Migrations} (hs : StrictInc ms) {version : Int} {t : Nat}
    {mt : Migration} (ht : ms[t]? = some mt) (hv : mt.Version = version) :
    ∀ (fuel i j : Nat), i ≤ t → t < j → j ≤ ms.length → j - i ≤ fuel + 1 →
      searchLoop ms version fuel i j = .ok t := by
  intro fuel
  induction fuel with
  | zero =>
    intro i j hit htj hj hf
    have : ¬ (j - i > 1) := by omega
    have hi : i = t := by omega
    subst hi
    simp [searchLoop, this]
  | succ fuel ih =>
    intro i j hit htj hj hf
    by_cases h : j - i > 1
    · have hk : (i + j) / 2 < ms.length := by omega
      obtain ⟨mk, hmk⟩ : ∃ mk, ms[(i + j) / 2]? = some mk :=
        ⟨ms[(i + j) / 2], List.getElem?_eq_getElem hk⟩
      by_cases hlt : version < mk.Version
      · have htk : t < (i + j) / 2 := by
          by_contra hc
          rcases Nat.eq_or_lt_of_le (Nat.le_of_not_lt hc) with he | hl
          · rw [he] at hmk
            rw [ht] at hmk
            cases hmk
            omega
          · have := hs.lt_of_lt hmk ht hl
            omega
        have := ih i ((i + j) / 2) hit htk (by omega) (by omega)
        simp [searchLoop, h, hmk, hlt, this]
      · have hkt : (i + j) / 2 ≤ t := by
          by_contra hc
          have := hs.lt_of_lt ht hmk (by omega)
          omega
        have := ih ((i + j) / 2) j hkt htj hj (by omega)
        simp [searchLoop, h, hmk, hlt, this]
    · have hi : i = t := by omega
      subst hi
      simp [searchLoop, h]

theorem index_some {ms : Migrations} {i : Int} {m : Migration} (h : index ms i = some m) :
    0 ≤ i ∧ i < ms.length ∧ ms[i.toNat]? = some m := by
  unfold index at h
  split at h
  · rename_i h0
    refine ⟨h0, ?_, h⟩
    by_contra hc
    rw [List.getElem?_eq_none (by omega)] at h
    cases h
  · cases h

theorem index_isSome (ms : Migrations) {i : Int} (h0 : 0 ≤ i) (h1 : i < ms.length) :
    ∃ m, index ms i = some m := by
  have : i.toNat < ms.length := by omega
  exact ⟨ms[i.toNat], by simp [index, h0, List.getElem?_eq_getElem this]⟩

/-- On a strictly increasing catalog the lookup finds every version at its position. -/
theorem search_of_At {ms : Migrations} (hs : StrictInc ms) {v i : Int} (h : At ms v i) :
    search ms v = .ok (i, true) := by
  rcases h with ⟨h0, hi⟩ | ⟨h0, m, hm, hv⟩
  · simp [search, h0, hi]
  · obtain ⟨hi0, hi1, hget⟩ := index_some hm
    have hl := searchLoop_found hs hget hv ms.length 0 ms.length (Nat.zero_le _) (by omega)
      (le_refl _) (by omega)
    have hi : ((i.toNat : Nat) : Int) = i := Int.toNat_of_nonneg hi0
    simp [search, h0, hl, hget, hv, hi]

/-- Whatever the catalog order, a successful lookup returns a position between
`-1` and the last index. -/
theorem search_range {ms : Migrations} {v cur : Int} {b : Bool}
    (h : search ms v = .ok (cur, b)) : -1 ≤ cur ∧ cur < ms.length := by
  unfold search at h
  split at h
  · cases h
    constructor <;> omega
  · split at h
    · rename_i i hl
      split at h
      · cases h
      · rename_i mi hmi
        cases h
        have : i < ms.length := by
          by_contra hc
          rw [List.getElem?_eq_none (by omega)] at hmi
          cases hmi
        constructor <;> omega
    all_goals cases h

/-- A position the lookup reports as found denotes the version looked up. -/
theorem search_verAt {ms : Migrations} {v cur : Int}
    (h : search ms v = .ok (cur, true)) : verAt ms cur = v := by
  unfold search at h
  split at h
  · rename_i h0
    cases h
    simp [verAt, index, h0]
  · split at h
    · rename_i i hl
      split at h
      · cases h
      · rename_i mi hmi
        simp only [Res.ok.injEq, Prod.mk.injEq, decide_eq_true_eq] at h
        obtain ⟨rfl, hv⟩ := h
        simp [verAt, index, hmi, hv]
    all_goals cases h

/-! ## Index lists -/

theorem upIndices_nil {i e : Int} (h : e < i) : upIndices i e = [] := by
  have : (e + 1 - i).toNat = 0 := by omega
  simp [upIndices, this]

theorem upIndices_cons {i e : Int} (h : i ≤ e) : upIndices i e = i :: upIndices (i + 1) e := by
  have h1 : (e + 1 - i).toNat = (e + 1 - (i + 1)).toNat + 1 := by omega
  unfold upIndices
  rw [h1, List.range_succ_eq_map]
  simp only [List.map_cons, List.map_map, Nat.cast_zero, add_zero, List.cons.injEq, true_and]
  apply List.map_congr_left
  intro d _
  simp only [Function.comp_apply, Nat.succ_eq_add_one, Nat.cast_add, Nat.cast_one]
  omega

theorem downIndices_nil {i e : Int} (h : i ≤ e) : downIndices i e = [] := by
  have : (i - e).toNat = 0 := by omega
  simp [downIndices, this]

theorem downIndices_cons {i e : Int} (h : e < i) :
    downIndices i e = i :: downIndices (i - 1) e := by
  have h1 : (i - e).toNat = (i - 1 - e).toNat + 1 := by omega
  unfold downIndices
  rw [h1, List.range_succ_eq_map]
  simp only [List.map_cons, List.map_map, Nat.cast_zero, sub_zero, List.cons.injEq, true_and]
  apply List.map_congr_left
  intro d _
  simp only [Function.comp_apply, Nat.succ_eq_add_one, Nat.cast_add, Nat.cast_one]
  omega

theorem downIndices_snoc {i e : Int} (h : e ≤ i) :
    downIndices i (e - 1) = downIndices i e ++ [e] := by
  have h1 : (i - (e - 1)).toNat = (i - e).toNat + 1 := by omega
  unfold downIndices
  rw [h1, List.range_succ]
  simp only [List.map_append, List.map_cons, List.map_nil, List.append_cancel_left_eq,
    List.cons.injEq, and_true]
  omega

theorem length_upIndices (i e : Int) : (upIndices i e).length = (e + 1 - i).toNat := by
  simp [upIndices]

theorem length_downIndices (i e : Int) : (downIndices i e).length = (i - e).toNat := by
  simp [downIndices]

theorem mem_upIndices {i e k : Int} (h : k ∈ upIndices i e) : i ≤ k ∧ k ≤ e := by
  simp only [upIndices, List.mem_map, List.mem_range] at h
  obtain ⟨d, hd, rfl⟩ := h
  omega

theorem mem_downIndices {i e k : Int} (h : k ∈ downIndices i e) : e < k ∧ k ≤ i := by
  simp only [downIndices, List.mem_map, List.mem_range] at h
  obtain ⟨d, hd, rfl⟩ := h
  omega

/-! ## The loops of `execute` against the uniform loop -/

theorem persisted_up {ms : Migrations} {k : Int} {m : Migration} (h : index ms k = some m) :
    persisted actionType.upAction ms k = m.Version := by
  simp [persisted, verAt, h]

theorem persisted_down {ms : Migrations} {k : Int} {prev : Migration} (hk : k ≠ 0)
    (h : index ms (k - 1) = some prev) :
    persisted actionType.downAction ms k = prev.Version := by
  simp [persisted, verAt, h, hk]

theorem persisted_down_zero (ms : Migrations) : persisted actionType.downAction ms 0 = 0 := by
  simp [persisted]

theorem upLoop_eq_specLoop (w : World) (ms : Migrations) (e : Int) :
    ∀ (fuel : Nat) (i : Int) (conn : Connection), (e + 1 - i).toNat ≤ fuel →
      upLoop w ms e fuel i conn = specLoop w actionType.upAction ms (upIndices i e) conn := by
  intro fuel
  induction fuel with
  | zero =>
    intro i conn hf
    have h : ¬ i ≤ e := by omega
    rw [upIndices_nil (by omega)]
    simp [upLoop, specLoop, h]
  | succ fuel ih =>
    intro i conn hf
    by_cases h : i ≤ e
    · rw [upIndices_cons h]
      cases hidx : index ms i with
      | none => simp [upLoop, specLoop, h, hidx]
      | some m =>
        rw [upLoop, specLoop, if_pos h]
        simp only [hidx, persisted_up hidx]
        rcases hrun : m.run w actionType.upAction conn m.Version with ⟨r, c1⟩
        cases r with
        | ok a => simpa using ih (i + 1) c1 (by omega)
        | err x => rfl
        | panic => rfl
        | stuck => rfl
    · rw [upIndices_nil (by omega)]
      simp [upLoop, specLoop, h]

theorem downLoop_eq_specLoop (w : World) (ms : Migrations) (e : Int) (he : 0 ≤ e) :
    ∀ (fuel : Nat) (i : Int) (conn : Connection), (i - e).toNat ≤ fuel →
      downLoop w ms e fuel i conn =
        specLoop w actionType.downAction ms (downIndices i e) conn := by
  intro fuel
  induction fuel with
  | zero =>
    intro i conn hf
    have h : ¬ i > e := by omega
    rw [downIndices_nil (by omega)]
    simp [downLoop, specLoop, h]
  | succ fuel ih =>
    intro i conn hf
    by_cases h : i > e
    · rw [downIndices_cons h]
      cases hidx : index ms i with
      | none => simp [downLoop, specLoop, h, hidx]
      | some m =>
        obtain ⟨h0, h1, _⟩ := index_some hidx
        obtain ⟨prev, hprev⟩ := index_isSome ms (i := i - 1) (by omega) (by omega)
        rw [downLoop, specLoop, if_pos h]
        simp only [hidx, hprev, persisted_down (by omega : i ≠ 0) hprev]
        rcases hrun : m.run w actionType.downAction conn prev.Version with ⟨r, c1⟩
        cases r with
        | ok a => simpa using ih (i - 1) c1 (by omega)
        | err x => rfl
        | panic => rfl
        | stuck => rfl
    · rw [downIndices_nil (by omega)]
      simp [downLoop, specLoop, h]

theorem specLoop_append (w : World) (action : actionType) (ms : Migrations) :
    ∀ (a b : List Int) (c : Connection),
      specLoop w action ms (a ++ b) c =
        match specLoop w action ms a c with
        | (.ok _, c1) => specLoop w action ms b c1
        | (.err e, c1) => (.err e, c1)
        | (.panic, c1) => (.panic, c1)
        | (.stuck, c1) => (.stuck, c1) := by
  intro a
  induction a with
  | nil => intro b c; simp [specLoop]
  | cons k ks ih =>
    intro b c
    cases hidx : index ms k with
    | none => simp [specLoop, hidx]
    | some m =>
      rcases hrun : m.run w action c (persisted action ms k) with ⟨r, c1⟩
      cases r with
      | ok a => simp [specLoop, hidx, hrun, ih]
      | err x => simp [specLoop, hidx, hrun]
      | panic => simp [specLoop, hidx, hrun]
      | stuck => simp [specLoop, hidx, hrun]

/-- For a plan whose bounds are at least `-1`, `execute` is the uniform loop of
the specification over the indices of the plan, in every world. -/
theorem execute_eq_specLoop (w : World) (ms : Migrations) (p : executionPlan)
    (conn : Connection) (hd : p.action = actionType.downAction → -1 ≤ p.beg ∧ -1 ≤ p.end_) :
    p.execute w ms conn = specLoop w p.action ms (planIndices p) conn := by
  cases hact : p.action with
  | noAction => simp [executionPlan.execute, planIndices, hact, specLoop]
  | upAction =>
    simp only [executionPlan.execute, planIndices, hact]
    exact upLoop_eq_specLoop w ms p.end_ _ p.beg conn (le_refl _)
  | downAction =>
    obtain ⟨hb, he⟩ := hd hact
    simp only [executionPlan.execute, planIndices, hact]
    by_cases hbeg : p.beg = -1
    · rw [if_pos hbeg, downIndices_nil (by omega)]
      rfl
    · rw [if_neg hbeg]
      by_cases hz : p.end_ = -1
      · have hsplit : downIndices p.beg p.end_ = downIndices p.beg 0 ++ [0] := by
          rw [hz]
          exact downIndices_snoc (i := p.beg) (e := 0) (by omega)
        rw [hsplit, specLoop_append]
        simp only [hz, decide_True, if_true]
        rw [downLoop_eq_specLoop w ms 0 (le_refl _) _ p.beg conn (le_refl _)]
        rcases hloop : specLoop w actionType.downAction ms (downIndices p.beg 0) conn with ⟨r, c1⟩
        cases r with
        | ok a =>
          cases hidx : index ms 0 with
          | none => simp [specLoop, hidx]
          | some m =>
            rcases hrun : m.run w actionType.downAction c1 0 with ⟨r2, c2⟩
            cases r2 <;> simp [specLoop, hidx, hrun, persisted_down_zero]
        | err x => rfl
        | panic => rfl
        | stuck => rfl
      · have hd : decide (p.end_ = -1) = false := by simp [hz]
        simp only [hd, Bool.false_eq_true, if_false]
        rw [downLoop_eq_specLoop w ms p.end_ (by omega) _ p.beg conn (le_refl _)]
        rcases hloop : specLoop w actionType.downAction ms (downIndices p.beg p.end_) conn
          with ⟨r, c1⟩
        cases r <;> rfl

/-! ## One migration: `Migration.run` -/

theorem run_commits {w : World} {m m1 : Migration} {action : actionType} {conn : Connection}
    {final : Int} (hl : m.load w = .ok m1) (hb : w.beginErr conn.db = none)
    (ht : txErr w action m final conn.db = none)
    (hc : w.commitErr ((conn.db.exec action m (script w action m)).saveVersion final) = none) :
    m.run w action conn final = (.ok (), conn.commitStep w action m final) := by
  have hs : script w action m = get action m1.Up m1.Down := by simp [script, hl]
  rw [hs] at hc
  unfold txErr at ht
  rw [hs] at ht
  cases he : w.execErr conn.db (get action m1.Up m1.Down) with
  | some e => simp [he] at ht
  | none =>
    cases hv : w.saveErr (conn.db.exec action m (get action m1.Up m1.Down)) final with
    | some e => simp [he, hv] at ht
    | none =>
      simp [Migration.run, Connection.transact, Connection.commitStep, hl, hb, he, hv, hc, hs]

theorem run_rolls_back {w : World} {m m1 : Migration} {action : actionType} {conn : Connection}
    {final : Int} {e : RunError} (hl : m.load w = .ok m1) (hb : w.beginErr conn.db = none)
    (ht : txErr w action m final conn.db = some e) :
    m.run w action conn final = (.err e, { conn with journal := conn.journal ++ [conn.db] }) := by
  have hs : script w action m = get action m1.Up m1.Down := by simp [script, hl]
  unfold txErr at ht
  rw [hs] at ht
  cases he : w.execErr conn.db (get action m1.Up m1.Down) with
  | some x =>
    simp only [he, Option.some.injEq] at ht
    simp [Migration.run, Connection.transact, hl, hb, he, ht]
  | none =>
    cases hv : w.saveErr (conn.db.exec action m (get action m1.Up m1.Down)) final with
    | some x =>
      simp only [he, hv, Option.some.injEq] at ht
      simp [Migration.run, Connection.transact, hl, hb, he, hv, ht]
    | none => simp [he, hv] at ht

/-- In every world a call of `run` either commits its transaction, or returns
something else than success and leaves the database as it was. -/
theorem run_cases (w : World) (m : Migration) (action : actionType) (conn : Connection)
    (final : Int) :
    m.run w action conn final = (.ok (), conn.commitStep w action m final) ∨
    ∃ r c1, m.run w action conn final = (r, c1) ∧ r ≠ .ok () ∧ c1.db = conn.db ∧
      (c1.journal = conn.journal ∨ c1.journal = conn.journal ++ [conn.db]) := by
  cases hl : m.load w with
  | err e =>
    right
    exact ⟨.err (RunError.load e), conn, by simp [Migration.run, hl], by simp, rfl, Or.inl rfl⟩
  | panic => right; exact ⟨.panic, conn, by simp [Migration.run, hl], by simp, rfl, Or.inl rfl⟩
  | stuck => right; exact ⟨.stuck, conn, by simp [Migration.run, hl], by simp, rfl, Or.inl rfl⟩
  | ok m1 =>
    cases hb : w.beginErr conn.db with
    | some e =>
      right
      exact ⟨.err (RunError.begin e), conn,
        by simp [Migration.run, Connection.transact, hl, hb], by simp, rfl, Or.inl rfl⟩
    | none =>
      cases ht : txErr w action m final conn.db with
      | some e =>
        right
        exact ⟨_, _, run_rolls_back hl hb ht, by simp, rfl, Or.inr rfl⟩
      | none =>
        cases hc : w.commitErr ((conn.db.exec action m (script w action m)).saveVersion final) with
        | none => left; exact run_commits hl hb ht hc
        | some e =>
          right
          have hs : script w action m = get action m1.Up m1.Down := by simp [script, hl]
          rw [hs] at hc
          unfold txErr at ht
          rw [hs] at ht
          cases he : w.execErr conn.db (get action m1.Up m1.Down) with
          | some x => simp [he] at ht
          | none =>
            cases hv : w.saveErr (conn.db.exec action m (get action m1.Up m1.Down)) final with
            | some x => simp [he, hv] at ht
            | none =>
              exact ⟨.err (RunError.commit e), { conn with journal := conn.journal ++ [conn.db] },
                by simp [Migration.run, Connection.transact, hl, hb, he, hv, hc], by simp, rfl,
                Or.inr rfl⟩

theorem txErr_of_succeeds {w : World} {ms : Migrations} (hw : w.Succeeds ms)
    (action : actionType) (m : Migration) (final : Int) (db : Database) :
    txErr w action m final db = none := by
  simp [txErr, hw.2.2.1, hw.2.2.2.1]

theorem run_of_succeeds {w : World} {ms : Migrations} (hw : w.Succeeds ms) {m : Migration}
    (hm : m ∈ ms) (action : actionType) (conn : Connection) (final : Int) :
    m.run w action conn final = (.ok (), conn.commitStep w action m final) := by
  obtain ⟨m1, hl⟩ := hw.1 m hm
  exact run_commits hl (hw.2.1 _) (txErr_of_succeeds hw _ _ _ _) (hw.2.2.2.2 _)

theorem index_mem {ms : Migrations} {k : Int} {m : Migration} (h : index ms k = some m) :
    m ∈ ms := by
  obtain ⟨_, _, hg⟩ := index_some h
  exact List.getElem?_mem hg

/-! ## The uniform loop when everything succeeds -/

theorem specLoop_of_succeeds {w : World} {ms : Migrations} (hw : w.Succeeds ms)
    (action : actionType) :
    ∀ (ks : List Int) (c : Connection), (∀ k ∈ ks, ∃ m, index ms k = some m) →
      specLoop w action ms ks c = (.ok (), ks.foldl (specStep w action ms) c) := by
  intro ks
  induction ks with
  | nil => intro c _; rfl
  | cons k ks ih =>
    intro c hv
    obtain ⟨m, hm⟩ := hv k (List.mem_cons_self _ _)
    have hrun := run_of_succeeds hw (index_mem hm) action c (persisted action ms k)
    have hstep : specStep w action ms c k = c.commitStep w action m (persisted action ms k) := by
      simp [specStep, hm]
    rw [specLoop, List.foldl_cons, hstep]
    simp only [hm, hrun]
    exact ih _ (fun j hj => hv j (List.mem_cons_of_mem _ hj))

theorem foldl_specStep_log (w : World) (action : actionType) (ms : Migrations) :
    ∀ (ks : List Int) (c : Connection),
      (ks.foldl (specStep w action ms) c).db.log =
        c.db.log ++ ks.flatMap (stepEvents w action ms) := by
  intro ks
  induction ks with
  | nil => intro c; simp
  | cons k ks ih =>
    intro c
    rw [List.foldl_cons, ih]
    cases hm : index ms k with
    | none => simp [specStep, stepEvents, hm]
    | some m =>
      simp [specStep, stepEvents, hm, Connection.commitStep, Database.exec, Database.saveVersion,
        Database.commit]

theorem foldl_specStep_journal_length (w : World) (action : actionType) (ms : Migrations) :
    ∀ (ks : List Int) (c : Connection), (∀ k ∈ ks, ∃ m, index ms k = some m) →
      (ks.foldl (specStep w action ms) c).journal.length = c.journal.length + ks.length := by
  intro ks
  induction ks with
  | nil => intro c _; simp
  | cons k ks ih =>
    intro c hv
    obtain ⟨m, hm⟩ := hv k (List.mem_cons_self _ _)
    rw [List.foldl_cons, ih _ (fun j hj => hv j (List.mem_cons_of_mem _ hj))]
    simp [specStep, hm, Connection.commitStep]
    omega

theorem specStep_version {w : World} {action : actionType} {ms : Migrations} {k : Int}
    {m : Migration} (hm : index ms k = some m) (c : Connection) :
    (specStep w action ms c k).db.version = persisted action ms k := by
  simp [specStep, hm, Connection.commitStep, Database.exec, Database.saveVersion, Database.commit]

theorem foldl_specStep_snoc_version {w : World} {action : actionType} {ms : Migrations}
    {k : Int} {m : Migration} (hm : index ms k = some m) (ks : List Int) (c : Connection) :
    ((ks ++ [k]).foldl (specStep w action ms) c).db.version = persisted action ms k := by
  rw [List.foldl_append]
  exact specStep_version hm _

/-! ## The resolver -/

theorem resolve_up {ms : Migrations} {v cur : Int} (h : search ms v = .ok (cur, true))
    (hasOp : Bool) (n : Int) :
    resolveExecutionPlan ⟨CommandType.UpCommand, hasOp, n⟩ v ms =
      .ok { action := actionType.upAction, beg := cur + 1,
            end_ := if hasOp then min (wrapInt (cur + n)) ((ms.length : Int) - 1)
                    else (ms.length : Int) - 1 } := by
  cases hasOp <;> simp [resolveExecutionPlan, h]

theorem resolve_down {ms : Migrations} {v cur : Int} (h : search ms v = .ok (cur, true))
    (hasOp : Bool) (n : Int) :
    resolveExecutionPlan ⟨CommandType.DownCommand, hasOp, n⟩ v ms =
      .ok { action := actionType.downAction, beg := cur,
            end_ := if hasOp then max (wrapInt (cur - n)) (-1) else -1 } := by
  cases hasOp <;> simp [resolveExecutionPlan, h]

theorem resolve_goto {ms : Migrations} {v cur target tar : Int}
    (h : search ms v = .ok (cur, true)) (ht : search ms target = .ok (tar, true))
    (hasOp : Bool) :
    resolveExecutionPlan ⟨CommandType.GotoCommand, hasOp, target⟩ v ms =
      .ok (if cur < tar then { action := actionType.upAction, beg := cur + 1, end_ := tar }
           else if cur > tar then { action := actionType.downAction, beg := cur, end_ := tar }
           else { action := actionType.noAction, beg := 0, end_ := 0 }) := by
  simp only [resolveExecutionPlan, h, ht]
  split
  · rfl
  · split <;> rfl

/-- Bounds of every plan the resolver returns: a forward plan starts at a
non-negative index and ends at most at the last index; a backward plan starts
between `-1` and the last index and ends at `-1` or later. -/
theorem resolve_bounds {cmd : Command} {v : Int} {ms : Migrations} {p : executionPlan}
    (h : resolveExecutionPlan cmd v ms = .ok p) :
    (p.action = actionType.upAction → 0 ≤ p.beg ∧ p.end_ < ms.length) ∧
    (p.action = actionType.downAction → -1 ≤ p.beg ∧ p.beg < ms.length ∧ -1 ≤ p.end_) := by
  unfold resolveExecutionPlan at h
  split at h
  · cases h
  · cases h
  · cases h
  · cases h
  · rename_i cur hcur
    have hr := search_range hcur
    split at h
    · split at h
      · cases h
        refine ⟨fun _ => ⟨(by simp only []; omega), ?_⟩, (fun hc => by cases hc)⟩
        simp only []
        have := min_le_right (wrapInt (cur + cmd.Operand)) ((ms.length : Int) - 1)
        omega
      · cases h
        exact ⟨fun _ => ⟨(by simp only []; omega), (by simp only []; omega)⟩, (fun hc => by cases hc)⟩
    · split at h
      · cases h
        refine ⟨(fun hc => by cases hc), fun _ => ⟨hr.1, hr.2, ?_⟩⟩
        exact le_max_right _ _
      · cases h
        exact ⟨(fun hc => by cases hc), fun _ => ⟨hr.1, hr.2, le_refl _⟩⟩
    · split at h
      · cases h
      · cases h
      · cases h
      · cases h
      · rename_i tar htar
        have ht := search_range htar
        split at h
        · cases h
          exact ⟨fun _ => ⟨(by simp only []; omega), ht.2⟩, (fun hc => by cases hc)⟩
        · split at h
          · cases h
            exact ⟨(fun hc => by cases hc), fun _ => ⟨hr.1, hr.2, ht.1⟩⟩
          · cases h
            exact ⟨(fun hc => by cases hc), (fun hc => by cases hc)⟩
    · cases h
      exact ⟨(fun hc => by cases hc), (fun hc => by cases hc)⟩

theorem planIndices_valid {cmd : Command} {v : Int} {ms : Migrations} {p : executionPlan}
    (h : resolveExecutionPlan cmd v ms = .ok p) :
    ∀ k ∈ planIndices p, ∃ m, index ms k = some m := by
  intro k hk
  have hb := resolve_bounds h
  unfold planIndices at hk
  cases hact : p.action with
  | noAction => simp [hact] at hk
  | upAction =>
    simp only [hact] at hk
    have := mem_upIndices hk
    have hb1 := hb.1 hact
    exact index_isSome ms (by omega) (by omega)
  | downAction =>
    simp only [hact] at hk
    have := mem_downIndices hk
    have hb2 := hb.2 hact
    exact index_isSome ms (by omega) (by omega)

/-- Every plan the resolver returns is executed as the uniform loop of the
specification over its indices, in every world. -/
theorem execute_resolved (w : World) {cmd : Command} {v : Int} {ms : Migrations}
    {p : executionPlan} (h : resolveExecutionPlan cmd v ms = .ok p) (conn : Connection) :
    p.execute w ms conn = specLoop w p.action ms (planIndices p) conn :=
  execute_eq_specLoop w ms p conn (fun hd => ⟨((resolve_bounds h).2 hd).1, ((resolve_bounds h).2 hd).2.2⟩)

/-- When everything succeeds, executing a resolved plan commits one transaction
per index of the plan, in order. -/
theorem execute_of_succeeds {w : World} {cmd : Command} {v : Int} {ms : Migrations}
    {p : executionPlan} (h : resolveExecutionPlan cmd v ms = .ok p) (hw : w.Succeeds ms)
    (conn : Connection) :
    p.execute w ms conn = (.ok (), (planIndices p).foldl (specStep w p.action ms) conn) := by
  rw [execute_resolved w h, specLoop_of_succeeds hw _ _ _ (planIndices_valid h)]

/-! ## Final version of a successful run -/

theorem upIndices_snoc {i e : Int} (h : i ≤ e) : upIndices i e = upIndices i (e - 1) ++ [e] := by
  have h1 : (e + 1 - i).toNat = (e - 1 + 1 - i).toNat + 1 := by omega
  unfold upIndices
  rw [h1, List.range_succ]
  simp only [List.map_append, List.map_cons, List.map_nil, List.append_cancel_left_eq,
    List.cons.injEq, and_true]
  omega

theorem verAt_neg_one (ms : Migrations) : verAt ms (-1) = 0 := by
  simp [verAt, index]

theorem final_version_up (w : World) {ms : Migrations} {b e : Int} (hb : 0 ≤ b) (hbe : b ≤ e)
    (he : e < ms.length) (c : Connection) :
    ((upIndices b e).foldl (specStep w actionType.upAction ms) c).db.version = verAt ms e := by
  obtain ⟨m, hm⟩ := index_isSome ms (i := e) (by omega) he
  rw [upIndices_snoc hbe, foldl_specStep_snoc_version hm]
  simp [persisted]

theorem final_version_down (w : World) {ms : Migrations} {b e : Int} (he : -1 ≤ e) (heb : e < b)
    (hb : b < ms.length) (c : Connection) :
    ((downIndices b e).foldl (specStep w actionType.downAction ms) c).db.version = verAt ms e := by
  obtain ⟨m, hm⟩ := index_isSome ms (i := e + 1) (by omega) (by omega)
  have hs := downIndices_snoc (i := b) (e := e + 1) (by omega)
  rw [add_sub_cancel_right] at hs
  rw [hs, foldl_specStep_snoc_version hm]
  by_cases h0 : e + 1 = 0
  · have : e = -1 := by omega
    simp [persisted, h0, this, verAt_neg_one]
  · simp [persisted, h0]

theorem scenarioWorld_succeeds : scenarioWorld.Succeeds scenarioCatalog := by
  refine ⟨?_, fun _ => rfl, fun _ _ => rfl, fun _ _ => rfl, fun _ => rfl⟩
  intro m hm
  simp only [scenarioCatalog, List.mem_cons, List.mem_singleton, List.not_mem_nil, or_false] at hm
  rcases hm with rfl | rfl | rfl <;> exact ⟨_, rfl⟩

/-! ## Claims -/

/-- C1: a backward plan returned by the resolver has `-1 ≤ end` and `beg` inside
the catalog; in every world `execute` (loop down to index 1, then the special
step for index 0) equals the single uniform loop of the specification over the
indices `beg, beg-1, ..., end+1`; and when every load and database call succeeds
it commits exactly one transaction per such index, in that descending order,
each running the reverse script of `Catalog[k]` and saving `Catalog[k-1].Version`
(an entry of the catalog when `k ≠ 0`; 0 when `k = 0`), so that a non-empty run
ends at the version of position `end`. -/
theorem C1_backward_execute_refines_uniform_loop (w : World) (cmd : Command) (v : Int)
    (ms : Migrations) (p : executionPlan) (conn : Connection)
    (hres : resolveExecutionPlan cmd v ms = .ok p)
    (hdown : p.action = actionType.downAction) :
    (-1 ≤ p.end_ ∧ -1 ≤ p.beg ∧ p.beg < ms.length) ∧
    p.execute w ms conn =
      specLoop w actionType.downAction ms (downIndices p.beg p.end_) conn ∧
    (∀ k ∈ downIndices p.beg p.end_, ∃ m, index ms k = some m ∧
      stepEvents w actionType.downAction ms k =
        [Event.exec (script w actionType.downAction m),
         Event.save (if k = 0 then 0 else verAt ms (k - 1)), Event.commit] ∧
      (k ≠ 0 → ∃ prev, index ms (k - 1) = some prev ∧ verAt ms (k - 1) = prev.Version)) ∧
    (w.Succeeds ms →
      ∃ conn1, p.execute w ms conn = (.ok (), conn1) ∧
        conn1.db.log =
          conn.db.log ++ (downIndices p.beg p.end_).flatMap (stepEvents w actionType.downAction ms) ∧
        conn1.journal.length = conn.journal.length + (downIndices p.beg p.end_).length ∧
        (p.end_ < p.beg → conn1.db.version = verAt ms p.end_) ∧
        (p.beg ≤ p.end_ → conn1 = conn)) := by
  have hb := (resolve_bounds hres).2 hdown
  have hidx : planIndices p = downIndices p.beg p.end_ := by simp [planIndices, hdown]
  have hvalid := planIndices_valid hres
  rw [hidx] at hvalid
  refine ⟨⟨hb.2.2, hb.1, hb.2.1⟩, ?_, ?_, ?_⟩
  · have := execute_resolved w hres conn
    rwa [hidx, hdown] at this
  · intro k hk
    obtain ⟨m, hm⟩ := hvalid k hk
    refine ⟨m, hm, by simp [stepEvents, hm, persisted], fun hk0 => ?_⟩
    obtain ⟨h0, h1, _⟩ := index_some hm
    obtain ⟨prev, hprev⟩ := index_isSome ms (by omega : 0 ≤ k - 1) (by omega)
    exact ⟨prev, hprev, by simp [verAt, hprev]⟩
  · intro hw
    have hex := execute_of_succeeds hres hw conn
    rw [hidx, hdown] at hex
    refine ⟨_, hex, foldl_specStep_log _ _ _ _ _, foldl_specStep_journal_length _ _ _ _ _ hvalid,
      fun hlt => final_version_down w hb.2.2 hlt hb.2.1 conn, fun hle => ?_⟩
    rw [downIndices_nil hle]
    rfl

/-- Scenario B: catalog `[1,2,3]`, current version 3, `down 2` reverts 3 then 2
and leaves recorded version 1. -/
theorem C1_scenario_B :
    resolveExecutionPlan ⟨CommandType.DownCommand, true, 2⟩ 3 scenarioCatalog =
      .ok ⟨actionType.downAction, 2, 0⟩ ∧
    downIndices 2 0 = [2, 1] ∧
    ((⟨actionType.downAction, 2, 0⟩ : executionPlan).execute scenarioWorld scenarioCatalog
        (scenarioConn 3 [1, 2, 3])).1 = .ok () ∧
    ((⟨actionType.downAction, 2, 0⟩ : executionPlan).execute scenarioWorld scenarioCatalog
        (scenarioConn 3 [1, 2, 3])).2.db.log =
      [Event.exec "DROP db/3_index.sql\n", Event.save 2, Event.commit,
        Event.exec "DROP db/2_orders.sql\n", Event.save 1, Event.commit] ∧
    ((⟨actionType.downAction, 2, 0⟩ : executionPlan).execute scenarioWorld scenarioCatalog
        (scenarioConn 3 [1, 2, 3])).2.db.version = 1 := by
  obtain ⟨conn1, h1, h2, _, h4, _⟩ :=
    (C1_backward_execute_refines_uniform_loop scenarioWorld ⟨CommandType.DownCommand, true, 2⟩ 3
      scenarioCatalog ⟨actionType.downAction, 2, 0⟩ (scenarioConn 3 [1, 2, 3]) (by decide)
      rfl).2.2.2 scenarioWorld_succeeds
  rw [h1]
  refine ⟨by decide, by decide, rfl, ?_, ?_⟩
  · rw [h2]
    decide
  · rw [h4 (by decide)]
    decide

/-- C2: for a forward plan returned by the resolver, when every load and
database call succeeds, `execute` commits exactly one transaction per index
`beg, beg+1, ..., end`, in ascending order, each running the forward script of
`Catalog[k]` and saving `Catalog[k].Version`; for a non-empty range the final
recorded version is `Catalog[end].Version`, and an empty range changes nothing. -/
theorem C2_forward_execute (w : World) (cmd : Command) (v : Int)
    (ms : Migrations) (p : executionPlan) (conn : Connection)
    (hres : resolveExecutionPlan cmd v ms = .ok p)
    (hup : p.action = actionType.upAction) (hw : w.Succeeds ms) :
    (∀ k ∈ upIndices p.beg p.end_, ∃ m, index ms k = some m ∧
      stepEvents w actionType.upAction ms k =
        [Event.exec (script w actionType.upAction m), Event.save m.Version, Event.commit]) ∧
    ∃ conn1, p.execute w ms conn = (.ok (), conn1) ∧
      conn1.db.log =
        conn.db.log ++ (upIndices p.beg p.end_).flatMap (stepEvents w actionType.upAction ms) ∧
      conn1.journal.length = conn.journal.length + (upIndices p.beg p.end_).length ∧
      (p.beg ≤ p.end_ → ∃ m, index ms p.end_ = some m ∧ conn1.db.version = m.Version) ∧
      (p.end_ < p.beg → conn1 = conn) := by
  have hb := (resolve_bounds hres).1 hup
  have hidx : planIndices p = upIndices p.beg p.end_ := by simp [planIndices, hup]
  have hvalid := planIndices_valid hres
  rw [hidx] at hvalid
  refine ⟨?_, ?_⟩
  · intro k hk
    obtain ⟨m, hm⟩ := hvalid k hk
    exact ⟨m, hm, by simp [stepEvents, hm, persisted_up hm]⟩
  · have hex := execute_of_succeeds hres hw conn
    rw [hidx, hup] at hex
    refine ⟨_, hex, foldl_specStep_log _ _ _ _ _, foldl_specStep_journal_length _ _ _ _ _ hvalid,
      fun hle => ?_, fun hlt => ?_⟩
    · obtain ⟨m, hm⟩ := index_isSome ms (i := p.end_) (by omega) hb.2
      refine ⟨m, hm, ?_⟩
      rw [final_version_up w hb.1 hle hb.2 conn]
      simp [verAt, hm]
    · rw [upIndices_nil hlt]
      rfl

/-- Scenario A: catalog `[1,2,3]`, current version 0, `up` applies 1, 2, 3 in
order and leaves recorded version 3. -/
theorem C2_scenario_A :
    resolveExecutionPlan ⟨CommandType.UpCommand, false, 0⟩ 0 scenarioCatalog =
      .ok ⟨actionType.upAction, 0, 2⟩ ∧
    upIndices 0 2 = [0, 1, 2] ∧
    ((⟨actionType.upAction, 0, 2⟩ : executionPlan).execute scenarioWorld scenarioCatalog
        (scenarioConn 0 [])).1 = .ok () ∧
    ((⟨actionType.upAction, 0, 2⟩ : executionPlan).execute scenarioWorld scenarioCatalog
        (scenarioConn 0 [])).2.db.log =
      [Event.exec "CREATE db/1_users.sql\n", Event.save 1, Event.commit,
        Event.exec "CREATE db/2_orders.sql\n", Event.save 2, Event.commit,
        Event.exec "CREATE db/3_index.sql\n", Event.save 3, Event.commit] ∧
    ((⟨actionType.upAction, 0, 2⟩ : executionPlan).execute scenarioWorld scenarioCatalog
        (scenarioConn 0 [])).2.db.version = 3 := by
  obtain ⟨conn1, h1, h2, _, h4, _⟩ :=
    (C2_forward_execute scenarioWorld ⟨CommandType.UpCommand, false, 0⟩ 0
      scenarioCatalog ⟨actionType.upAction, 0, 2⟩ (scenarioConn 0 []) (by decide)
      rfl scenarioWorld_succeeds).2
  rw [h1]
  refine ⟨by decide, by decide, rfl, ?_, ?_⟩
  · rw [h2]
    decide
  · obtain ⟨m, hm, hv⟩ := h4 (by decide)
    have hm3 : index scenarioCatalog 2 = some (entry "3_index.sql" 3) := by decide
    simp only [] at hm
    rw [hm3] at hm
    cases hm
    rw [hv]
    rfl

/-! ## First failure -/

theorem run_eq_of_ok {w : World} {m : Migration} {action : actionType} {conn : Connection}
    {final : Int} (h : (m.run w action conn final).1 = .ok ()) :
    m.run w action conn final = (.ok (), conn.commitStep w action m final) := by
  rcases run_cases w m action conn final with hc | ⟨r, c1, hr, hne, _, _⟩
  · exact hc
  · rw [hr] at h
    exact absurd h hne

theorem specLoop_prefix_commits (w : World) (ms : Migrations) (action : actionType) :
    ∀ (pre : List Int) (conn : Connection), (∀ k ∈ pre, ∃ m, index ms k = some m) →
      (∀ a j b, pre = a ++ j :: b → stepOk w action ms j (a.foldl (specStep w action ms) conn)) →
      specLoop w action ms pre conn = (.ok (), pre.foldl (specStep w action ms) conn) := by
  intro pre
  induction pre with
  | nil => intro conn _ _; rfl
  | cons j rest ih =>
    intro conn hv hpre
    obtain ⟨m, hm⟩ := hv j (List.mem_cons_self _ _)
    have hrun := run_eq_of_ok (hpre [] j rest rfl m hm)
    rw [List.foldl_nil] at hrun
    have hstep : specStep w action ms conn j =
        conn.commitStep w action m (persisted action ms j) := by
      simp [specStep, hm]
    rw [specLoop, List.foldl_cons, hstep]
    simp only [hm, hrun]
    refine ih _ (fun k hk => hv k (List.mem_cons_of_mem _ hk)) ?_
    intro a j2 b hab
    have := hpre (j :: a) j2 b (by rw [hab]; rfl)
    rwa [List.foldl_cons, hstep] at this

/-- C3: let a plan returned by the resolver walk the indices `pre ++ k :: post`.
If every step of `pre` succeeds, and at step `k` the file loads and the
transaction opens but the database rejects the script or the version save with
error `e`, then `execute` returns the error `e` under the name of `Catalog[k]`;
the database is exactly the one left by the committed steps of `pre` (the
failing step adds neither a statement nor a version change), and the journal
shows one transaction per step of `pre` and the rolled-back one of `k`: no step
of `post` is run. -/
theorem C3_first_failure_stops_run (w : World) (cmd : Command) (v : Int) (ms : Migrations)
    (p : executionPlan) (conn : Connection) (pre post : List Int) (k : Int) (e : RunError)
    (hres : resolveExecutionPlan cmd v ms = .ok p)
    (hsplit : planIndices p = pre ++ k :: post)
    (hpre : ∀ a j b, pre = a ++ j :: b →
      stepOk w p.action ms j (a.foldl (specStep w p.action ms) conn))
    (hload : ∀ m, index ms k = some m → ∃ m1, m.load w = .ok m1)
    (hbegin : w.beginErr (pre.foldl (specStep w p.action ms) conn).db = none)
    (hk : stepErr w p.action ms k (pre.foldl (specStep w p.action ms) conn).db = some e) :
    ∃ m, index ms k = some m ∧
      p.execute w ms conn =
        (.err { name := m.Name, cause := e },
         { db := (pre.foldl (specStep w p.action ms) conn).db
           journal := (pre.foldl (specStep w p.action ms) conn).journal ++
             [(pre.foldl (specStep w p.action ms) conn).db] }) ∧
      (pre.foldl (specStep w p.action ms) conn).db.log =
        conn.db.log ++ pre.flatMap (stepEvents w p.action ms) ∧
      (pre.foldl (specStep w p.action ms) conn).journal.length =
        conn.journal.length + pre.length := by
  have hvalid := planIndices_valid hres
  rw [hsplit] at hvalid
  have hvpre : ∀ j ∈ pre, ∃ m, index ms j = some m :=
    fun j hj => hvalid j (List.mem_append_left _ hj)
  obtain ⟨m, hm⟩ := hvalid k (List.mem_append_right _ (List.mem_cons_self _ _))
  obtain ⟨m1, hl⟩ := hload m hm
  refine ⟨m, hm, ?_, foldl_specStep_log _ _ _ _ _, foldl_specStep_journal_length _ _ _ _ _ hvpre⟩
  rw [execute_resolved w hres, hsplit, specLoop_append,
    specLoop_prefix_commits w ms p.action pre conn hvpre hpre]
  simp only [stepErr, hm] at hk
  have hrun := run_rolls_back hl hbegin hk
  simp only [specLoop, hm, hrun]

/-- Failure mid-run: catalog `[1,2,3]`, current version 0, `up`, and the forward
script of migration 2 fails: the error names migration 2, migration 1 stays
committed with recorded version 1, and nothing of migrations 2 and 3 is applied. -/
theorem C3_scenario_failure_mid_run :
    resolveExecutionPlan ⟨CommandType.UpCommand, false, 0⟩ 0 scenarioCatalog =
      .ok ⟨actionType.upAction, 0, 2⟩ ∧
    planIndices ⟨actionType.upAction, 0, 2⟩ = [0] ++ 1 :: [2] ∧
    (⟨actionType.upAction, 0, 2⟩ : executionPlan).execute failingWorld scenarioCatalog
        (scenarioConn 0 []) =
      (.err { name := "2_orders.sql", cause := RunError.exec "syntax error" },
       { db := { version := 1, applied := [1],
                 log := [Event.exec "CREATE db/1_users.sql\n", Event.save 1, Event.commit] }
         journal := [{ version := 1, applied := [1],
                       log := [Event.exec "CREATE db/1_users.sql\n", Event.save 1, Event.commit] },
                     { version := 1, applied := [1],
                       log := [Event.exec "CREATE db/1_users.sql\n", Event.save 1, Event.commit] }] }) := by
  have hpre : ∀ (a : List Int) (j : Int) (b : List Int), [0] = a ++ j :: b →
      stepOk failingWorld actionType.upAction scenarioCatalog j
        (a.foldl (specStep failingWorld actionType.upAction scenarioCatalog)
          (scenarioConn 0 [])) := by
    intro a j b h
    cases a with
    | nil =>
      simp only [List.nil_append, List.cons.injEq] at h
      obtain ⟨rfl, _⟩ := h
      intro m hm
      have hm1 : index scenarioCatalog 0 = some (entry "1_users.sql" 1) := by decide
      rw [hm1] at hm
      cases hm
      decide
    | cons x a => simp at h
  have hload : ∀ m, index scenarioCatalog 1 = some m → ∃ m1, m.load failingWorld = .ok m1 := by
    intro m hm
    have hm2 : index scenarioCatalog 1 = some (entry "2_orders.sql" 2) := by decide
    rw [hm2] at hm
    cases hm
    exact ⟨_, rfl⟩
  obtain ⟨m, hm, hex, _, _⟩ :=
    C3_first_failure_stops_run failingWorld ⟨CommandType.UpCommand, false, 0⟩ 0 scenarioCatalog
      ⟨actionType.upAction, 0, 2⟩ (scenarioConn 0 []) [0] [2] 1 (RunError.exec "syntax error")
      (by decide) (by decide) hpre hload rfl (by decide)
  have hm2 : index scenarioCatalog 1 = some (entry "2_orders.sql" 2) := by decide
  rw [hm2] at hm
  cases hm
  refine ⟨by decide, by decide, ?_⟩
  rw [hex]
  decide

/-! ## The recorded version tracks the applied migrations -/

theorem resolve_beg {cmd : Command} {v cur : Int} {ms : Migrations} {p : executionPlan}
    (h : resolveExecutionPlan cmd v ms = .ok p) (hs : search ms v = .ok (cur, true)) :
    (p.action = actionType.upAction → p.beg = cur + 1) ∧
    (p.action = actionType.downAction → p.beg = cur) := by
  simp only [resolveExecutionPlan, hs] at h
  split at h
  · split at h <;> cases h <;> exact ⟨fun _ => rfl, (fun hc => by cases hc)⟩
  · split at h <;> cases h <;> exact ⟨(fun hc => by cases hc), fun _ => rfl⟩
  · split at h
    · cases h
    · cases h
    · cases h
    · cases h
    · split at h
      · cases h
        exact ⟨fun _ => rfl, (fun hc => by cases hc)⟩
      · split at h
        · cases h
          exact ⟨(fun hc => by cases hc), fun _ => rfl⟩
        · cases h
          exact ⟨(fun hc => by cases hc), (fun hc => by cases hc)⟩
  · cases h
    exact ⟨(fun hc => by cases hc), (fun hc => by cases hc)⟩

theorem consistentAt_up {ms : Migrations} {k : Int} {m : Migration} (hm : index ms k = some m)
    {db : Database} (h : ConsistentAt ms db (k - 1)) (s : String) :
    ConsistentAt ms
      (((db.exec actionType.upAction m s).saveVersion
        (persisted actionType.upAction ms k)).commit) k := by
  obtain ⟨h0, _, hg⟩ := index_some hm
  refine ⟨by simp [Database.commit, Database.saveVersion, persisted], ?_⟩
  have e1 : (k - 1 + 1).toNat = k.toNat := by omega
  have e2 : (k + 1).toNat = k.toNat + 1 := by omega
  have h2 := h.2
  rw [e1] at h2
  simp [Database.commit, Database.saveVersion, Database.exec, h2, e2, List.take_succ, hg]

theorem consistentAt_down {ms : Migrations} (hs : StrictInc ms) {k : Int} {m : Migration}
    (hm : index ms k = some m) {db : Database} (h : ConsistentAt ms db k) (s : String) :
    ConsistentAt ms
      (((db.exec actionType.downAction m s).saveVersion
        (persisted actionType.downAction ms k)).commit) (k - 1) := by
  obtain ⟨h0, _, hg⟩ := index_some hm
  constructor
  · by_cases hk : k = 0
    · simp [Database.commit, Database.saveVersion, persisted, hk, verAt_neg_one]
    · simp [Database.commit, Database.saveVersion, persisted, hk]
  · have e1 : (k - 1 + 1).toNat = k.toNat := by omega
    have e2 : (k + 1).toNat = k.toNat + 1 := by omega
    have h2 := h.2
    rw [e2, List.take_succ, hg] at h2
    rw [e1]
    have hkeep : ∀ x ∈ (ms.take k.toNat).map (fun m => m.Version),
        decide (x ≠ m.Version) = true := by
      intro x hx
      obtain ⟨y, hy, rfl⟩ := List.mem_map.mp hx
      obtain ⟨a, ha⟩ := List.mem_iff_getElem?.mp hy
      rw [List.getElem?_take] at ha
      split at ha
      · rename_i hlt
        have := hs.lt_of_lt ha hg hlt
        simp only [ne_eq, decide_eq_true_eq]
        omega
      · cases ha
    have hne : ¬ (actionType.downAction = actionType.upAction) := by decide
    simp only [Database.commit, Database.saveVersion, Database.exec, if_neg hne, h2,
      List.map_append, List.filter_append, List.filter_eq_self.mpr hkeep]
    simp

theorem specLoop_cons_journal (w : World) (action : actionType) (ms : Migrations)
    {k : Int} {m : Migration} (hm : index ms k = some m) (ks : List Int) (conn : Connection)
    (P : Database → Prop) (hc : P conn.db)
    (hcommit : P (conn.commitStep w action m (persisted action ms k)).db)
    (ih : ∃ new, (specLoop w action ms ks
          (conn.commitStep w action m (persisted action ms k))).2.journal =
        (conn.commitStep w action m (persisted action ms k)).journal ++ new ∧
      (∀ d ∈ new, P d) ∧
      P (specLoop w action ms ks (conn.commitStep w action m (persisted action ms k))).2.db) :
    ∃ new, (specLoop w action ms (k :: ks) conn).2.journal = conn.journal ++ new ∧
      (∀ d ∈ new, P d) ∧ P (specLoop w action ms (k :: ks) conn).2.db := by
  rcases run_cases w m action conn (persisted action ms k) with h | ⟨r, c1, hr, hne, hdb, hj⟩
  · obtain ⟨new, h1, h2, h3⟩ := ih
    have hs : specLoop w action ms (k :: ks) conn =
        specLoop w action ms ks (conn.commitStep w action m (persisted action ms k)) := by
      simp [specLoop, hm, h]
    rw [hs]
    refine ⟨(conn.commitStep w action m (persisted action ms k)).db :: new, ?_, ?_, h3⟩
    · rw [h1]
      simp [Connection.commitStep]
    · intro d hd
      rcases List.mem_cons.mp hd with rfl | hd
      · exact hcommit
      · exact h2 d hd
  · have hs : (specLoop w action ms (k :: ks) conn).2 = c1 := by
      cases r with
      | ok a => exact absurd rfl hne
      | err x => simp [specLoop, hm, hr]
      | panic => simp [specLoop, hm, hr]
      | stuck => simp [specLoop, hm, hr]
    rw [hs, hdb]
    rcases hj with hj | hj
    · exact ⟨[], (by simp [hj]), (fun d hd => absurd hd (List.not_mem_nil d)), hc⟩
    · exact ⟨[conn.db], hj, (fun d hd => by rw [List.mem_singleton.mp hd]; exact hc), hc⟩

theorem specLoop_up_consistent (w : World) {ms : Migrations} (e : Int) (he : e < ms.length) :
    ∀ (n : Nat) (i : Int) (conn : Connection), (e + 1 - i).toNat = n → 0 ≤ i →
      i ≤ ms.length → ConsistentAt ms conn.db (i - 1) →
      ∃ new, (specLoop w actionType.upAction ms (upIndices i e) conn).2.journal =
          conn.journal ++ new ∧ (∀ d ∈ new, Consistent ms d) ∧
        Consistent ms (specLoop w actionType.upAction ms (upIndices i e) conn).2.db := by
  intro n
  induction n with
  | zero =>
    intro i conn hn h0 hi hc
    rw [upIndices_nil (by omega)]
    exact ⟨[], (by simp [specLoop]), (fun d hd => absurd hd (List.not_mem_nil d)), ⟨i - 1, (by omega), (by omega), hc⟩⟩
  | succ n ih =>
    intro i conn hn h0 hi hc
    have hie : i ≤ e := by omega
    obtain ⟨m, hm⟩ := index_isSome ms h0 (by omega : i < ms.length)
    rw [upIndices_cons hie]
    have hnext : ConsistentAt ms
        (conn.commitStep w actionType.upAction m (persisted actionType.upAction ms i)).db
        (i + 1 - 1) := by
      rw [add_sub_cancel_right]
      exact consistentAt_up hm hc _
    refine specLoop_cons_journal w _ ms hm _ conn (Consistent ms)
      ⟨i - 1, (by omega), (by omega), hc⟩ ⟨i + 1 - 1, (by omega), (by omega), hnext⟩ ?_
    exact ih (i + 1) _ (by omega) (by omega) (by omega) hnext

theorem specLoop_down_consistent (w : World) {ms : Migrations} (hs : StrictInc ms) (e : Int)
    (he : -1 ≤ e) :
    ∀ (n : Nat) (i : Int) (conn : Connection), (i - e).toNat = n → -1 ≤ i →
      i < ms.length → ConsistentAt ms conn.db i →
      ∃ new, (specLoop w actionType.downAction ms (downIndices i e) conn).2.journal =
          conn.journal ++ new ∧ (∀ d ∈ new, Consistent ms d) ∧
        Consistent ms (specLoop w actionType.downAction ms (downIndices i e) conn).2.db := by
  intro n
  induction n with
  | zero =>
    intro i conn hn h0 hi hc
    rw [downIndices_nil (by omega)]
    exact ⟨[], (by simp [specLoop]), (fun d hd => absurd hd (List.not_mem_nil d)), ⟨i, h0, hi, hc⟩⟩
  | succ n ih =>
    intro i conn hn h0 hi hc
    have hei : e < i := by omega
    obtain ⟨m, hm⟩ := index_isSome ms (by omega : 0 ≤ i) hi
    rw [downIndices_cons hei]
    have hnext : ConsistentAt ms
        (conn.commitStep w actionType.downAction m (persisted actionType.downAction ms i)).db
        (i - 1) := consistentAt_down hs hm hc _
    refine specLoop_cons_journal w _ ms hm _ conn (Consistent ms)
      ⟨i, h0, hi, hc⟩ ⟨i - 1, (by omega), (by omega), hnext⟩ ?_
    exact ih (i - 1) _ (by omega) (by omega) (by omega) hnext

theorem At_of_consistentAt {ms : Migrations} (hpos : ∀ m ∈ ms, m.Version ≠ 0) {db : Database}
    {j : Int} (h0 : -1 ≤ j) (h1 : j < ms.length) (h : ConsistentAt ms db j) :
    At ms db.version j := by
  by_cases hj : j = -1
  · left
    rw [h.1, hj]
    exact ⟨verAt_neg_one ms, rfl⟩
  · right
    obtain ⟨m, hm⟩ := index_isSome ms (by omega : 0 ≤ j) h1
    have hv : db.version = m.Version := by rw [h.1]; simp [verAt, hm]
    exact ⟨by rw [hv]; exact hpos m (index_mem hm), m, hm, hv.symm⟩

/-- C4: on a strictly increasing catalog of nonzero versions, let the database
be consistent before a run (recorded version 0 or a catalog version at position
`i`, applied migrations exactly `Catalog[0..i]`) and let the resolver return a
plan for the recorded version.  Then in every world, whichever database call
fails, every state that executing the plan adds to the journal (one per
transaction, committed or rolled back) is consistent, and so is the database
when `execute` returns. -/
theorem C4_recorded_version_tracks_applied (w : World) (cmd : Command) (ms : Migrations)
    (p : executionPlan) (conn : Connection) (hs : StrictInc ms)
    (hpos : ∀ m ∈ ms, m.Version ≠ 0) (hinv : Consistent ms conn.db)
    (hres : resolveExecutionPlan cmd conn.db.version ms = .ok p) :
    ∃ new, (p.execute w ms conn).2.journal = conn.journal ++ new ∧
      (∀ d ∈ new, Consistent ms d) ∧ Consistent ms (p.execute w ms conn).2.db := by
  obtain ⟨j, hj0, hj1, hj⟩ := hinv
  have hsearch := search_of_At hs (At_of_consistentAt hpos hj0 hj1 hj)
  have hb := resolve_bounds hres
  have hbeg := resolve_beg hres hsearch
  rw [execute_resolved w hres]
  cases hact : p.action with
  | noAction =>
    simp only [planIndices, hact, specLoop]
    exact ⟨[], (by simp), (fun d hd => absurd hd (List.not_mem_nil d)), ⟨j, hj0, hj1, hj⟩⟩
  | upAction =>
    simp only [planIndices, hact]
    have h1 := hbeg.1 hact
    refine specLoop_up_consistent w p.end_ (hb.1 hact).2 _ p.beg conn rfl (by omega) (by omega) ?_
    rw [h1, add_sub_cancel_right]
    exact hj
  | downAction =>
    simp only [planIndices, hact]
    have h1 := hbeg.2 hact
    refine specLoop_down_consistent w hs p.end_ (hb.2 hact).2.2 _ p.beg conn rfl (by omega)
      (by omega) ?_
    rw [h1]
    exact hj

/-- Scenario: catalog `[1,2,3]`, nothing applied, `up`, in the world where the
forward script of migration 2 fails: the database stays consistent throughout. -/
theorem C4_scenario_consistent :
    (StrictInc scenarioCatalog ∧ (∀ m ∈ scenarioCatalog, m.Version ≠ 0) ∧
      Consistent scenarioCatalog (scenarioConn 0 []).db ∧
      resolveExecutionPlan ⟨CommandType.UpCommand, false, 0⟩ (scenarioConn 0 []).db.version
        scenarioCatalog = .ok ⟨actionType.upAction, 0, 2⟩) ∧
    ∃ new, ((⟨actionType.upAction, 0, 2⟩ : executionPlan).execute failingWorld scenarioCatalog
          (scenarioConn 0 [])).2.journal = (scenarioConn 0 []).journal ++ new ∧
      (∀ d ∈ new, Consistent scenarioCatalog d) ∧
      Consistent scenarioCatalog
        ((⟨actionType.upAction, 0, 2⟩ : executionPlan).execute failingWorld scenarioCatalog
          (scenarioConn 0 [])).2.db :=
  have hs : StrictInc scenarioCatalog := by unfold StrictInc; decide
  have hpos : ∀ m ∈ scenarioCatalog, m.Version ≠ 0 := by decide
  have hc : Consistent scenarioCatalog (scenarioConn 0 []).db :=
    ⟨-1, by decide, by decide, by unfold ConsistentAt; decide⟩
  have hres : resolveExecutionPlan ⟨CommandType.UpCommand, false, 0⟩
      (scenarioConn 0 []).db.version scenarioCatalog = .ok ⟨actionType.upAction, 0, 2⟩ := by
    decide
  ⟨⟨hs, hpos, hc, hres⟩,
    C4_recorded_version_tracks_applied failingWorld ⟨CommandType.UpCommand, false, 0⟩
      scenarioCatalog ⟨actionType.upAction, 0, 2⟩ (scenarioConn 0 []) hs hpos hc hres⟩

/-! ## Plans of the three commands -/

theorem verAt_of_At {ms : Migrations} {v i : Int} (h : At ms v i) : verAt ms i = v := by
  rcases h with ⟨h0, hi⟩ | ⟨_, m, hm, hv⟩
  · rw [h0, hi]
    exact verAt_neg_one ms
  · simp [verAt, hm, hv]

theorem At_range {ms : Migrations} {v i : Int} (h : At ms v i) : -1 ≤ i ∧ i < ms.length := by
  rcases h with ⟨_, hi⟩ | ⟨_, m, hm, _⟩
  · constructor <;> omega
  · obtain ⟨h0, h1, _⟩ := index_some hm
    constructor <;> omega

/-- Summary of a successful run of a resolved plan. -/
theorem execute_succeeds_summary {w : World} {cmd : Command} {v : Int} {ms : Migrations}
    {p : executionPlan} (hres : resolveExecutionPlan cmd v ms = .ok p) (hw : w.Succeeds ms)
    (conn : Connection) :
    ∃ conn1, p.execute w ms conn = (.ok (), conn1) ∧
      conn1.db.log = conn.db.log ++ (planIndices p).flatMap (stepEvents w p.action ms) ∧
      conn1.journal.length = conn.journal.length + (planIndices p).length ∧
      (p.action = actionType.upAction → p.beg ≤ p.end_ → conn1.db.version = verAt ms p.end_) ∧
      (p.action = actionType.downAction → p.end_ < p.beg →
        conn1.db.version = verAt ms p.end_) ∧
      (planIndices p = [] → conn1 = conn) := by
  have hb := resolve_bounds hres
  refine ⟨_, execute_of_succeeds hres hw conn, foldl_specStep_log _ _ _ _ _,
    foldl_specStep_journal_length _ _ _ _ _ (planIndices_valid hres), ?_, ?_, ?_⟩
  · intro hact hle
    simp only [planIndices, hact]
    exact final_version_up w (hb.1 hact).1 hle (hb.1 hact).2 conn
  · intro hact hlt
    simp only [planIndices, hact]
    exact final_version_down w (hb.2 hact).2.2 hlt (hb.2 hact).2.1 conn
  · intro hnil
    rw [hnil]
    rfl

/-- A resolved plan that walks no index runs nothing, in every world. -/
theorem execute_empty (w : World) {cmd : Command} {v : Int} {ms : Migrations}
    {p : executionPlan} (hres : resolveExecutionPlan cmd v ms = .ok p)
    (hnil : planIndices p = []) (conn : Connection) :
    p.execute w ms conn = (.ok (), conn) := by
  rw [execute_resolved w hres, hnil]
  rfl

theorem wrapInt_of_range {x : Int} (h0 : -(2 ^ 63) ≤ x) (h1 : x < 2 ^ 63) : wrapInt x = x := by
  unfold wrapInt
  omega

/-- C5, at the failing input: catalog `[1,2,3]`, current version 2 (index 1),
command `up 9223372036854775807`.  The sum `1 + (2^63-1)` wraps to `-2^63`, so
the plan ends at `-2^63` instead of `min(1 + (2^63-1), 2) = 2`, and the run
applies no migration although migration 3 remains. -/
theorem C5_up_count_overflow :
    search scenarioCatalog 2 = .ok (1, true) ∧
    min ((1 : Int) + 9223372036854775807) ((scenarioCatalog.length : Int) - 1) = 2 ∧
    resolveExecutionPlan ⟨CommandType.UpCommand, true, 9223372036854775807⟩ 2 scenarioCatalog =
      .ok ⟨actionType.upAction, 2, -9223372036854775808⟩ ∧
    Run scenarioWorld scenarioCatalog ⟨CommandType.UpCommand, true, 9223372036854775807⟩
      (scenarioConn 2 [1, 2]) 2 = (.ok (), scenarioConn 2 [1, 2]) ∧
    Run scenarioWorld scenarioCatalog ⟨CommandType.UpCommand, true, 5⟩
      (scenarioConn 2 [1, 2]) 2 =
      (.ok (), { db := { version := 3, applied := [1, 2, 3],
                         log := [Event.exec "CREATE db/3_index.sql\n", Event.save 3,
                           Event.commit] }
                 journal := [{ version := 3, applied := [1, 2, 3],
                               log := [Event.exec "CREATE db/3_index.sql\n", Event.save 3,
                                 Event.commit] }] }) := by
  refine ⟨by decide, by decide, by decide, by decide, by decide⟩

/-- C6: on a strictly increasing catalog whose length fits a Go `int`, with the
current version at position `i` and a count `1 ≤ n ≤ 2^63-1`, `down n` resolves
to the backward plan `beg = i`, `end = max(i-n, -1)` and `down` without count to
`beg = i`, `end = -1`; the plan of `down n` walks exactly `min(n, i+1)` indices,
namely `i, i-1, ...` (the most recently applied first), and a successful run
commits one transaction for each of them in that order. -/
theorem C6_down_plan (w : World) (ms : Migrations) (v i n o : Int) (conn : Connection)
    (hs : StrictInc ms) (hlen : (ms.length : Int) < 2 ^ 63) (hat : At ms v i)
    (h1 : 1 ≤ n) (h2 : n ≤ 2 ^ 63 - 1) :
    resolveExecutionPlan ⟨CommandType.DownCommand, true, n⟩ v ms =
      .ok ⟨actionType.downAction, i, max (i - n) (-1)⟩ ∧
    resolveExecutionPlan ⟨CommandType.DownCommand, false, o⟩ v ms =
      .ok ⟨actionType.downAction, i, -1⟩ ∧
    downIndices i (max (i - n) (-1)) =
      (List.range (min n (i + 1)).toNat).map (fun (d : Nat) => i - (d : Int)) ∧
    ((downIndices i (max (i - n) (-1))).length : Int) = min n (i + 1) ∧
    (w.Succeeds ms →
      ∃ conn1, (⟨actionType.downAction, i, max (i - n) (-1)⟩ : executionPlan).execute w ms conn =
          (.ok (), conn1) ∧
        conn1.db.log = conn.db.log ++
          (downIndices i (max (i - n) (-1))).flatMap (stepEvents w actionType.downAction ms) ∧
        conn1.journal.length = conn.journal.length + (min n (i + 1)).toNat) := by
  have hsearch := search_of_At hs hat
  have hr := At_range hat
  have hwrap : wrapInt (i - n) = i - n := wrapInt_of_range (by omega) (by omega)
  have hplan : resolveExecutionPlan ⟨CommandType.DownCommand, true, n⟩ v ms =
      .ok ⟨actionType.downAction, i, max (i - n) (-1)⟩ := by
    rw [resolve_down hsearch true n, hwrap]
    rfl
  have hcount : (i - max (i - n) (-1)).toNat = (min n (i + 1)).toNat := by
    rcases le_total (i - n) (-1) with h | h
    · rw [max_eq_right h, min_eq_right (by omega)]
      omega
    · rw [max_eq_left h, min_eq_left (by omega)]
      omega
  have hidx : downIndices i (max (i - n) (-1)) =
      (List.range (min n (i + 1)).toNat).map (fun (d : Nat) => i - (d : Int)) := by
    unfold downIndices
    rw [hcount]
  have hlength : ((downIndices i (max (i - n) (-1))).length : Int) = min n (i + 1) := by
    rw [length_downIndices, hcount]
    have : 0 ≤ min n (i + 1) := le_min (by omega) (by omega)
    omega
  refine ⟨hplan, ?_, hidx, hlength, ?_⟩
  · rw [resolve_down hsearch false o]
    rfl
  · intro hw
    obtain ⟨conn1, hex, hlog, hj, _, _, _⟩ := execute_succeeds_summary hplan hw conn
    refine ⟨conn1, hex, hlog, ?_⟩
    rw [hj]
    simp only [planIndices, length_downIndices, hcount]

/-- Catalog `[1,2,3]`, current version 3: `down 2` walks indices 2 and 1, and
`down 9223372036854775807` is clamped to the three applied migrations. -/
theorem C6_scenario_down :
    resolveExecutionPlan ⟨CommandType.DownCommand, true, 2⟩ 3 scenarioCatalog =
      .ok ⟨actionType.downAction, 2, 0⟩ ∧
    downIndices 2 (max (2 - 2) (-1)) = [2, 1] ∧
    resolveExecutionPlan ⟨CommandType.DownCommand, true, 9223372036854775807⟩ 3
      scenarioCatalog = .ok ⟨actionType.downAction, 2, -1⟩ ∧
    downIndices 2 (max (2 - 9223372036854775807) (-1)) = [2, 1, 0] :=
  have hs : StrictInc scenarioCatalog := by unfold StrictInc; decide
  have hat : At scenarioCatalog 3 2 := Or.inr ⟨by decide, _, rfl, rfl⟩
  ⟨(C6_down_plan scenarioWorld scenarioCatalog 3 2 2 0 (scenarioConn 3 [1, 2, 3]) hs
      (by decide) hat (by decide) (by decide)).1,
    by decide,
    by decide,
    by decide⟩

/-- C7: on a strictly increasing catalog, whatever its lowest version, with the
recorded version `v` at position `i` (0, or a catalog version), `down` without
count resolves to the plan `beg = i`, `end = -1`, and a successful run reverts
the migrations at indices `i, i-1, ..., 0`, one transaction each, and leaves the
recorded version equal to 0. -/
theorem C7_down_without_count_reaches_zero (w : World) (ms : Migrations) (v i o : Int)
    (conn : Connection) (hs : StrictInc ms) (hat : At ms v i) (hv : conn.db.version = v)
    (hw : w.Succeeds ms) :
    resolveExecutionPlan ⟨CommandType.DownCommand, false, o⟩ v ms =
      .ok ⟨actionType.downAction, i, -1⟩ ∧
    downIndices i (-1) = (List.range (i + 1).toNat).map (fun (d : Nat) => i - (d : Int)) ∧
    ∃ conn1, (⟨actionType.downAction, i, -1⟩ : executionPlan).execute w ms conn =
        (.ok (), conn1) ∧
      conn1.db.version = 0 ∧
      conn1.db.log = conn.db.log ++
        (downIndices i (-1)).flatMap (stepEvents w actionType.downAction ms) ∧
      conn1.journal.length = conn.journal.length + (i + 1).toNat := by
  have hsearch := search_of_At hs hat
  have hr := At_range hat
  have hplan : resolveExecutionPlan ⟨CommandType.DownCommand, false, o⟩ v ms =
      .ok ⟨actionType.downAction, i, -1⟩ := by
    rw [resolve_down hsearch false o]
    rfl
  have hidx : downIndices i (-1) =
      (List.range (i + 1).toNat).map (fun (d : Nat) => i - (d : Int)) := by
    unfold downIndices
    rw [sub_neg_eq_add]
  obtain ⟨conn1, hex, hlog, hj, _, hdown, hnil⟩ := execute_succeeds_summary hplan hw conn
  refine ⟨hplan, hidx, conn1, hex, ?_, hlog, ?_⟩
  · by_cases hi : i = -1
    · have hempty : planIndices ⟨actionType.downAction, i, -1⟩ = [] := by
        simp only [planIndices]
        exact downIndices_nil (by omega)
      rw [hnil hempty, hv]
      rcases hat with ⟨h0, _⟩ | ⟨_, m, hm, _⟩
      · exact h0
      · have := (index_some hm).1
        omega
    · rw [hdown rfl (by simp only []; omega)]
      exact verAt_neg_one ms
  · rw [hj]
    simp only [planIndices, length_downIndices, sub_neg_eq_add]

/-- Catalog with lowest version 40: from recorded version 50, `down` reverts
both migrations and records version 0. -/
theorem C7_scenario_high_versions :
    resolveExecutionPlan ⟨CommandType.DownCommand, false, 0⟩ 50
      [entry "40_a.sql" 40, entry "50_b.sql" 50] = .ok ⟨actionType.downAction, 1, -1⟩ ∧
    ((⟨actionType.downAction, 1, -1⟩ : executionPlan).execute scenarioWorld
      [entry "40_a.sql" 40, entry "50_b.sql" 50] (scenarioConn 50 [40, 50])).2.db =
      { version := 0, applied := [],
        log := [Event.exec "DROP db/50_b.sql\n", Event.save 40, Event.commit,
          Event.exec "DROP db/40_a.sql\n", Event.save 0, Event.commit] } := by
  have hs : StrictInc [entry "40_a.sql" 40, entry "50_b.sql" 50] := by unfold StrictInc; decide
  have hat : At [entry "40_a.sql" 40, entry "50_b.sql" 50] 50 1 := Or.inr ⟨by decide, _, rfl, rfl⟩
  have hw : scenarioWorld.Succeeds [entry "40_a.sql" 40, entry "50_b.sql" 50] := by
    refine ⟨?_, fun _ => rfl, fun _ _ => rfl, fun _ _ => rfl, fun _ => rfl⟩
    intro m hm
    simp only [List.mem_cons, List.mem_singleton, List.not_mem_nil, or_false] at hm
    rcases hm with rfl | rfl <;> exact ⟨_, rfl⟩
  refine ⟨(C7_down_without_count_reaches_zero scenarioWorld _ 50 1 0 (scenarioConn 50 [40, 50])
    hs hat rfl hw).1, ?_⟩
  decide

/-- C8: on a strictly increasing catalog, with the current version at position
`i` and the goto target at position `t` (`-1` for target 0), the resolver returns
the forward plan over `[i+1, t]` when `t > i` and the backward plan `beg = i`,
`end = t` when `t < i`; and when `t ≠ i` a successful run of that plan leaves
the recorded version equal to the requested target. -/
theorem C8_goto_plan (w : World) (ms : Migrations) (v i target t : Int) (hasOp : Bool)
    (conn : Connection) (hs : StrictInc ms) (hcur : At ms v i) (htar : At ms target t) :
    (i < t → resolveExecutionPlan ⟨CommandType.GotoCommand, hasOp, target⟩ v ms =
      .ok ⟨actionType.upAction, i + 1, t⟩) ∧
    (t < i → resolveExecutionPlan ⟨CommandType.GotoCommand, hasOp, target⟩ v ms =
      .ok ⟨actionType.downAction, i, t⟩) ∧
    (w.Succeeds ms → t ≠ i →
      ∃ p conn1, resolveExecutionPlan ⟨CommandType.GotoCommand, hasOp, target⟩ v ms = .ok p ∧
        planIndices p = (if i < t then upIndices (i + 1) t else downIndices i t) ∧
        p.execute w ms conn = (.ok (), conn1) ∧
        conn1.db.log = conn.db.log ++ (planIndices p).flatMap (stepEvents w p.action ms) ∧
        conn1.db.version = target) := by
  have h1 := search_of_At hs hcur
  have h2 := search_of_At hs htar
  have hres := resolve_goto h1 h2 hasOp
  have hup : i < t → resolveExecutionPlan ⟨CommandType.GotoCommand, hasOp, target⟩ v ms =
      .ok ⟨actionType.upAction, i + 1, t⟩ := by
    intro h
    rw [hres, if_pos h]
  have hdown : t < i → resolveExecutionPlan ⟨CommandType.GotoCommand, hasOp, target⟩ v ms =
      .ok ⟨actionType.downAction, i, t⟩ := by
    intro h
    rw [hres, if_neg (by omega), if_pos h]
  refine ⟨hup, hdown, ?_⟩
  intro hw hne
  rcases lt_or_gt_of_ne hne with h | h
  · obtain ⟨conn1, hex, hlog, _, _, hv, _⟩ := execute_succeeds_summary (hdown h) hw conn
    refine ⟨_, conn1, hdown h, ?_, hex, hlog, ?_⟩
    · simp only [planIndices]
      rw [if_neg (by omega)]
    · rw [hv rfl h]
      exact verAt_of_At htar
  · obtain ⟨conn1, hex, hlog, _, hv, _, _⟩ := execute_succeeds_summary (hup h) hw conn
    refine ⟨_, conn1, hup h, ?_, hex, hlog, ?_⟩
    · simp only [planIndices]
      rw [if_pos h]
    · rw [hv rfl (by simp only []; omega)]
      exact verAt_of_At htar

/-- Scenario C: catalog `[1,2,3]`, current version 2, `goto 0` reverts 2 then 1
and leaves recorded version 0. -/
theorem C8_scenario_C :
    resolveExecutionPlan ⟨CommandType.GotoCommand, true, 0⟩ 2 scenarioCatalog =
      .ok ⟨actionType.downAction, 1, -1⟩ ∧
    downIndices 1 (-1) = [1, 0] ∧
    ((⟨actionType.downAction, 1, -1⟩ : executionPlan).execute scenarioWorld scenarioCatalog
      (scenarioConn 2 [1, 2])).2.db =
      { version := 0, applied := [],
        log := [Event.exec "DROP db/2_orders.sql\n", Event.save 1, Event.commit,
          Event.exec "DROP db/1_users.sql\n", Event.save 0, Event.commit] } :=
  have hs : StrictInc scenarioCatalog := by unfold StrictInc; decide
  have hcur : At scenarioCatalog 2 1 := Or.inr ⟨by decide, _, rfl, rfl⟩
  have htar : At scenarioCatalog 0 (-1) := Or.inl ⟨rfl, rfl⟩
  ⟨(C8_goto_plan scenarioWorld scenarioCatalog 2 1 0 (-1) true (scenarioConn 2 [1, 2]) hs hcur
      htar).2.1 (by decide),
    by decide,
    by decide⟩

/-- C9, as stated, fails: on the catalog `[1,2,3]` with current version 5, which
no entry has, `goto 5` is not resolved to a no-op plan but rejected with
"current version 5 not found". -/
theorem C9_goto_unknown_current_version_is_rejected :
    resolveExecutionPlan ⟨CommandType.GotoCommand, true, 5⟩ 5 scenarioCatalog =
      .err (ResolveError.currentNotFound 5) ∧
    ¬ ∃ p, resolveExecutionPlan ⟨CommandType.GotoCommand, true, 5⟩ 5 scenarioCatalog = .ok p ∧
      p.action = actionType.noAction := by
  have h : resolveExecutionPlan ⟨CommandType.GotoCommand, true, 5⟩ 5 scenarioCatalog =
      .err (ResolveError.currentNotFound 5) := by decide
  refine ⟨h, ?_⟩
  rintro ⟨p, hp, _⟩
  rw [h] at hp
  cases hp

/-- C9, amended: on a strictly increasing catalog, for every current version `v`
that is 0 or the version of a catalog entry (at position `i`), the command
`GotoVersion(v)` resolves to the no-op plan (action none), and executing it, in
every world, runs no migration and leaves the connection, hence the recorded
version, unchanged. -/
theorem C9_goto_current_version_is_noop (w : World) (ms : Migrations) (v i : Int)
    (hasOp : Bool) (conn : Connection) (hs : StrictInc ms) (hat : At ms v i) :
    resolveExecutionPlan ⟨CommandType.GotoCommand, hasOp, v⟩ v ms =
      .ok ⟨actionType.noAction, 0, 0⟩ ∧
    planIndices ⟨actionType.noAction, 0, 0⟩ = [] ∧
    (⟨actionType.noAction, 0, 0⟩ : executionPlan).execute w ms conn = (.ok (), conn) := by
  have h1 := search_of_At hs hat
  refine ⟨?_, rfl, rfl⟩
  rw [resolve_goto h1 h1 hasOp, if_neg (lt_irrefl i), if_neg (lt_irrefl i)]

/-- Catalog `[1,2,3]`, current version 2: `goto 2` is a no-op. -/
theorem C9_scenario_goto_current :
    resolveExecutionPlan ⟨CommandType.GotoCommand, true, 2⟩ 2 scenarioCatalog =
      .ok ⟨actionType.noAction, 0, 0⟩ ∧
    (⟨actionType.noAction, 0, 0⟩ : executionPlan).execute scenarioWorld scenarioCatalog
      (scenarioConn 2 [1, 2]) = (.ok (), scenarioConn 2 [1, 2]) :=
  have hs : StrictInc scenarioCatalog := by unfold StrictInc; decide
  have hat : At scenarioCatalog 2 1 := Or.inr ⟨by decide, _, rfl, rfl⟩
  have h := C9_goto_current_version_is_noop scenarioWorld scenarioCatalog 2 1 true
    (scenarioConn 2 [1, 2]) hs hat
  ⟨h.1, h.2.2⟩

/-- C10: on a strictly increasing catalog, for every operand, present or absent:
an `up` command when the current version sits at the last position, and a `down`
command when the current version is 0, both resolve to a plan; the plan walks no
index, and executing it, in every world, returns success and leaves the
connection unchanged: no script is run and no version is saved. -/
theorem C10_boundary_commands_resolve_to_empty_plans (w : World) (ms : Migrations) (v o : Int)
    (hasOp : Bool) (conn : Connection) (hs : StrictInc ms)
    (hlast : At ms v ((ms.length : Int) - 1)) :
    (∃ p, resolveExecutionPlan ⟨CommandType.UpCommand, hasOp, o⟩ v ms = .ok p ∧
      planIndices p = [] ∧ p.execute w ms conn = (.ok (), conn)) ∧
    (∃ p, resolveExecutionPlan ⟨CommandType.DownCommand, hasOp, o⟩ 0 ms = .ok p ∧
      planIndices p = [] ∧ p.execute w ms conn = (.ok (), conn)) := by
  constructor
  · have hres := resolve_up (search_of_At hs hlast) hasOp o
    have hnil : planIndices
        { action := actionType.upAction, beg := (ms.length : Int) - 1 + 1,
          end_ := if hasOp then min (wrapInt ((ms.length : Int) - 1 + o)) ((ms.length : Int) - 1)
                  else (ms.length : Int) - 1 } = [] := by
      simp only [planIndices]
      apply upIndices_nil
      split
      · have := min_le_right (wrapInt ((ms.length : Int) - 1 + o)) ((ms.length : Int) - 1)
        omega
      · omega
    exact ⟨_, hres, hnil, execute_empty w hres hnil conn⟩
  · have h0 : search ms 0 = .ok (-1, true) := by simp [search]
    have hres := resolve_down h0 hasOp o
    have hnil : planIndices
        { action := actionType.downAction, beg := -1,
          end_ := if hasOp then max (wrapInt (-1 - o)) (-1) else -1 } = [] := by
      simp only [planIndices]
      apply downIndices_nil
      split
      · exact le_max_right _ _
      · exact le_refl _
    exact ⟨_, hres, hnil, execute_empty w hres hnil conn⟩

/-- Catalog `[1,2,3]`: `up 9223372036854775807` at version 3 and `down 4` at
version 0 both succeed without running anything. -/
theorem C10_scenario_boundaries :
    Run failingWorld scenarioCatalog ⟨CommandType.UpCommand, true, 9223372036854775807⟩
      (scenarioConn 3 [1, 2, 3]) 3 = (.ok (), scenarioConn 3 [1, 2, 3]) ∧
    Run failingWorld scenarioCatalog ⟨CommandType.DownCommand, true, 4⟩
      (scenarioConn 0 []) 0 = (.ok (), scenarioConn 0 []) ∧
    ∃ p, resolveExecutionPlan ⟨CommandType.UpCommand, true, 9223372036854775807⟩ 3
        scenarioCatalog = .ok p ∧ planIndices p = [] ∧
      p.execute failingWorld scenarioCatalog (scenarioConn 3 [1, 2, 3]) =
        (.ok (), scenarioConn 3 [1, 2, 3]) :=
  have hs : StrictInc scenarioCatalog := by unfold StrictInc; decide
  have hlast : At scenarioCatalog 3 ((scenarioCatalog.length : Int) - 1) :=
    Or.inr ⟨by decide, _, rfl, rfl⟩
  ⟨by decide, by decide,
    (C10_boundary_commands_resolve_to_empty_plans failingWorld scenarioCatalog 3
      9223372036854775807 true (scenarioConn 3 [1, 2, 3]) hs hlast).1⟩

/-! ## Lookup: found, absent, terminating -/

theorem index_of_getElem? {ms : Migrations} {n : Nat} {m : Migration} (h : ms[n]? = some m) :
    index ms (n : Int) = some m := by
  simp [index, h]

theorem exists_At_of_present {ms : Migrations} {v : Int}
    (h : v = 0 ∨ ∃ m ∈ ms, m.Version = v) : ∃ i, At ms v i := by
  by_cases h0 : v = 0
  · exact ⟨-1, Or.inl ⟨h0, rfl⟩⟩
  · rcases h with h | ⟨m, hm, hv⟩
    · exact absurd h h0
    · obtain ⟨n, hn⟩ := List.mem_iff_getElem?.mp hm
      exact ⟨(n : Int), Or.inr ⟨h0, m, index_of_getElem? hn, hv⟩⟩

theorem search_absent {ms : Migrations} {v : Int} (hne : ms ≠ []) (h0 : v ≠ 0)
    (habs : ∀ m ∈ ms, m.Version ≠ v) : ∃ i, search ms v = .ok (i, false) := by
  have hlen : 0 < ms.length := List.length_pos.mpr hne
  obtain ⟨r, hr, _, hlt⟩ := searchLoop_bounds ms v ms.length 0 ms.length hlen (le_refl _) (by omega)
  have hget : ms[r]? = some ms[r] := List.getElem?_eq_getElem hlt
  have hv : ms[r].Version ≠ v := habs _ (List.getElem_mem hlt)
  exact ⟨(r : Int), by simp [search, h0, hr, hget, hv]⟩

theorem search_ne_stuck (ms : Migrations) (v : Int) : search ms v ≠ .stuck := by
  by_cases h0 : v = 0
  · simp [search, h0]
  · by_cases hne : ms = []
    · subst hne
      simp [search, h0, searchLoop]
    · have hlen : 0 < ms.length := List.length_pos.mpr hne
      obtain ⟨r, hr, _, hlt⟩ :=
        searchLoop_bounds ms v ms.length 0 ms.length hlen (le_refl _) (by omega)
      have hget : ms[r]? = some ms[r] := List.getElem?_eq_getElem hlt
      simp [search, h0, hr, hget]

theorem StrictInc.index_unique {ms : Migrations} (hs : StrictInc ms) {i j : Int}
    {mi mj : Migration} (hi : index ms i = some mi) (hj : index ms j = some mj)
    (hv : mi.Version = mj.Version) : i = j := by
  obtain ⟨hi0, _, hgi⟩ := index_some hi
  obtain ⟨hj0, _, hgj⟩ := index_some hj
  rcases lt_trichotomy i.toNat j.toNat with h | h | h
  · have := hs.lt_of_lt hgi hgj h
    omega
  · omega
  · have := hs.lt_of_lt hgj hgi h
    omega

/-- C11, as stated, fails on the empty catalog: with a nonzero current version
the lookup indexes `ms[0]` and the call aborts with an index-out-of-range panic;
it returns neither the "current version not found" error nor a plan. -/
theorem C11_empty_catalog_panics :
    resolveExecutionPlan ⟨CommandType.UpCommand, false, 0⟩ 5 [] = .panic ∧
    (∀ m ∈ ([] : Migrations), m.Version ≠ 5) ∧
    ¬ ∃ e, resolveExecutionPlan ⟨CommandType.UpCommand, false, 0⟩ 5 [] = .err e := by
  have h : resolveExecutionPlan ⟨CommandType.UpCommand, false, 0⟩ 5 [] = .panic := by decide
  refine ⟨h, by simp, ?_⟩
  rintro ⟨e, he⟩
  rw [h] at he
  cases he

/-- C11, amended: on a non-empty strictly increasing catalog, for every current
version `v` and every command, the resolver returns "current version not found"
when `v` is nonzero and no entry has version `v`; otherwise "target version not
found" when the command is goto with a nonzero target that no entry has; and in
every other case it returns a plan. -/
theorem C11_resolve_errors (cmd : Command) (v : Int) (ms : Migrations) (hne : ms ≠ [])
    (hs : StrictInc ms) :
    ((v ≠ 0 ∧ ∀ m ∈ ms, m.Version ≠ v) →
      resolveExecutionPlan cmd v ms = .err (ResolveError.currentNotFound v)) ∧
    (¬ (v ≠ 0 ∧ ∀ m ∈ ms, m.Version ≠ v) →
      (cmd.Typ = CommandType.GotoCommand ∧ cmd.Operand ≠ 0 ∧
        ∀ m ∈ ms, m.Version ≠ cmd.Operand) →
      resolveExecutionPlan cmd v ms = .err (ResolveError.targetNotFound cmd.Operand)) ∧
    (¬ (v ≠ 0 ∧ ∀ m ∈ ms, m.Version ≠ v) →
      ¬ (cmd.Typ = CommandType.GotoCommand ∧ cmd.Operand ≠ 0 ∧
        ∀ m ∈ ms, m.Version ≠ cmd.Operand) →
      ∃ p, resolveExecutionPlan cmd v ms = .ok p) := by
  have hfound : ¬ (v ≠ 0 ∧ ∀ m ∈ ms, m.Version ≠ v) → ∃ i, search ms v = .ok (i, true) := by
    intro h
    have hp : v = 0 ∨ ∃ m ∈ ms, m.Version = v := by
      by_contra hc
      push_neg at hc
      exact h ⟨hc.1, hc.2⟩
    obtain ⟨i, hi⟩ := exists_At_of_present hp
    exact ⟨i, search_of_At hs hi⟩
  refine ⟨?_, ?_, ?_⟩
  · rintro ⟨h0, habs⟩
    obtain ⟨i, hi⟩ := search_absent hne h0 habs
    simp [resolveExecutionPlan, hi]
  · intro hcur ⟨hg, ht0, htabs⟩
    obtain ⟨i, hi⟩ := hfound hcur
    obtain ⟨t, ht⟩ := search_absent hne ht0 htabs
    simp [resolveExecutionPlan, hi, hg, ht]
  · intro hcur htar
    obtain ⟨i, hi⟩ := hfound hcur
    obtain ⟨typ, hasOp, n⟩ := cmd
    cases typ with
    | UpCommand => exact ⟨_, resolve_up hi hasOp n⟩
    | DownCommand => exact ⟨_, resolve_down hi hasOp n⟩
    | HelpCommand =>
      exact ⟨⟨actionType.noAction, 0, 0⟩, by simp [resolveExecutionPlan, hi]⟩
    | GotoCommand =>
      have hp : n = 0 ∨ ∃ m ∈ ms, m.Version = n := by
        by_contra hc
        push_neg at hc
        exact htar ⟨rfl, hc.1, hc.2⟩
      obtain ⟨t, ht⟩ := exists_At_of_present hp
      exact ⟨_, resolve_goto hi (search_of_At hs ht) hasOp⟩

/-- Catalog `[1,2,3]`: current version 5 is not found; from version 2, `goto 7`
fails on the target, and `goto 3` gets a plan. -/
theorem C11_scenario_not_found :
    resolveExecutionPlan ⟨CommandType.UpCommand, false, 0⟩ 5 scenarioCatalog =
      .err (ResolveError.currentNotFound 5) ∧
    resolveExecutionPlan ⟨CommandType.GotoCommand, true, 7⟩ 2 scenarioCatalog =
      .err (ResolveError.targetNotFound 7) ∧
    resolveExecutionPlan ⟨CommandType.GotoCommand, true, 3⟩ 2 scenarioCatalog =
      .ok ⟨actionType.upAction, 2, 2⟩ :=
  have hs : StrictInc scenarioCatalog := by unfold StrictInc; decide
  ⟨(C11_resolve_errors ⟨CommandType.UpCommand, false, 0⟩ 5 scenarioCatalog (by decide) hs).1
      ⟨by decide, by decide⟩,
    by decide,
    by decide⟩

/-- C12: on a non-empty catalog strictly increasing by version, `search v`
returns `(-1, found)` when `v = 0`; returns `(i, found)` when `v` is nonzero and
`Catalog[i].Version = v`, and `i` is the only index with that version; and
returns not-found when `v` is nonzero and no entry has version `v`.  The loop
terminates: on every catalog, of any length and order, `search` with the fuel
it gives the loop never runs out of fuel. -/
theorem C12_search_correct (ms : Migrations) (v : Int) (hne : ms ≠ []) (hs : StrictInc ms) :
    (v = 0 → search ms v = .ok (-1, true)) ∧
    (∀ i m, v ≠ 0 → index ms i = some m → m.Version = v →
      search ms v = .ok (i, true) ∧
      ∀ j m1, index ms j = some m1 → m1.Version = v → j = i) ∧
    (v ≠ 0 → (∀ m ∈ ms, m.Version ≠ v) → ∃ i, search ms v = .ok (i, false)) ∧
    (∀ (ms1 : Migrations) (v1 : Int), search ms1 v1 ≠ .stuck) := by
  refine ⟨?_, ?_, fun h0 habs => search_absent hne h0 habs, search_ne_stuck⟩
  · intro h0
    simp [search, h0]
  · intro i m h0 hm hv
    refine ⟨search_of_At hs (Or.inr ⟨h0, m, hm, hv⟩), ?_⟩
    intro j m1 hm1 hv1
    exact hs.index_unique hm1 hm (by rw [hv1, hv])

/-- Catalog `[1,2,3]`: version 2 is found at index 1, version 5 is not found. -/
theorem C12_scenario_search :
    search scenarioCatalog 0 = .ok (-1, true) ∧
    search scenarioCatalog 2 = .ok (1, true) ∧
    search scenarioCatalog 5 = .ok (2, false) :=
  have hs : StrictInc scenarioCatalog := by unfold StrictInc; decide
  have h := C12_search_correct scenarioCatalog 2 (by decide) hs
  ⟨by decide, (h.2.1 1 (entry "2_orders.sql" 2) (by decide) rfl rfl).1, by decide⟩

/-! ## The loader loops on the lines not yet read -/

theorem drop_cons_inv {lines : List String} {i : Nat} {x : String} {xs : List String}
    (h : lines.drop i = x :: xs) :
    i < lines.length ∧ lines[i]? = some x ∧ lines.drop (i + 1) = xs := by
  have hi : i < lines.length := by
    by_contra hc
    rw [List.drop_eq_nil_of_le (by omega)] at h
    cases h
  rw [List.drop_eq_getElem_cons hi] at h
  simp only [List.cons.injEq] at h
  exact ⟨hi, by rw [List.getElem?_eq_getElem hi, h.1], h.2⟩

theorem skipHeader_eq_scanHeader (lines : List String) :
    ∀ (suffix : List String) (fuel i : Nat), lines.drop i = suffix → i ≤ lines.length →
      suffix.length < fuel →
      (∀ rest, scanHeader suffix = .ok rest →
        ∃ j, migrationLoader.skipHeader fuel ⟨lines, i, lines.length⟩ =
            .ok ⟨lines, j, lines.length⟩ ∧ lines.drop j = rest ∧ j ≤ lines.length) ∧
      (∀ e, scanHeader suffix = .err e →
        migrationLoader.skipHeader fuel ⟨lines, i, lines.length⟩ = .err e) := by
  intro suffix
  induction suffix with
  | nil =>
    intro fuel i hd hi hf
    have hlen : i = lines.length := by
      have := List.drop_eq_nil_iff.mp hd
      omega
    obtain ⟨f, rfl⟩ : ∃ f, fuel = f + 1 := ⟨fuel - 1, by simp at hf; omega⟩
    constructor
    · intro rest h
      simp [scanHeader] at h
    · intro e h
      simp only [scanHeader, Res.err.injEq] at h
      simp [migrationLoader.skipHeader, migrationLoader.eof, hlen, h]
  | cons x xs ih =>
    intro fuel i hd hi hf
    obtain ⟨hlt, hget, hrest⟩ := drop_cons_inv hd
    obtain ⟨f, rfl⟩ : ∃ f, fuel = f + 1 := ⟨fuel - 1, by simp at hf; omega⟩
    have hne : ¬ i = lines.length := by omega
    cases hm : matchDirective x with
    | none =>
      have hstep : migrationLoader.skipHeader (f + 1) ⟨lines, i, lines.length⟩ =
          migrationLoader.skipHeader f ⟨lines, i + 1, lines.length⟩ := by
        simp [migrationLoader.skipHeader, migrationLoader.eof, migrationLoader.line,
          migrationLoader.next, hne, hget, hm]
      rw [hstep]
      have hs : scanHeader (x :: xs) = scanHeader xs := by simp [scanHeader, hm]
      rw [hs]
      exact ih f (i + 1) hrest (by omega) (by simp at hf; omega)
    | some d =>
      by_cases hd1 : d = "up"
      · constructor
        · intro rest h
          simp only [scanHeader, hm, hd1, if_true, Res.ok.injEq] at h
          refine ⟨i + 1, ?_, by rw [hrest, h], by omega⟩
          simp [migrationLoader.skipHeader, migrationLoader.eof, migrationLoader.line,
            migrationLoader.next, hne, hget, hm, hd1]
        · intro e h
          simp [scanHeader, hm, hd1] at h
      · constructor
        · intro rest h
          simp [scanHeader, hm, hd1] at h
        · intro e h
          simp only [scanHeader, hm, hd1, if_false, Res.err.injEq] at h
          simp [migrationLoader.skipHeader, migrationLoader.eof, migrationLoader.line,
            hne, hget, hm, hd1, h]

theorem loadUpSection_eq_scanUp (lines : List String) :
    ∀ (suffix : List String) (fuel i : Nat) (b : String), lines.drop i = suffix →
      i ≤ lines.length → suffix.length < fuel →
      (∀ up rest, scanUp suffix b = .ok (up, rest) →
        ∃ j, migrationLoader.loadUpSection fuel ⟨lines, i, lines.length⟩ b =
            .ok (up, ⟨lines, j, lines.length⟩) ∧ lines.drop j = rest ∧ j ≤ lines.length) ∧
      (∀ e, scanUp suffix b = .err e →
        migrationLoader.loadUpSection fuel ⟨lines, i, lines.length⟩ b = .err e) := by
  intro suffix
  induction suffix with
  | nil =>
    intro fuel i b hd hi hf
    have hlen : i = lines.length := by
      have := List.drop_eq_nil_iff.mp hd
      omega
    obtain ⟨f, rfl⟩ : ∃ f, fuel = f + 1 := ⟨fuel - 1, by simp at hf; omega⟩
    constructor
    · intro up rest h
      simp [scanUp] at h
    · intro e h
      simp only [scanUp, Res.err.injEq] at h
      simp [migrationLoader.loadUpSection, migrationLoader.eof, hlen, h]
  | cons x xs ih =>
    intro fuel i b hd hi hf
    obtain ⟨hlt, hget, hrest⟩ := drop_cons_inv hd
    obtain ⟨f, rfl⟩ : ∃ f, fuel = f + 1 := ⟨fuel - 1, by simp at hf; omega⟩
    have hne : ¬ i = lines.length := by omega
    cases hm : matchDirective x with
    | none =>
      have hstep : migrationLoader.loadUpSection (f + 1) ⟨lines, i, lines.length⟩ b =
          migrationLoader.loadUpSection f ⟨lines, i + 1, lines.length⟩ (b ++ x ++ "\n") := by
        simp [migrationLoader.loadUpSection, migrationLoader.eof, migrationLoader.line,
          migrationLoader.next, hne, hget, hm]
      rw [hstep]
      have hs : scanUp (x :: xs) b = scanUp xs (b ++ x ++ "\n") := by simp [scanUp, hm]
      rw [hs]
      exact ih f (i + 1) _ hrest (by omega) (by simp at hf; omega)
    | some d =>
      by_cases hd1 : d = "down"
      · constructor
        · intro up rest h
          simp only [scanUp, hm, hd1, if_true, Res.ok.injEq, Prod.mk.injEq] at h
          refine ⟨i + 1, ?_, by rw [hrest, h.2], by omega⟩
          simp [migrationLoader.loadUpSection, migrationLoader.eof, migrationLoader.line,
            migrationLoader.next, hne, hget, hm, hd1, h.1]
        · intro e h
          simp [scanUp, hm, hd1] at h
      · constructor
        · intro up rest h
          simp [scanUp, hm, hd1] at h
        · intro e h
          simp only [scanUp, hm, hd1, if_false, Res.err.injEq] at h
          simp [migrationLoader.loadUpSection, migrationLoader.eof, migrationLoader.line,
            hne, hget, hm, hd1, h]

theorem loadDownSection_eq_scanDown (lines : List String) :
    ∀ (suffix : List String) (fuel i : Nat) (b : String), lines.drop i = suffix →
      i ≤ lines.length → suffix.length < fuel →
      (∀ down, scanDown suffix b = .ok down →
        ∃ l, migrationLoader.loadDownSection fuel ⟨lines, i, lines.length⟩ b = .ok (down, l)) ∧
      (∀ e, scanDown suffix b = .err e →
        migrationLoader.loadDownSection fuel ⟨lines, i, lines.length⟩ b = .err e) := by
  intro suffix
  induction suffix with
  | nil =>
    intro fuel i b hd hi hf
    have hlen : i = lines.length := by
      have := List.drop_eq_nil_iff.mp hd
      omega
    obtain ⟨f, rfl⟩ : ∃ f, fuel = f + 1 := ⟨fuel - 1, by simp at hf; omega⟩
    constructor
    · intro down h
      simp only [scanDown, Res.ok.injEq] at h
      exact ⟨⟨lines, i, lines.length⟩,
        by simp [migrationLoader.loadDownSection, migrationLoader.eof, hlen, h]⟩
    · intro e h
      simp [scanDown] at h
  | cons x xs ih =>
    intro fuel i b hd hi hf
    obtain ⟨hlt, hget, hrest⟩ := drop_cons_inv hd
    obtain ⟨f, rfl⟩ : ∃ f, fuel = f + 1 := ⟨fuel - 1, by simp at hf; omega⟩
    have hne : ¬ i = lines.length := by omega
    cases hm : matchDirective x with
    | none =>
      have hstep : migrationLoader.loadDownSection (f + 1) ⟨lines, i, lines.length⟩ b =
          migrationLoader.loadDownSection f ⟨lines, i + 1, lines.length⟩ (b ++ x ++ "\n") := by
        simp [migrationLoader.loadDownSection, migrationLoader.eof, migrationLoader.line,
          migrationLoader.next, hne, hget, hm]
      rw [hstep]
      have hs : scanDown (x :: xs) b = scanDown xs (b ++ x ++ "\n") := by simp [scanDown, hm]
      rw [hs]
      exact ih f (i + 1) _ hrest (by omega) (by simp at hf; omega)
    | some d =>
      constructor
      · intro down h
        simp [scanDown, hm] at h
      · intro e h
        simp only [scanDown, hm, Res.err.injEq] at h
        simp [migrationLoader.loadDownSection, migrationLoader.eof, migrationLoader.line,
          hne, hget, hm, h]

/-! ## The loader in terms of the header kinds -/

theorem bodyText_nil : bodyText [] = "" := rfl

theorem bodyText_cons (x : String) (xs : List String) :
    bodyText (x :: xs) = x ++ "\n" ++ bodyText xs := by
  apply String.ext
  simp [bodyText, String.data_join]

theorem matchDirective_kind {line d : String} (h : matchDirective line = some d) :
    d = "up" ∨ d = "down" := by
  unfold matchDirective at h
  split at h
  · split at h
    · split at h
      · simp only [Option.some.injEq] at h
        exact Or.inl h.symm
      · cases h
    · split at h
      · simp only [Option.some.injEq] at h
        exact Or.inr h.symm
      · cases h
    · cases h
  · cases h

theorem headerKinds_cons_none {x : String} (xs : List String) (h : matchDirective x = none) :
    headerKinds (x :: xs) = headerKinds xs := by
  simp [headerKinds, h]

theorem headerKinds_cons_some {x d : String} (xs : List String) (h : matchDirective x = some d) :
    headerKinds (x :: xs) = d :: headerKinds xs := by
  simp [headerKinds, h]

theorem headerKinds_eq_nil {lines : List String} (h : ∀ l ∈ lines, matchDirective l = none) :
    headerKinds lines = [] := by
  simp only [headerKinds, List.filterMap_eq_nil_iff]
  exact h

/-- Outcome of `scanHeader` from the header kinds of the lines. -/
theorem scanHeader_kinds :
    ∀ (lines : List String),
      (headerKinds lines = [] → scanHeader lines = .err .missingUp) ∧
      (∀ k ks, headerKinds lines = k :: ks →
        (k ≠ "up" → scanHeader lines = .err .downBeforeUp) ∧
        (k = "up" → ∃ pre hu rest, lines = pre ++ hu :: rest ∧
          (∀ l ∈ pre, matchDirective l = none) ∧ matchDirective hu = some "up" ∧
          headerKinds rest = ks ∧ scanHeader lines = .ok rest)) := by
  intro lines
  induction lines with
  | nil =>
    refine ⟨fun _ => rfl, fun k ks h => ?_⟩
    simp [headerKinds] at h
  | cons x xs ih =>
    cases hm : matchDirective x with
    | none =>
      rw [headerKinds_cons_none xs hm]
      have hs : scanHeader (x :: xs) = scanHeader xs := by simp [scanHeader, hm]
      rw [hs]
      refine ⟨ih.1, fun k ks h => ⟨(ih.2 k ks h).1, fun hk => ?_⟩⟩
      obtain ⟨pre, hu, rest, h1, h2, h3, h4, h5⟩ := (ih.2 k ks h).2 hk
      refine ⟨x :: pre, hu, rest, by rw [h1]; rfl, ?_, h3, h4, h5⟩
      intro l hl
      rcases List.mem_cons.mp hl with rfl | hl
      · exact hm
      · exact h2 l hl
    | some d =>
      rw [headerKinds_cons_some xs hm]
      refine ⟨(fun h => by cases h), fun k ks h => ?_⟩
      simp only [List.cons.injEq] at h
      obtain ⟨rfl, rfl⟩ := h
      constructor
      · intro hk
        simp [scanHeader, hm, hk]
      · intro hk
        subst hk
        exact ⟨[], x, xs, rfl, (fun l hl => absurd hl (List.not_mem_nil l)), hm, rfl,
          by simp [scanHeader, hm]⟩

/-- Outcome of `scanUp` from the header kinds of the lines. -/
theorem scanUp_kinds :
    ∀ (lines : List String) (b : String),
      (headerKinds lines = [] → scanUp lines b = .err .missingDown) ∧
      (∀ k ks, headerKinds lines = k :: ks →
        (k ≠ "down" → scanUp lines b = .err .duplicateUp) ∧
        (k = "down" → ∃ body hd rest, lines = body ++ hd :: rest ∧
          (∀ l ∈ body, matchDirective l = none) ∧ matchDirective hd = some "down" ∧
          headerKinds rest = ks ∧ scanUp lines b = .ok (b ++ bodyText body, rest))) := by
  intro lines
  induction lines with
  | nil =>
    intro b
    refine ⟨fun _ => rfl, fun k ks h => ?_⟩
    simp [headerKinds] at h
  | cons x xs ih =>
    intro b
    cases hm : matchDirective x with
    | none =>
      rw [headerKinds_cons_none xs hm]
      have hs : scanUp (x :: xs) b = scanUp xs (b ++ x ++ "\n") := by simp [scanUp, hm]
      rw [hs]
      refine ⟨(ih _).1, fun k ks h => ⟨((ih _).2 k ks h).1, fun hk => ?_⟩⟩
      obtain ⟨body, hd, rest, h1, h2, h3, h4, h5⟩ := ((ih (b ++ x ++ "\n")).2 k ks h).2 hk
      refine ⟨x :: body, hd, rest, by rw [h1]; rfl, ?_, h3, h4, ?_⟩
      · intro l hl
        rcases List.mem_cons.mp hl with rfl | hl
        · exact hm
        · exact h2 l hl
      · rw [h5, bodyText_cons]
        simp only [String.append_assoc]
    | some d =>
      rw [headerKinds_cons_some xs hm]
      refine ⟨(fun h => by cases h), fun k ks h => ?_⟩
      simp only [List.cons.injEq] at h
      obtain ⟨rfl, rfl⟩ := h
      constructor
      · intro hk
        simp [scanUp, hm, hk]
      · intro hk
        subst hk
        exact ⟨[], x, xs, rfl, (fun l hl => absurd hl (List.not_mem_nil l)), hm, rfl,
          by simp [scanUp, hm, bodyText_nil]⟩

/-- Outcome of `scanDown` from the header kinds of the lines. -/
theorem scanDown_kinds :
    ∀ (lines : List String) (b : String),
      (headerKinds lines = [] →
        (∀ l ∈ lines, matchDirective l = none) ∧ scanDown lines b = .ok (b ++ bodyText lines)) ∧
      (∀ k ks, headerKinds lines = k :: ks → scanDown lines b = .err (.unexpected k)) := by
  intro lines
  induction lines with
  | nil =>
    intro b
    refine ⟨fun _ => ⟨(fun l hl => absurd hl (List.not_mem_nil l)), by simp [scanDown, bodyText_nil]⟩,
      fun k ks h => ?_⟩
    simp [headerKinds] at h
  | cons x xs ih =>
    intro b
    cases hm : matchDirective x with
    | none =>
      rw [headerKinds_cons_none xs hm]
      have hs : scanDown (x :: xs) b = scanDown xs (b ++ x ++ "\n") := by simp [scanDown, hm]
      rw [hs]
      refine ⟨fun h => ⟨?_, ?_⟩, fun k ks h => (ih _).2 k ks h⟩
      · intro l hl
        rcases List.mem_cons.mp hl with rfl | hl
        · exact hm
        · exact ((ih b).1 h).1 l hl
      · rw [((ih (b ++ x ++ "\n")).1 h).2, bodyText_cons]
        simp only [String.append_assoc]
    | some d =>
      rw [headerKinds_cons_some xs hm]
      refine ⟨(fun h => by cases h), fun k ks h => ?_⟩
      simp only [List.cons.injEq] at h
      obtain ⟨rfl, rfl⟩ := h
      simp [scanDown, hm]

theorem loadLines_of_scan (lines : List String) :
    (∀ e, scanHeader lines = .err e → loadLines lines = .err e) ∧
    (∀ rest, scanHeader lines = .ok rest →
      (∀ e, scanUp rest "" = .err e → loadLines lines = .err e) ∧
      (∀ up rest2, scanUp rest "" = .ok (up, rest2) →
        (∀ e, scanDown rest2 "" = .err e → loadLines lines = .err e) ∧
        (∀ down, scanDown rest2 "" = .ok down → loadLines lines = .ok (up, down)))) := by
  have h1 := skipHeader_eq_scanHeader lines lines (lines.length + 1) 0 rfl (Nat.zero_le _)
    (Nat.lt_succ_self _)
  constructor
  · intro e he
    simp [loadLines, newMigrationLoader, h1.2 e he]
  · intro rest hrest
    obtain ⟨j, hj, hdrop, hjle⟩ := h1.1 rest hrest
    have hlen : rest.length < lines.length + 1 := by
      rw [← hdrop, List.length_drop]
      omega
    have h2 := loadUpSection_eq_scanUp lines rest (lines.length + 1) j "" hdrop hjle hlen
    constructor
    · intro e he
      simp [loadLines, newMigrationLoader, hj, h2.2 e he]
    · intro up rest2 hup
      obtain ⟨j2, hj2, hdrop2, hj2le⟩ := h2.1 up rest2 hup
      have hlen2 : rest2.length < lines.length + 1 := by
        rw [← hdrop2, List.length_drop]
        omega
      have h3 := loadDownSection_eq_scanDown lines rest2 (lines.length + 1) j2 "" hdrop2 hj2le
        hlen2
      constructor
      · intro e he
        simp [loadLines, newMigrationLoader, hj, hj2, h3.2 e he]
      · intro down hdown
        obtain ⟨l, hl⟩ := h3.1 down hdown
        simp [loadLines, newMigrationLoader, hj, hj2, hl]

/-- The loader on a sequence of lines, from the kinds of its header lines: the
error of `kindsVerdict`, or, for the kinds `up, down`, the two bodies. -/
theorem loadLines_verdict (lines : List String) :
    (∀ e, kindsVerdict (headerKinds lines) = some e → loadLines lines = .err e) ∧
    (kindsVerdict (headerKinds lines) = none →
      headerKinds lines = ["up", "down"] ∧
      ∃ pre hu body1 hd body2, lines = pre ++ hu :: (body1 ++ hd :: body2) ∧
        (∀ l ∈ pre, matchDirective l = none) ∧ matchDirective hu = some "up" ∧
        (∀ l ∈ body1, matchDirective l = none) ∧ matchDirective hd = some "down" ∧
        (∀ l ∈ body2, matchDirective l = none) ∧
        loadLines lines = .ok (bodyText body1, bodyText body2)) := by
  have hL := loadLines_of_scan lines
  have hH := scanHeader_kinds lines
  cases hk : headerKinds lines with
  | nil =>
    refine ⟨fun e he => ?_, fun hn => by simp [kindsVerdict] at hn⟩
    simp only [kindsVerdict, Option.some.injEq] at he
    rw [← he]
    exact hL.1 _ (hH.1 hk)
  | cons k ks =>
    by_cases hup : k = "up"
    · obtain ⟨pre, hu, rest, hsplit, hpre, hhu, hrest, hscan⟩ := ((hH.2 k ks hk).2 hup)
      have hU := scanUp_kinds rest ""
      have hL2 := hL.2 rest hscan
      cases ks with
      | nil =>
        refine ⟨fun e he => ?_, fun hn => by simp [kindsVerdict, hup] at hn⟩
        simp only [kindsVerdict, hup, if_true, Option.some.injEq] at he
        rw [← he]
        exact hL2.1 _ (hU.1 hrest)
      | cons k2 ks2 =>
        by_cases hdown : k2 = "down"
        · obtain ⟨body1, hd, rest2, hsplit2, hbody1, hhd, hrest2, hscan2⟩ :=
            ((hU.2 k2 ks2 hrest).2 hdown)
          have hD := scanDown_kinds rest2 ""
          have hL3 := hL2.2 _ rest2 hscan2
          cases ks2 with
          | nil =>
            refine ⟨fun e he => by simp [kindsVerdict, hup, hdown] at he, fun _ => ?_⟩
            refine ⟨by rw [hup, hdown], pre, hu, body1, hd, rest2, by rw [hsplit, hsplit2],
              hpre, hhu, hbody1, hhd, (hD.1 hrest2).1, ?_⟩
            have := hL3.2 _ (hD.1 hrest2).2
            simpa using this
          | cons k3 ks3 =>
            refine ⟨fun e he => ?_, fun hn => by simp [kindsVerdict, hup, hdown] at hn⟩
            simp only [kindsVerdict, hup, hdown, if_true, Option.some.injEq] at he
            rw [← he]
            exact hL3.1 _ (hD.2 k3 ks3 hrest2)
        · refine ⟨fun e he => ?_, fun hn => by simp [kindsVerdict, hup, hdown] at hn⟩
          simp only [kindsVerdict, hup, hdown, if_true, if_false, Option.some.injEq] at he
          rw [← he]
          exact hL2.1 _ ((hU.2 k2 ks2 hrest).1 hdown)
    · refine ⟨fun e he => ?_, fun hn => by simp [kindsVerdict, hup] at hn⟩
      simp only [kindsVerdict, hup, if_false, Option.some.injEq] at he
      rw [← he]
      exact hL.1 _ ((hH.2 k ks hk).1 hup)

theorem loadLines_preamble {pre : List String} (hpre : ∀ l ∈ pre, matchDirective l = none)
    (rest : List String) : headerKinds (pre ++ rest) = headerKinds rest := by
  simp [headerKinds, List.filterMap_append, List.filterMap_eq_nil_iff.mpr hpre]

theorem scanHeader_total (lines : List String) :
    (∃ rest, scanHeader lines = .ok rest) ∨ ∃ e, scanHeader lines = .err e := by
  induction lines with
  | nil => exact Or.inr ⟨_, rfl⟩
  | cons x xs ih =>
    cases hm : matchDirective x with
    | none => simpa [scanHeader, hm] using ih
    | some d =>
      by_cases hd : d = "up"
      · exact Or.inl ⟨xs, by simp [scanHeader, hm, hd]⟩
      · exact Or.inr ⟨.downBeforeUp, by simp [scanHeader, hm, hd]⟩

theorem scanUp_total (lines : List String) :
    ∀ b, (∃ r, scanUp lines b = .ok r) ∨ ∃ e, scanUp lines b = .err e := by
  induction lines with
  | nil => intro b; exact Or.inr ⟨_, rfl⟩
  | cons x xs ih =>
    intro b
    cases hm : matchDirective x with
    | none => simpa [scanUp, hm] using ih _
    | some d =>
      by_cases hd : d = "down"
      · exact Or.inl ⟨(b, xs), by simp [scanUp, hm, hd]⟩
      · exact Or.inr ⟨.duplicateUp, by simp [scanUp, hm, hd]⟩

theorem scanDown_total (lines : List String) :
    ∀ b, (∃ r, scanDown lines b = .ok r) ∨ ∃ e, scanDown lines b = .err e := by
  induction lines with
  | nil => intro b; exact Or.inl ⟨b, rfl⟩
  | cons x xs ih =>
    intro b
    cases hm : matchDirective x with
    | none => simpa [scanDown, hm] using ih _
    | some d => exact Or.inr ⟨.unexpected d, by simp [scanDown, hm]⟩

/-- The loader returns bodies or an error: it neither panics nor runs out of fuel. -/
theorem loadLines_total (lines : List String) :
    (∃ r, loadLines lines = .ok r) ∨ ∃ e, loadLines lines = .err e := by
  have hL := loadLines_of_scan lines
  rcases scanHeader_total lines with ⟨rest, h1⟩ | ⟨e, h1⟩
  · rcases scanUp_total rest "" with ⟨⟨up, rest2⟩, h2⟩ | ⟨e, h2⟩
    · rcases scanDown_total rest2 "" with ⟨down, h3⟩ | ⟨e, h3⟩
      · exact Or.inl ⟨_, ((hL.2 rest h1).2 up rest2 h2).2 down h3⟩
      · exact Or.inr ⟨_, ((hL.2 rest h1).2 up rest2 h2).1 e h3⟩
    · exact Or.inr ⟨_, (hL.2 rest h1).1 e h2⟩
  · exact Or.inr ⟨_, hL.1 e h1⟩

theorem loadLines_congr {a b : List String} (h : scanHeader a = scanHeader b) :
    loadLines a = loadLines b := by
  have hA := loadLines_of_scan a
  have hB := loadLines_of_scan b
  rcases scanHeader_total a with ⟨rest, h1⟩ | ⟨e, h1⟩
  · have h1b : scanHeader b = .ok rest := by rw [← h, h1]
    rcases scanUp_total rest "" with ⟨⟨up, rest2⟩, h2⟩ | ⟨e, h2⟩
    · rcases scanDown_total rest2 "" with ⟨down, h3⟩ | ⟨e, h3⟩
      · rw [((hA.2 rest h1).2 up rest2 h2).2 down h3, ((hB.2 rest h1b).2 up rest2 h2).2 down h3]
      · rw [((hA.2 rest h1).2 up rest2 h2).1 e h3, ((hB.2 rest h1b).2 up rest2 h2).1 e h3]
    · rw [(hA.2 rest h1).1 e h2, (hB.2 rest h1b).1 e h2]
  · have h1b : scanHeader b = .err e := by rw [← h, h1]
    rw [hA.1 e h1, hB.1 e h1b]

theorem scanHeader_preamble {pre : List String} (hpre : ∀ l ∈ pre, matchDirective l = none)
    (rest : List String) : scanHeader (pre ++ rest) = scanHeader rest := by
  induction pre with
  | nil => rfl
  | cons x xs ih =>
    have hx : matchDirective x = none := hpre x (List.mem_cons_self _ _)
    have := ih (fun l hl => hpre l (List.mem_cons_of_mem _ hl))
    simpa [scanHeader, hx] using this

theorem load_eq_loadLines (w : World) (m : Migration) {lines : List String}
    (h : w.readFileLines m.Path = .ok lines) :
    m.load w =
      match loadLines lines with
      | .ok (up, down) => .ok { m with Up := up, Down := down }
      | .err e => .err e
      | .panic => .panic
      | .stuck => .stuck := by
  unfold Migration.load loadLines
  rw [h]
  simp only []
  split
  · rfl
  · rfl
  · rfl
  · split
    · rfl
    · rfl
    · rfl
    · split <;> rfl

theorem run_of_load_err {w : World} {m : Migration} {e : LoadError} (h : m.load w = .err e)
    (action : actionType) (conn : Connection) (final : Int) :
    m.run w action conn final = (.err (RunError.load e), conn) := by
  simp [Migration.run, h]

/-- C13: the script loader (`skipHeader`, then `loadUpSection`, then
`loadDownSection`) accepts a sequence of lines if and only if the subsequence of
its header lines is exactly one `@up` header followed by one `@down` header; and
the lines before the first header are ignored: replacing a preamble without
header lines by any other one (adding, removing or changing lines) leaves the
result, bodies or error, the same. -/
theorem C13_loader_accepts_iff (lines : List String) :
    ((∃ r, loadLines lines = .ok r) ↔ headerKinds lines = ["up", "down"]) ∧
    (∀ pre rest pre1, lines = pre ++ rest → (∀ l ∈ pre, matchDirective l = none) →
      (∀ l ∈ pre1, matchDirective l = none) → loadLines (pre1 ++ rest) = loadLines lines) := by
  have hV := loadLines_verdict lines
  constructor
  · constructor
    · rintro ⟨r, hr⟩
      cases hk : kindsVerdict (headerKinds lines) with
      | none => exact (hV.2 hk).1
      | some e =>
        rw [hV.1 e hk] at hr
        cases hr
    · intro hk
      have hn : kindsVerdict (headerKinds lines) = none := by rw [hk]; rfl
      obtain ⟨_, _, _, _, _, _, _, _, _, _, _, _, hok⟩ := hV.2 hn
      exact ⟨_, hok⟩
  · intro pre rest pre1 hl hpre hpre1
    rw [hl]
    apply loadLines_congr
    rw [scanHeader_preamble hpre1, scanHeader_preamble hpre]

/-- A file with a two-line preamble is accepted, with the same bodies as without
the preamble. -/
theorem C13_scenario_preamble :
    headerKinds ["# users", "", " -- @up ", "CREATE", "--@down", "DROP"] = ["up", "down"] ∧
    loadLines ["# users", "", " -- @up ", "CREATE", "--@down", "DROP"] =
      .ok ("CREATE\n", "DROP\n") ∧
    loadLines ([] ++ [" -- @up ", "CREATE", "--@down", "DROP"]) =
      loadLines ["# users", "", " -- @up ", "CREATE", "--@down", "DROP"] :=
  ⟨by decide, by decide,
    (C13_loader_accepts_iff ["# users", "", " -- @up ", "CREATE", "--@down", "DROP"]).2
      ["# users", ""] [" -- @up ", "CREATE", "--@down", "DROP"] [] rfl (by decide) (by decide)⟩

theorem bodyText_data (body : List String) :
    (bodyText body).data = (body.map (fun l => l.data ++ ['\n'])).flatten := by
  induction body with
  | nil => rfl
  | cons x xs ih =>
    rw [bodyText_cons]
    simp [ih]

theorem bodyText_newlines (body : List String) (h : ∀ l ∈ body, '\n' ∉ l.data) :
    (bodyText body).data.count '\n' = body.length := by
  induction body with
  | nil => rfl
  | cons x xs ih =>
    rw [bodyText_cons]
    have hx : x.data.count '\n' = 0 :=
      List.count_eq_zero_of_not_mem (h x (List.mem_cons_self _ _))
    have hxs := ih (fun l hl => h l (List.mem_cons_of_mem _ hl))
    have h1 : ("\n" : String).data.count '\n' = 1 := by decide
    rw [String.data_append, String.data_append, List.count_append, List.count_append, hx, hxs,
      h1, List.length_cons]
    omega

/-- C14, as stated, fails: a one-line body is returned with a newline after the
line (`fmt.Fprintln`), not as the line alone, which is what joining one line by
newline characters gives. -/
theorem C14_one_line_body_ends_with_newline :
    loadLines ["-- @up", "CREATE TABLE t (id int);", "-- @down", "DROP TABLE t;"] =
      .ok ("CREATE TABLE t (id int);\n", "DROP TABLE t;\n") ∧
    joinedText ["CREATE TABLE t (id int);"] = "CREATE TABLE t (id int);" ∧
    joinedText ["DROP TABLE t;"] = "DROP TABLE t;" ∧
    loadLines ["-- @up", "CREATE TABLE t (id int);", "-- @down", "DROP TABLE t;"] ≠
      .ok (joinedText ["CREATE TABLE t (id int);"], joinedText ["DROP TABLE t;"]) := by
  refine ⟨by decide, by decide, by decide, by decide⟩

/-- C14, amended: for every accepted sequence of lines, the forward script is
the lines strictly between the `@up` header and the `@down` header, and the
reverse script is all lines after the `@down` header, each line verbatim and
followed by a newline character: a body of `k` lines (the lines themselves hold
no newline) contains exactly `k` newline characters, and an empty body is the
empty string. -/
theorem C14_bodies_are_newline_terminated (lines : List String) (up down : String)
    (h : loadLines lines = .ok (up, down)) :
    ∃ pre hu body1 hd body2, lines = pre ++ hu :: (body1 ++ hd :: body2) ∧
      (∀ l ∈ pre, matchDirective l = none) ∧ matchDirective hu = some "up" ∧
      (∀ l ∈ body1, matchDirective l = none) ∧ matchDirective hd = some "down" ∧
      (∀ l ∈ body2, matchDirective l = none) ∧
      up = bodyText body1 ∧ down = bodyText body2 ∧
      up.data = (body1.map (fun l => l.data ++ ['\n'])).flatten ∧
      down.data = (body2.map (fun l => l.data ++ ['\n'])).flatten ∧
      ((∀ l ∈ body1, '\n' ∉ l.data) → up.data.count '\n' = body1.length) ∧
      ((∀ l ∈ body2, '\n' ∉ l.data) → down.data.count '\n' = body2.length) ∧
      (body1 = [] → up = "") ∧ (body2 = [] → down = "") := by
  have hV := loadLines_verdict lines
  cases hk : kindsVerdict (headerKinds lines) with
  | some e =>
    rw [hV.1 e hk] at h
    cases h
  | none =>
    obtain ⟨_, pre, hu, body1, hd, body2, h1, h2, h3, h4, h5, h6, hok⟩ := hV.2 hk
    rw [hok] at h
    simp only [Res.ok.injEq, Prod.mk.injEq] at h
    obtain ⟨rfl, rfl⟩ := h
    refine ⟨pre, hu, body1, hd, body2, h1, h2, h3, h4, h5, h6, rfl, rfl, bodyText_data _,
      bodyText_data _, bodyText_newlines _, bodyText_newlines _, ?_, ?_⟩
    · intro hb
      rw [hb]
      rfl
    · intro hb
      rw [hb]
      rfl

/-- A file with a two-line forward body and an empty reverse body. -/
theorem C14_scenario_bodies :
    loadLines ["-- @up", "CREATE TABLE a;", "CREATE TABLE b;", "-- @down"] =
      .ok ("CREATE TABLE a;\nCREATE TABLE b;\n", "") ∧
    ∃ pre hu body1 hd body2,
      ["-- @up", "CREATE TABLE a;", "CREATE TABLE b;", "-- @down"] =
        pre ++ hu :: (body1 ++ hd :: body2) ∧
      "CREATE TABLE a;\nCREATE TABLE b;\n" = bodyText body1 ∧ "" = bodyText body2 := by
  have h : loadLines ["-- @up", "CREATE TABLE a;", "CREATE TABLE b;", "-- @down"] =
      .ok ("CREATE TABLE a;\nCREATE TABLE b;\n", "") := by decide
  obtain ⟨pre, hu, body1, hd, body2, h1, _, _, _, _, _, h7, h8, _⟩ :=
    C14_bodies_are_newline_terminated _ _ _ h
  exact ⟨h, pre, hu, body1, hd, body2, h1, h7, h8⟩

/-- C15: the error of the script loader is determined by the kinds of the header
lines of the file: no header gives "missing required up"; a first header `@down`
gives "down before up"; a single `@up` and nothing after gives "missing required
down"; `@up` followed next by `@up` gives "duplicate up"; `@up`, `@down` and a
further header give "unexpected" with the kind of that header.  Every header has
kind `up` or `down`, every rejected file gets the error of `kindsVerdict`, the
same as any file with the same header kinds; and `Migration.run` on a rejected
file returns the load error with the connection untouched. -/
theorem C15_loader_error_by_header_kinds (lines : List String) :
    (headerKinds lines = [] → loadLines lines = .err .missingUp) ∧
    (∀ ks, headerKinds lines = "down" :: ks → loadLines lines = .err .downBeforeUp) ∧
    (headerKinds lines = ["up"] → loadLines lines = .err .missingDown) ∧
    (∀ ks, headerKinds lines = "up" :: "up" :: ks → loadLines lines = .err .duplicateUp) ∧
    (∀ k ks, headerKinds lines = "up" :: "down" :: k :: ks →
      loadLines lines = .err (.unexpected k)) ∧
    (∀ k ∈ headerKinds lines, k = "up" ∨ k = "down") ∧
    (∀ e, loadLines lines = .err e →
      kindsVerdict (headerKinds lines) = some e ∧
      ∀ lines1, headerKinds lines1 = headerKinds lines → loadLines lines1 = .err e) ∧
    (∀ (w : World) (m : Migration) (action : actionType) (conn : Connection) (final : Int)
      (e : LoadError), w.readFileLines m.Path = .ok lines → loadLines lines = .err e →
      m.run w action conn final = (.err (RunError.load e), conn)) := by
  have hV := loadLines_verdict lines
  refine ⟨?_, ?_, ?_, ?_, ?_, ?_, ?_, ?_⟩
  · intro hk
    exact hV.1 _ (by rw [hk]; rfl)
  · intro ks hk
    exact hV.1 _ (by rw [hk]; rfl)
  · intro hk
    exact hV.1 _ (by rw [hk]; rfl)
  · intro ks hk
    exact hV.1 _ (by rw [hk]; rfl)
  · intro k ks hk
    exact hV.1 _ (by rw [hk]; rfl)
  · intro k hk
    simp only [headerKinds, List.mem_filterMap] at hk
    obtain ⟨l, _, hl⟩ := hk
    exact matchDirective_kind hl
  · intro e he
    cases hk : kindsVerdict (headerKinds lines) with
    | none =>
      obtain ⟨_, _, _, _, _, _, _, _, _, _, _, _, hok⟩ := hV.2 hk
      rw [hok] at he
      cases he
    | some e1 =>
      have h1 := hV.1 e1 hk
      rw [h1] at he
      simp only [Res.err.injEq] at he
      subst he
      refine ⟨rfl, fun lines1 h => ?_⟩
      exact (loadLines_verdict lines1).1 e1 (by rw [h, hk])
  · intro w m action conn final e hfile he
    apply run_of_load_err
    rw [load_eq_loadLines w m hfile, he]

/-- Scenario D: the file of `7_init` holds only `-- @up`: the loader reports the
missing `@down` header and `Migration.run` returns before opening a
transaction, so nothing is applied. -/
theorem C15_scenario_D :
    headerKinds ["-- @up"] = ["up"] ∧
    loadLines ["-- @up"] = .err .missingDown ∧
    (entry "7_init" 7).run brokenFileWorld actionType.upAction (scenarioConn 0 []) 7 =
      (.err (RunError.load .missingDown), scenarioConn 0 []) :=
  have h := C15_loader_error_by_header_kinds ["-- @up"]
  ⟨by decide, h.2.2.1 (by decide),
    h.2.2.2.2.2.2.2 brokenFileWorld (entry "7_init" 7) actionType.upAction (scenarioConn 0 []) 7
      .missingDown rfl (by decide)⟩

/-! ## Invalid files are met lazily -/

/-- C16, as stated, fails: scripts are loaded when their migration is about to
run.  With catalog `[1,2,3]`, current version 0 and `up`, where the file of
migration 2 lacks its `@down` header, migration 1 is executed and committed
(recorded version 1) before the run stops at migration 2. -/
theorem C16_earlier_migrations_are_executed :
    resolveExecutionPlan ⟨CommandType.UpCommand, false, 0⟩ 0 scenarioCatalog =
      .ok ⟨actionType.upAction, 0, 2⟩ ∧
    (entry "2_orders.sql" 2).load brokenFileWorld = .err .missingDown ∧
    (⟨actionType.upAction, 0, 2⟩ : executionPlan).execute brokenFileWorld scenarioCatalog
        (scenarioConn 0 []) =
      (.err { name := "2_orders.sql", cause := RunError.load .missingDown },
       { db := { version := 1, applied := [1],
                 log := [Event.exec "CREATE db/1_users.sql\n", Event.save 1, Event.commit] }
         journal := [{ version := 1, applied := [1],
                       log := [Event.exec "CREATE db/1_users.sql\n", Event.save 1,
                         Event.commit] }] }) ∧
    ((⟨actionType.upAction, 0, 2⟩ : executionPlan).execute brokenFileWorld scenarioCatalog
        (scenarioConn 0 [])).2 ≠ scenarioConn 0 [] := by
  refine ⟨by decide, by decide, by decide, by decide⟩

/-- C16, amended: let a plan returned by the resolver walk the indices
`pre ++ k :: post`, where the file of `Catalog[k]` is structurally invalid (its
header lines are not exactly `@up` followed by `@down`) and every step of `pre`
succeeds.  Then `execute` returns the loader's error under the name of
`Catalog[k]`, and the connection is exactly the one left by the committed steps
of `pre`: no transaction is opened for `k`, so neither its script nor any step
of `post` is run and no version is saved for them, while the steps of `pre`
stay committed; with `pre` empty nothing is executed at all. -/
theorem C16_invalid_file_stops_run_when_reached (w : World) (cmd : Command) (v : Int)
    (ms : Migrations) (p : executionPlan) (conn : Connection) (pre post : List Int) (k : Int)
    (m : Migration) (lines : List String)
    (hres : resolveExecutionPlan cmd v ms = .ok p)
    (hsplit : planIndices p = pre ++ k :: post)
    (hpre : ∀ a j b, pre = a ++ j :: b →
      stepOk w p.action ms j (a.foldl (specStep w p.action ms) conn))
    (hm : index ms k = some m) (hfile : w.readFileLines m.Path = .ok lines)
    (hbad : headerKinds lines ≠ ["up", "down"]) :
    ∃ e, kindsVerdict (headerKinds lines) = some e ∧
      p.execute w ms conn =
        (.err { name := m.Name, cause := RunError.load e },
         pre.foldl (specStep w p.action ms) conn) ∧
      (pre.foldl (specStep w p.action ms) conn).db.log =
        conn.db.log ++ pre.flatMap (stepEvents w p.action ms) ∧
      (pre.foldl (specStep w p.action ms) conn).journal.length =
        conn.journal.length + pre.length ∧
      (pre = [] → p.execute w ms conn =
        (.err { name := m.Name, cause := RunError.load e }, conn)) := by
  have hvalid := planIndices_valid hres
  rw [hsplit] at hvalid
  have hvpre : ∀ j ∈ pre, ∃ m, index ms j = some m :=
    fun j hj => hvalid j (List.mem_append_left _ hj)
  have hV := loadLines_verdict lines
  cases hk : kindsVerdict (headerKinds lines) with
  | none => exact absurd (hV.2 hk).1 hbad
  | some e =>
    have hload : m.load w = .err e := by
      rw [load_eq_loadLines w m hfile, hV.1 e hk]
    have hex : p.execute w ms conn =
        (.err { name := m.Name, cause := RunError.load e },
         pre.foldl (specStep w p.action ms) conn) := by
      rw [execute_resolved w hres, hsplit, specLoop_append,
        specLoop_prefix_commits w ms p.action pre conn hvpre hpre]
      simp only [specLoop, hm, run_of_load_err hload]
    refine ⟨e, rfl, hex, foldl_specStep_log _ _ _ _ _,
      foldl_specStep_journal_length _ _ _ _ _ hvpre, fun hnil => ?_⟩
    rw [hex, hnil]
    rfl

/-- Catalog `[1,2,3]`, current version 1, `up`, the file of migration 2 invalid:
the run stops at once with the loader's error and nothing is executed. -/
theorem C16_scenario_invalid_first :
    (⟨actionType.upAction, 1, 2⟩ : executionPlan).execute brokenFileWorld scenarioCatalog
        (scenarioConn 1 [1]) =
      (.err { name := "2_orders.sql", cause := RunError.load .missingDown },
        scenarioConn 1 [1]) := by
  obtain ⟨e, he, _, _, _, hex⟩ :=
    C16_invalid_file_stops_run_when_reached brokenFileWorld ⟨CommandType.UpCommand, false, 0⟩ 1
      scenarioCatalog ⟨actionType.upAction, 1, 2⟩ (scenarioConn 1 [1]) [] [2] 1
      (entry "2_orders.sql" 2) ["-- @up"] (by decide) (by decide)
      (fun a j b h => by simp at h) (by decide) rfl (by decide)
  have he1 : kindsVerdict (headerKinds ["-- @up"]) = some .missingDown := by decide
  rw [he1] at he
  cases he
  exact hex rfl

/-! ## Versions of file names -/

theorem parseInt64_digits {ds : List Char} (hall : ds.all Char.isDigit = true) :
    parseInt64 (String.mk ds) =
      if ds ≠ [] ∧ digitsValue ds < 2 ^ 63 then some (digitsValue ds : Int) else none := by
  unfold parseInt64
  split
  · rename_i rest heq
    simp only [String.toList] at heq
    rw [heq] at hall
    simp [Char.isDigit] at hall
  · rename_i rest heq
    simp only [String.toList] at heq
    rw [heq] at hall
    simp [Char.isDigit] at hall
  · simp only [String.toList, hall, true_and]

theorem leadingDigits_all (name : String) :
    (name.toList.takeWhile Char.isDigit).all Char.isDigit = true := by
  rw [List.all_eq_true]
  intro c hc
  exact List.mem_takeWhile_imp hc

/-- Function `parseVersion` in closed form. -/
theorem parseVersion_eq (name : String) :
    parseVersion name =
      if leadingDigits name = "" then .error (.noVersion name)
      else if digitsValue (leadingDigits name).toList = 0 ∨
          2 ^ 63 ≤ digitsValue (leadingDigits name).toList then .error (.invalidVersion name)
      else .ok (digitsValue (leadingDigits name).toList : Int) := by
  unfold parseVersion
  by_cases h0 : leadingDigits name = ""
  · simp [h0]
  · have hne : name.toList.takeWhile Char.isDigit ≠ [] := by
      intro hc
      apply h0
      show String.mk (name.toList.takeWhile Char.isDigit) = ""
      rw [hc]
    have hp : parseInt64 (leadingDigits name) =
        if name.toList.takeWhile Char.isDigit ≠ [] ∧
            digitsValue (name.toList.takeWhile Char.isDigit) < 2 ^ 63
        then some (digitsValue (name.toList.takeWhile Char.isDigit) : Int) else none :=
      parseInt64_digits (leadingDigits_all name)
    have hl : (leadingDigits name).toList = name.toList.takeWhile Char.isDigit := rfl
    rw [if_neg h0, if_neg h0, hp, hl]
    by_cases hr : digitsValue (name.toList.takeWhile Char.isDigit) < 2 ^ 63
    · rw [if_pos ⟨hne, hr⟩]
      show (if (digitsValue (name.toList.takeWhile Char.isDigit) : Int) = 0 then _ else _) = _
      by_cases hz : digitsValue (name.toList.takeWhile Char.isDigit) = 0
      · rw [if_pos (by omega), if_pos (Or.inl hz)]
      · rw [if_neg (by omega), if_neg (by omega)]
    · rw [if_neg (fun h => hr h.2), if_pos (Or.inr (by omega))]

theorem parseVersion_ok {name : String} {v : Int} (h : parseVersion name = .ok v) :
    leadingDigits name ≠ "" ∧ v = (digitsValue (leadingDigits name).toList : Int) ∧ 0 < v ∧
      v < 2 ^ 63 := by
  rw [parseVersion_eq] at h
  split at h
  · cases h
  · rename_i h0
    split at h
    · cases h
    · rename_i h1
      simp only [Except.ok.injEq] at h
      refine ⟨h0, h.symm, ?_, ?_⟩ <;> omega

theorem versionOf_of_ok {name : String} {v : Int} (h : parseVersion name = .ok v) :
    versionOf name = v := by
  simp [versionOf, h]

/-! ## The loop of `LoadMigrations` -/

theorem loadLoop_ok (dir : String) (join : String → String → String) :
    ∀ (files : List String) (acc : Migrations) (seen : List Int) (ms : Migrations),
      loadLoop dir join files acc seen = .ok ms →
      ms = acc ++ files.map (entryOf dir join) ∧
      (∀ name ∈ files, parseVersion name = .ok (versionOf name)) ∧
      (files.map versionOf).Nodup ∧ (∀ name ∈ files, versionOf name ∉ seen) := by
  intro files
  induction files with
  | nil =>
    intro acc seen ms h
    simp only [loadLoop, Except.ok.injEq] at h
    simp [h]
  | cons name files ih =>
    intro acc seen ms h
    cases hp : parseVersion name with
    | error e => simp [loadLoop, hp] at h
    | ok v =>
      have hv : versionOf name = v := versionOf_of_ok hp
      by_cases hmem : v ∈ seen
      · simp [loadLoop, hp, hmem] at h
      · simp only [loadLoop, hp, hmem, if_false] at h
        obtain ⟨h1, h2, h3, h4⟩ := ih _ _ _ h
        have he : entryOf dir join name =
            { Name := name, Path := join dir name, Version := v, Up := "", Down := "" } := by
          simp [entryOf, hv]
        refine ⟨?_, ?_, ?_, ?_⟩
        · rw [h1, List.map_cons, he, List.append_assoc]
          rfl
        · intro n hn
          rcases List.mem_cons.mp hn with rfl | hn
          · rw [hv, hp]
          · exact h2 n hn
        · rw [List.map_cons, List.nodup_cons]
          refine ⟨?_, h3⟩
          intro hc
          obtain ⟨n, hn, hnv⟩ := List.mem_map.mp hc
          exact h4 n hn (by rw [hnv, hv]; exact List.mem_cons_self _ _)
        · intro n hn
          rcases List.mem_cons.mp hn with rfl | hn
          · rw [hv]
            exact hmem
          · exact fun hc => h4 n hn (List.mem_cons_of_mem _ hc)

theorem loadLoop_of_valid (dir : String) (join : String → String → String) :
    ∀ (files : List String) (acc : Migrations) (seen : List Int),
      (∀ name ∈ files, ∃ v, parseVersion name = .ok v) → (files.map versionOf).Nodup →
      (∀ name ∈ files, versionOf name ∉ seen) →
      loadLoop dir join files acc seen = .ok (acc ++ files.map (entryOf dir join)) := by
  intro files
  induction files with
  | nil => intro acc seen _ _ _; simp [loadLoop]
  | cons name files ih =>
    intro acc seen hA hN hS
    obtain ⟨v, hp⟩ := hA name (List.mem_cons_self _ _)
    have hv : versionOf name = v := versionOf_of_ok hp
    have hmem : v ∉ seen := by
      rw [← hv]
      exact hS name (List.mem_cons_self _ _)
    rw [List.map_cons, List.nodup_cons] at hN
    have he : entryOf dir join name =
        { Name := name, Path := join dir name, Version := v, Up := "", Down := "" } := by
      simp [entryOf, hv]
    simp only [loadLoop, hp, hmem, if_false]
    rw [ih _ _ (fun n hn => hA n (List.mem_cons_of_mem _ hn)) hN.2, List.map_cons, he,
      List.append_assoc]
    · rfl
    · intro n hn hc
      rcases List.mem_cons.mp hc with hc | hc
      · exact hN.1 (List.mem_map.mpr ⟨n, hn, by rw [hc, hv]⟩)
      · exact hS n (List.mem_cons_of_mem _ hn) hc

theorem loadLoop_duplicate (dir : String) (join : String → String → String) :
    ∀ (files : List String) (acc : Migrations) (seen : List Int),
      (∀ name ∈ files, ∃ v, parseVersion name = .ok v) →
      ¬ ((files.map versionOf).Nodup ∧ ∀ name ∈ files, versionOf name ∉ seen) →
      ∃ v, loadLoop dir join files acc seen = .error (.duplicate v) := by
  intro files
  induction files with
  | nil =>
    intro acc seen _ hn
    exact absurd ⟨List.nodup_nil, fun n hn => absurd hn (List.not_mem_nil n)⟩ hn
  | cons name files ih =>
    intro acc seen hA hn
    obtain ⟨v, hp⟩ := hA name (List.mem_cons_self _ _)
    have hv : versionOf name = v := versionOf_of_ok hp
    by_cases hmem : v ∈ seen
    · exact ⟨v, by simp [loadLoop, hp, hmem]⟩
    · simp only [loadLoop, hp, hmem, if_false]
      apply ih _ _ (fun n hn => hA n (List.mem_cons_of_mem _ hn))
      rintro ⟨hN, hS⟩
      apply hn
      refine ⟨?_, ?_⟩
      · rw [List.map_cons, List.nodup_cons]
        refine ⟨?_, hN⟩
        intro hc
        obtain ⟨n, hn1, hnv⟩ := List.mem_map.mp hc
        exact hS n hn1 (by rw [hnv, hv]; exact List.mem_cons_self _ _)
      · intro n hn1
        rcases List.mem_cons.mp hn1 with rfl | hn1
        · rw [hv]
          exact hmem
        · exact fun hc => hS n hn1 (List.mem_cons_of_mem _ hc)

theorem sortSlice_perm (ms : Migrations) : (sortSlice ms).Perm ms :=
  List.perm_insertionSort _ ms

theorem sortSlice_strictInc {ms : Migrations} (hN : (ms.map (fun m => m.Version)).Nodup) :
    StrictInc (sortSlice ms) := by
  haveI : IsTotal Migration (fun a b => a.Version ≤ b.Version) := ⟨fun a b => le_total _ _⟩
  haveI : IsTrans Migration (fun a b => a.Version ≤ b.Version) :=
    ⟨fun a b c hab hbc => le_trans hab hbc⟩
  have hsorted : List.Pairwise (fun a b : Migration => a.Version ≤ b.Version) (sortSlice ms) :=
    List.sorted_insertionSort _ ms
  have hN1 : ((sortSlice ms).map (fun m => m.Version)).Nodup :=
    ((sortSlice_perm ms).map _).nodup_iff.mpr hN
  have hne : List.Pairwise (fun a b : Migration => a.Version ≠ b.Version) (sortSlice ms) :=
    List.pairwise_map.mp hN1
  exact (hsorted.and hne).imp (fun h => lt_of_le_of_ne h.1 h.2)

/-- The sorted order is the only one: every permutation of the catalog that is
strictly increasing by version is the slice `sortSlice` returns. -/
theorem sortSlice_unique {ms sorted : Migrations} (hp : sorted.Perm ms)
    (hs : StrictInc sorted) : sorted = sortSlice ms := by
  haveI : IsAntisymm Migration (fun a b => a.Version < b.Version) :=
    ⟨fun a b hab hba => absurd hab (not_lt.mpr (le_of_lt hba))⟩
  have hN : (ms.map (fun m => m.Version)).Nodup := by
    have h1 : (sorted.map (fun m => m.Version)).Nodup :=
      List.pairwise_map.mpr (hs.imp (fun h => ne_of_lt h))
    exact ((hp.map _).nodup_iff).mp h1
  exact List.eq_of_perm_of_sorted (hp.trans (sortSlice_perm ms).symm) hs (sortSlice_strictInc hN)

theorem LoadMigrations_ok {dir : String} {join : String → String → String}
    {files : List String} {ms : Migrations}
    (h : LoadMigrations dir join (.ok files) = .ok ms) :
    ms = sortSlice (files.map (entryOf dir join)) ∧
    (∀ name ∈ files, parseVersion name = .ok (versionOf name)) ∧
    (files.map versionOf).Nodup := by
  unfold LoadMigrations at h
  simp only [] at h
  cases hl : loadLoop dir join files [] [] with
  | error e => simp [hl] at h
  | ok ms0 =>
    simp only [hl, Except.ok.injEq] at h
    obtain ⟨h1, h2, h3, _⟩ := loadLoop_ok dir join files [] [] ms0 hl
    rw [List.nil_append] at h1
    exact ⟨by rw [← h, h1], h2, h3⟩

theorem LoadMigrations_of_valid (dir : String) (join : String → String → String)
    {files : List String} (hA : ∀ name ∈ files, ∃ v, parseVersion name = .ok v)
    (hN : (files.map versionOf).Nodup) :
    LoadMigrations dir join (.ok files) = .ok (sortSlice (files.map (entryOf dir join))) := by
  unfold LoadMigrations
  simp only []
  rw [loadLoop_of_valid dir join files [] [] hA hN (fun n _ hc => absurd hc (List.not_mem_nil _))]
  rfl

/-- C17: when `LoadMigrations` succeeds on a listing of file names, the catalog
has one entry per listed name (same length; the names of the entries are the
listed names, up to order), each entry has the version its name resolves to,
which is the value of the leading decimal digits of the name and is greater than
0, its `Up` and `Down` bodies are empty, and the versions are strictly
increasing. -/
theorem C17_catalog_invariants (dir : String) (join : String → String → String)
    (files : List String) (ms : Migrations)
    (h : LoadMigrations dir join (.ok files) = .ok ms) :
    ms.length = files.length ∧
    (ms.map (fun m => m.Name)).Perm files ∧
    (∀ m ∈ ms, m.Name ∈ files ∧ parseVersion m.Name = .ok m.Version ∧
      leadingDigits m.Name ≠ "" ∧
      m.Version = (digitsValue (leadingDigits m.Name).toList : Int) ∧
      0 < m.Version ∧ m.Up = "" ∧ m.Down = "" ∧ m.Path = join dir m.Name) ∧
    StrictInc ms := by
  obtain ⟨hms, hA, hN⟩ := LoadMigrations_ok h
  have hperm : ms.Perm (files.map (entryOf dir join)) := by
    rw [hms]
    exact sortSlice_perm _
  have hnames : (files.map (entryOf dir join)).map (fun m => m.Name) = files := by
    rw [List.map_map]
    exact List.map_id _
  have hvers : (files.map (entryOf dir join)).map (fun m => m.Version) = files.map versionOf := by
    rw [List.map_map]
    rfl
  refine ⟨?_, ?_, ?_, ?_⟩
  · rw [hperm.length_eq, List.length_map]
  · have := hperm.map (fun m => m.Name)
    rwa [hnames] at this
  · intro m hm
    obtain ⟨name, hname, rfl⟩ := List.mem_map.mp (hperm.mem_iff.mp hm)
    have hp := hA name hname
    obtain ⟨h1, h2, h3, _⟩ := parseVersion_ok hp
    exact ⟨hname, hp, h1, h2, h3, rfl, rfl, rfl⟩
  · rw [hms]
    apply sortSlice_strictInc
    rw [hvers]
    exact hN

/-- Listing `10_c, 2_b, 1_a`: the catalog is sorted by version, scripts not
loaded. -/
theorem C17_scenario_sorted :
    LoadMigrations "db" (fun d n => d ++ "/" ++ n) (.ok ["10_c", "2_b", "1_a"]) =
      .ok [⟨"1_a", "db/1_a", 1, "", ""⟩, ⟨"2_b", "db/2_b", 2, "", ""⟩,
        ⟨"10_c", "db/10_c", 10, "", ""⟩] ∧
    StrictInc [⟨"1_a", "db/1_a", 1, "", ""⟩, ⟨"2_b", "db/2_b", 2, "", ""⟩,
        ⟨"10_c", "db/10_c", 10, "", ""⟩] :=
  have h : LoadMigrations "db" (fun d n => d ++ "/" ++ n) (.ok ["10_c", "2_b", "1_a"]) =
      .ok [⟨"1_a", "db/1_a", 1, "", ""⟩, ⟨"2_b", "db/2_b", 2, "", ""⟩,
        ⟨"10_c", "db/10_c", 10, "", ""⟩] := rfl
  ⟨h, (C17_catalog_invariants "db" (fun d n => d ++ "/" ++ n) ["10_c", "2_b", "1_a"] _ h).2.2.2⟩

/-- C18: on a listing of file names `LoadMigrations` fails if and only if some
name has no leading decimal digit, or the leading digits of some name have value
zero or do not fit a signed 64-bit integer, or two entries of the listing
resolve to the same version.  A success keeps every listed name (no entry is
skipped); and when every name resolves to a version, the failure is the
"duplicate version" error. -/
theorem C18_catalog_fails_iff (dir : String) (join : String → String → String)
    (files : List String) :
    ((∃ e, LoadMigrations dir join (.ok files) = .error e) ↔
      (∃ name ∈ files, leadingDigits name = "") ∨
      (∃ name ∈ files, leadingDigits name ≠ "" ∧
        (digitsValue (leadingDigits name).toList = 0 ∨
          2 ^ 63 ≤ digitsValue (leadingDigits name).toList)) ∨
      (∃ (i j : Nat) (a b : String) (v : Int), i < j ∧ files[i]? = some a ∧ files[j]? = some b ∧
        parseVersion a = .ok v ∧ parseVersion b = .ok v)) ∧
    (∀ ms, LoadMigrations dir join (.ok files) = .ok ms → ms.length = files.length) ∧
    ((∀ name ∈ files, ∃ v, parseVersion name = .ok v) →
      ∀ e, LoadMigrations dir join (.ok files) = .error e → ∃ v, e = .duplicate v) := by
  have hdup : (∃ (i j : Nat) (a b : String) (v : Int), i < j ∧ files[i]? = some a ∧ files[j]? = some b ∧
      parseVersion a = .ok v ∧ parseVersion b = .ok v) → ¬ (files.map versionOf).Nodup := by
    rintro ⟨i, j, a, b, v, hij, ha, hb, hpa, hpb⟩ hN
    have hj : j < (files.map versionOf).length := by
      rw [List.length_map]
      by_contra hc
      rw [List.getElem?_eq_none (by omega)] at hb
      cases hb
    apply List.nodup_iff_getElem?_ne_getElem?.mp hN i j hij hj
    rw [List.getElem?_map, List.getElem?_map, ha, hb]
    simp [versionOf_of_ok hpa, versionOf_of_ok hpb]
  refine ⟨⟨?_, ?_⟩, ?_, ?_⟩
  · rintro ⟨e, he⟩
    by_cases hA : ∀ name ∈ files, ∃ v, parseVersion name = .ok v
    · right
      right
      have hN : ¬ (files.map versionOf).Nodup := by
        intro hN
        rw [LoadMigrations_of_valid dir join hA hN] at he
        cases he
      rw [List.nodup_iff_getElem?_ne_getElem?] at hN
      push_neg at hN
      obtain ⟨i, j, hij, hj, heq⟩ := hN
      rw [List.length_map] at hj
      rw [List.getElem?_map, List.getElem?_map, List.getElem?_eq_getElem hj,
        List.getElem?_eq_getElem (by omega : i < files.length)] at heq
      simp only [Option.map_some', Option.some.injEq] at heq
      obtain ⟨va, hva⟩ := hA files[i] (List.getElem_mem _)
      obtain ⟨vb, hvb⟩ := hA files[j] (List.getElem_mem _)
      rw [versionOf_of_ok hva, versionOf_of_ok hvb] at heq
      subst heq
      exact ⟨i, j, files[i], files[j], va, hij, List.getElem?_eq_getElem _,
        List.getElem?_eq_getElem hj, hva, hvb⟩
    · push_neg at hA
      obtain ⟨name, hname, hbad⟩ := hA
      by_cases h0 : leadingDigits name = ""
      · exact Or.inl ⟨name, hname, h0⟩
      · right
        left
        refine ⟨name, hname, h0, ?_⟩
        by_contra hc
        apply hbad (digitsValue (leadingDigits name).toList : Int)
        rw [parseVersion_eq, if_neg h0, if_neg hc]
  · intro hcases
    cases h : LoadMigrations dir join (.ok files) with
    | error e => exact ⟨e, rfl⟩
    | ok ms =>
      exfalso
      obtain ⟨_, hA, hN⟩ := LoadMigrations_ok h
      rcases hcases with ⟨name, hname, h0⟩ | ⟨name, hname, h0, hv⟩ | hd
      · have := hA name hname
        rw [parseVersion_eq, if_pos h0] at this
        cases this
      · have := hA name hname
        rw [parseVersion_eq, if_neg h0, if_pos hv] at this
        cases this
      · exact hdup hd hN
  · intro ms h
    obtain ⟨hms, _, _⟩ := LoadMigrations_ok h
    rw [hms, (sortSlice_perm _).length_eq, List.length_map]
  · intro hA e he
    have hN : ¬ ((files.map versionOf).Nodup ∧ ∀ name ∈ files, versionOf name ∉ ([] : List Int)) := by
      rintro ⟨hN, _⟩
      rw [LoadMigrations_of_valid dir join hA hN] at he
      cases he
    obtain ⟨v, hv⟩ := loadLoop_duplicate dir join files [] [] hA hN
    refine ⟨v, ?_⟩
    unfold LoadMigrations at he
    simp only [hv, Except.error.injEq] at he
    exact he.symm

/-- Scenario E: the files `5_a` and `005_b` both resolve to version 5 and the
catalog build fails with the duplicate-version error. -/
theorem C18_scenario_E :
    parseVersion "5_a" = .ok 5 ∧ parseVersion "005_b" = .ok 5 ∧
    LoadMigrations "db" (fun d n => d ++ "/" ++ n) (.ok ["5_a", "005_b"]) =
      .error (.duplicate 5) ∧
    ∃ e, LoadMigrations "db" (fun d n => d ++ "/" ++ n) (.ok ["5_a", "005_b"]) = .error e :=
  ⟨rfl, rfl, rfl,
    (C18_catalog_fails_iff "db" (fun d n => d ++ "/" ++ n) ["5_a", "005_b"]).1.mpr
      (Or.inr (Or.inr ⟨0, 1, "5_a", "005_b", 5, by decide, rfl, rfl, rfl, rfl⟩))⟩

/-! ## Round trip -/

theorem upIndices_single (i : Int) : upIndices i i = [i] := by
  rw [upIndices_cons (le_refl i), upIndices_nil (by omega)]

theorem downIndices_single (i : Int) : downIndices (i + 1) i = [i + 1] := by
  rw [downIndices_cons (by omega), downIndices_nil (by omega)]

/-- C19: on a strictly increasing catalog of nonzero versions whose length fits
a Go `int`, with the current version `v` at position `i` before the last index:
`up 1` resolves to the forward plan over index `i+1` alone and, run
successfully, records the version of `Catalog[i+1]`; from that recorded version
`down 1` resolves to the backward plan over the same index `i+1` and, run
successfully, records `v` again.  The two runs commit the forward and then the
reverse script of the same migration `Catalog[i+1]`. -/
theorem C19_up_one_down_one_round_trip (w : World) (ms : Migrations) (v i : Int)
    (conn : Connection) (hs : StrictInc ms) (hpos : ∀ m ∈ ms, m.Version ≠ 0)
    (hlen : (ms.length : Int) < 2 ^ 63) (hat : At ms v i) (hi : i < (ms.length : Int) - 1)
    (hw : w.Succeeds ms) :
    ∃ m conn1 conn2, index ms (i + 1) = some m ∧
      resolveExecutionPlan ⟨CommandType.UpCommand, true, 1⟩ v ms =
        .ok ⟨actionType.upAction, i + 1, i + 1⟩ ∧
      (⟨actionType.upAction, i + 1, i + 1⟩ : executionPlan).execute w ms conn = (.ok (), conn1) ∧
      conn1.db.version = m.Version ∧
      resolveExecutionPlan ⟨CommandType.DownCommand, true, 1⟩ conn1.db.version ms =
        .ok ⟨actionType.downAction, i + 1, i⟩ ∧
      (⟨actionType.downAction, i + 1, i⟩ : executionPlan).execute w ms conn1 = (.ok (), conn2) ∧
      conn2.db.version = v ∧
      conn2.db.log = conn.db.log ++
        [Event.exec (script w actionType.upAction m), Event.save m.Version, Event.commit,
         Event.exec (script w actionType.downAction m), Event.save v, Event.commit] := by
  have hr := At_range hat
  obtain ⟨m, hm⟩ := index_isSome ms (by omega : 0 ≤ i + 1) (by omega)
  have hverm : verAt ms (i + 1) = m.Version := by simp [verAt, hm]
  have hup : resolveExecutionPlan ⟨CommandType.UpCommand, true, 1⟩ v ms =
      .ok ⟨actionType.upAction, i + 1, i + 1⟩ := by
    rw [resolve_up (search_of_At hs hat) true 1, wrapInt_of_range (by omega) (by omega)]
    simp only [if_true]
    rw [min_eq_left (by omega)]
  obtain ⟨conn1, hex1, hlog1, _, hv1, _, _⟩ := execute_succeeds_summary hup hw conn
  have hver1 : conn1.db.version = m.Version := by
    rw [hv1 rfl (le_refl _)]
    exact hverm
  have hat1 : At ms conn1.db.version (i + 1) := by
    rw [hver1]
    exact Or.inr ⟨hpos m (index_mem hm), m, hm, rfl⟩
  have hdown : resolveExecutionPlan ⟨CommandType.DownCommand, true, 1⟩ conn1.db.version ms =
      .ok ⟨actionType.downAction, i + 1, i⟩ := by
    rw [resolve_down (search_of_At hs hat1) true 1, wrapInt_of_range (by omega) (by omega)]
    simp only [if_true]
    rw [add_sub_cancel_right, max_eq_left hr.1]
  obtain ⟨conn2, hex2, hlog2, _, _, hv2, _⟩ := execute_succeeds_summary hdown hw conn1
  have hver2 : conn2.db.version = v := by
    rw [hv2 rfl (by simp only []; omega)]
    exact verAt_of_At hat
  have hpd : persisted actionType.downAction ms (i + 1) = v := by
    unfold persisted
    rw [if_neg (by decide), add_sub_cancel_right]
    by_cases h0 : i + 1 = 0
    · rw [if_pos h0]
      have : i = -1 := by omega
      rw [← verAt_of_At hat, this, verAt_neg_one]
    · rw [if_neg h0]
      exact verAt_of_At hat
  refine ⟨m, conn1, conn2, hm, hup, hex1, hver1, hdown, hex2, hver2, ?_⟩
  rw [hlog2, hlog1]
  simp only [planIndices, upIndices_single, downIndices_single, List.flatMap_cons,
    List.flatMap_nil, List.append_nil, stepEvents, hm, persisted_up hm, hpd, List.append_assoc]
  rfl

/-- Catalog `[1,2,3]`, current version 1: `up 1` applies migration 2, `down 1`
reverts it, and the recorded version is 1 again. -/
theorem C19_scenario_round_trip :
    (Run scenarioWorld scenarioCatalog ⟨CommandType.UpCommand, true, 1⟩
      (scenarioConn 1 [1]) 1).2.db.version = 2 ∧
    (Run scenarioWorld scenarioCatalog ⟨CommandType.DownCommand, true, 1⟩
      (Run scenarioWorld scenarioCatalog ⟨CommandType.UpCommand, true, 1⟩
        (scenarioConn 1 [1]) 1).2 2).2.db =
      { version := 1, applied := [1],
        log := [Event.exec "CREATE db/2_orders.sql\n", Event.save 2, Event.commit,
          Event.exec "DROP db/2_orders.sql\n", Event.save 1, Event.commit] } ∧
    ∃ m conn1 conn2, index scenarioCatalog (0 + 1) = some m ∧
      (⟨actionType.upAction, 0 + 1, 0 + 1⟩ : executionPlan).execute scenarioWorld
        scenarioCatalog (scenarioConn 1 [1]) = (.ok (), conn1) ∧
      (⟨actionType.downAction, 0 + 1, 0⟩ : executionPlan).execute scenarioWorld
        scenarioCatalog conn1 = (.ok (), conn2) ∧
      conn2.db.version = 1 := by
  have hs : StrictInc scenarioCatalog := by unfold StrictInc; decide
  have hat : At scenarioCatalog 1 0 := Or.inr ⟨by decide, _, rfl, rfl⟩
  obtain ⟨m, conn1, conn2, hm, _, h1, _, _, h2, h3, _⟩ :=
    C19_up_one_down_one_round_trip scenarioWorld scenarioCatalog 1 0 (scenarioConn 1 [1]) hs
      (by decide) (by decide) hat (by decide) scenarioWorld_succeeds
  exact ⟨by decide, by decide, m, conn1, conn2, hm, h1, h2, h3⟩

/-! ## Command parsing -/

theorem parseInt64_aux_pos (ds : List Char) (n : Int) :
    (if ds ≠ [] ∧ ds.all Char.isDigit ∧ digitsValue ds < 2 ^ 63
      then some (digitsValue ds : Int) else none) = some n ↔
    (if ds ≠ [] ∧ ds.all Char.isDigit then some (digitsValue ds : Int) else none) = some n ∧
      -(2 ^ 63) ≤ n ∧ n ≤ 2 ^ 63 - 1 := by
  by_cases h1 : ds ≠ [] ∧ ds.all Char.isDigit = true
  · rw [if_pos h1]
    by_cases h2 : digitsValue ds < 2 ^ 63
    · rw [if_pos ⟨h1.1, h1.2, h2⟩]
      constructor
      · intro h
        simp only [Option.some.injEq] at h
        exact ⟨by rw [h], by omega, by omega⟩
      · exact fun h => h.1
    · rw [if_neg (fun h => h2 h.2.2)]
      constructor
      · intro h
        cases h
      · rintro ⟨h, _, h3⟩
        simp only [Option.some.injEq] at h
        omega
  · rw [if_neg h1, if_neg (fun h => h1 ⟨h.1, h.2.1⟩)]
    constructor
    · intro h
      cases h
    · intro h
      cases h.1

theorem parseInt64_aux_neg (ds : List Char) (n : Int) :
    (if ds ≠ [] ∧ ds.all Char.isDigit ∧ digitsValue ds ≤ 2 ^ 63
      then some (-(digitsValue ds : Int)) else none) = some n ↔
    (if ds ≠ [] ∧ ds.all Char.isDigit then some (-(digitsValue ds : Int)) else none) = some n ∧
      -(2 ^ 63) ≤ n ∧ n ≤ 2 ^ 63 - 1 := by
  by_cases h1 : ds ≠ [] ∧ ds.all Char.isDigit = true
  · rw [if_pos h1]
    by_cases h2 : digitsValue ds ≤ 2 ^ 63
    · rw [if_pos ⟨h1.1, h1.2, h2⟩]
      constructor
      · intro h
        simp only [Option.some.injEq] at h
        exact ⟨by rw [h], by omega, by omega⟩
      · exact fun h => h.1
    · rw [if_neg (fun h => h2 h.2.2)]
      constructor
      · intro h
        cases h
      · rintro ⟨h, h3, _⟩
        simp only [Option.some.injEq] at h
        omega
  · rw [if_neg h1, if_neg (fun h => h1 ⟨h.1, h.2.1⟩)]
    constructor
    · intro h
      cases h
    · intro h
      cases h.1

/-- The model of `strconv.ParseInt(s, 10, 64)` accepts exactly the decimal
integer numerals whose value fits a signed 64-bit integer. -/
theorem parseInt64_eq_some (s : String) (n : Int) :
    parseInt64 s = some n ↔ decimalValue s = some n ∧ -(2 ^ 63) ≤ n ∧ n ≤ 2 ^ 63 - 1 := by
  unfold parseInt64
  split
  · rename_i ds heq
    have hd : decimalValue s =
        if ds ≠ [] ∧ ds.all Char.isDigit then some (digitsValue ds : Int) else none := by
      unfold decimalValue
      rw [heq]
      rfl
    rw [hd]
    exact parseInt64_aux_pos ds n
  · rename_i ds heq
    have hd : decimalValue s =
        if ds ≠ [] ∧ ds.all Char.isDigit then some (-(digitsValue ds : Int)) else none := by
      unfold decimalValue
      rw [heq]
      rfl
    rw [hd]
    exact parseInt64_aux_neg ds n
  · rename_i ds hplus hminus
    have hd : decimalValue s =
        if s.toList ≠ [] ∧ s.toList.all Char.isDigit then some (digitsValue s.toList : Int)
        else none := by
      unfold decimalValue
      split
      · rename_i ds1 heq
        exact absurd heq (hplus ds1)
      · rename_i ds1 heq
        exact absurd heq (hminus ds1)
      · rfl
    rw [hd]
    exact parseInt64_aux_pos _ n

theorem parseNumber_eq_ok (arg : String) (n : Int) :
    parseNumber arg = .ok n ↔ decimalValue arg = some n ∧ 1 ≤ n ∧ n ≤ 2 ^ 63 - 1 := by
  unfold parseNumber
  cases hp : parseInt64 arg with
  | none =>
    constructor
    · intro h
      cases h
    · rintro ⟨h1, h2, h3⟩
      have := (parseInt64_eq_some arg n).mpr ⟨h1, by omega, h3⟩
      rw [hp] at this
      cases this
  | some num =>
    have hnum := (parseInt64_eq_some arg num).mp hp
    simp only []
    constructor
    · intro h
      split at h
      · cases h
      · simp only [Except.ok.injEq] at h
        subst h
        exact ⟨hnum.1, by omega, hnum.2.2⟩
    · rintro ⟨h1, h2, h3⟩
      rw [hnum.1] at h1
      simp only [Option.some.injEq] at h1
      subst h1
      rw [if_neg (by omega)]

theorem parseTarget_eq_ok (arg : String) (n : Int) :
    parseTarget arg = .ok n ↔ decimalValue arg = some n ∧ 0 ≤ n ∧ n ≤ 2 ^ 63 - 1 := by
  unfold parseTarget
  cases hp : parseInt64 arg with
  | none =>
    constructor
    · intro h
      cases h
    · rintro ⟨h1, h2, h3⟩
      have := (parseInt64_eq_some arg n).mpr ⟨h1, by omega, h3⟩
      rw [hp] at this
      cases this
  | some num =>
    have hnum := (parseInt64_eq_some arg num).mp hp
    simp only []
    constructor
    · intro h
      split at h
      · cases h
      · simp only [Except.ok.injEq] at h
        subst h
        exact ⟨hnum.1, by omega, hnum.2.2⟩
    · rintro ⟨h1, h2, h3⟩
      rw [hnum.1] at h1
      simp only [Option.some.injEq] at h1
      subst h1
      rw [if_neg (by omega)]

theorem ParseCommand_up (rest : List String) :
    ParseCommand ("up" :: rest) =
      match rest with
      | [] => .ok ⟨CommandType.UpCommand, false, 0⟩
      | arg :: _ =>
        match parseNumber arg with
        | .error e => .error e
        | .ok num => .ok ⟨CommandType.UpCommand, true, num⟩ := by
  cases rest <;> rfl

theorem ParseCommand_down (rest : List String) :
    ParseCommand ("down" :: rest) =
      match rest with
      | [] => .ok ⟨CommandType.DownCommand, false, 0⟩
      | arg :: _ =>
        match parseNumber arg with
        | .error e => .error e
        | .ok num => .ok ⟨CommandType.DownCommand, true, num⟩ := by
  cases rest <;> rfl

theorem ParseCommand_goto (rest : List String) :
    ParseCommand ("goto" :: rest) =
      match rest with
      | [] => .error .noTarget
      | arg :: _ =>
        match parseTarget arg with
        | .error e => .error e
        | .ok tar => .ok ⟨CommandType.GotoCommand, true, tar⟩ := by
  cases rest <;> rfl

theorem ParseCommand_help (rest : List String) :
    ParseCommand ("help" :: rest) = .ok ⟨CommandType.HelpCommand, false, 0⟩ := rfl

theorem ParseCommand_other {name : String} (h1 : name ≠ "up") (h2 : name ≠ "down")
    (h3 : name ≠ "goto") (h4 : name ≠ "help") (rest : List String) :
    ParseCommand (name :: rest) = .error (.invalidCommand name) := by
  simp [ParseCommand, h1, h2, h3, h4]

/-- C20: `ParseCommand` accepts an argument list exactly in these cases: `help`;
`up` or `down` alone (count absent); `up` or `down` followed by a decimal integer
`N` with `1 ≤ N ≤ 2^63-1` (count `N`); `goto` followed by a decimal integer
`VERSION` with `0 ≤ VERSION ≤ 2^63-1` (target `VERSION`).  Every other argument
list is rejected. -/
theorem C20_ParseCommand_accepts_iff (args : List String) (cmd : Command) :
    ParseCommand args = .ok cmd ↔
      (∃ rest, args = "help" :: rest ∧ cmd = ⟨CommandType.HelpCommand, false, 0⟩) ∨
      (args = ["up"] ∧ cmd = ⟨CommandType.UpCommand, false, 0⟩) ∨
      (args = ["down"] ∧ cmd = ⟨CommandType.DownCommand, false, 0⟩) ∨
      (∃ arg rest N, args = "up" :: arg :: rest ∧ decimalValue arg = some N ∧ 1 ≤ N ∧
        N ≤ 2 ^ 63 - 1 ∧ cmd = ⟨CommandType.UpCommand, true, N⟩) ∨
      (∃ arg rest N, args = "down" :: arg :: rest ∧ decimalValue arg = some N ∧ 1 ≤ N ∧
        N ≤ 2 ^ 63 - 1 ∧ cmd = ⟨CommandType.DownCommand, true, N⟩) ∨
      (∃ arg rest V, args = "goto" :: arg :: rest ∧ decimalValue arg = some V ∧ 0 ≤ V ∧
        V ≤ 2 ^ 63 - 1 ∧ cmd = ⟨CommandType.GotoCommand, true, V⟩) := by
  constructor
  · intro h
    cases args with
    | nil => cases h
    | cons name rest =>
      by_cases h1 : name = "up"
      · subst h1
        rw [ParseCommand_up] at h
        cases rest with
        | nil =>
          simp only [Except.ok.injEq] at h
          exact Or.inr (Or.inl ⟨rfl, h.symm⟩)
        | cons arg rest1 =>
          simp only [] at h
          cases hn : parseNumber arg with
          | error e => simp [hn] at h
          | ok num =>
            simp only [hn, Except.ok.injEq] at h
            obtain ⟨hd, hlo, hhi⟩ := (parseNumber_eq_ok arg num).mp hn
            exact Or.inr (Or.inr (Or.inr (Or.inl ⟨arg, rest1, num, rfl, hd, hlo, hhi, h.symm⟩)))
      · by_cases h2 : name = "down"
        · subst h2
          rw [ParseCommand_down] at h
          cases rest with
          | nil =>
            simp only [Except.ok.injEq] at h
            exact Or.inr (Or.inr (Or.inl ⟨rfl, h.symm⟩))
          | cons arg rest1 =>
            simp only [] at h
            cases hn : parseNumber arg with
            | error e => simp [hn] at h
            | ok num =>
              simp only [hn, Except.ok.injEq] at h
              obtain ⟨hd, hlo, hhi⟩ := (parseNumber_eq_ok arg num).mp hn
              exact Or.inr (Or.inr (Or.inr (Or.inr (Or.inl
                ⟨arg, rest1, num, rfl, hd, hlo, hhi, h.symm⟩))))
        · by_cases h3 : name = "goto"
          · subst h3
            rw [ParseCommand_goto] at h
            cases rest with
            | nil => cases h
            | cons arg rest1 =>
              simp only [] at h
              cases hn : parseTarget arg with
              | error e => simp [hn] at h
              | ok tar =>
                simp only [hn, Except.ok.injEq] at h
                obtain ⟨hd, hlo, hhi⟩ := (parseTarget_eq_ok arg tar).mp hn
                exact Or.inr (Or.inr (Or.inr (Or.inr (Or.inr
                  ⟨arg, rest1, tar, rfl, hd, hlo, hhi, h.symm⟩))))
          · by_cases h4 : name = "help"
            · subst h4
              rw [ParseCommand_help] at h
              simp only [Except.ok.injEq] at h
              exact Or.inl ⟨rest, rfl, h.symm⟩
            · rw [ParseCommand_other h1 h2 h3 h4] at h
              cases h
  · rintro (⟨rest, rfl, rfl⟩ | ⟨rfl, rfl⟩ | ⟨rfl, rfl⟩ | ⟨arg, rest, N, rfl, hd, hlo, hhi, rfl⟩ |
      ⟨arg, rest, N, rfl, hd, hlo, hhi, rfl⟩ | ⟨arg, rest, V, rfl, hd, hlo, hhi, rfl⟩)
    · rfl
    · rfl
    · rfl
    · rw [ParseCommand_up]
      simp only [(parseNumber_eq_ok arg N).mpr ⟨hd, hlo, hhi⟩]
    · rw [ParseCommand_down]
      simp only [(parseNumber_eq_ok arg N).mpr ⟨hd, hlo, hhi⟩]
    · rw [ParseCommand_goto]
      simp only [(parseTarget_eq_ok arg V).mpr ⟨hd, hlo, hhi⟩]

/-- Accepted and rejected command lines: `up 3`, the largest count, `goto 0`;
and the empty list, an unknown name, `up 0`, a negative or non-numeric count, a
count beyond `int64`, `goto` without target, a negative or non-numeric target. -/
theorem C20_scenario_command_lines :
    ParseCommand ["up", "3"] = .ok ⟨CommandType.UpCommand, true, 3⟩ ∧
    ParseCommand ["down", "9223372036854775807"] =
      .ok ⟨CommandType.DownCommand, true, 9223372036854775807⟩ ∧
    ParseCommand ["goto", "0"] = .ok ⟨CommandType.GotoCommand, true, 0⟩ ∧
    ParseCommand [] = .error .noCommand ∧
    ParseCommand ["status"] = .error (.invalidCommand "status") ∧
    ParseCommand ["up", "0"] = .error (.notPositive "0") ∧
    ParseCommand ["up", "-2"] = .error (.notPositive "-2") ∧
    ParseCommand ["down", "two"] = .error (.invalidNumber "two") ∧
    ParseCommand ["up", "9223372036854775808"] = .error (.invalidNumber "9223372036854775808") ∧
    ParseCommand ["goto"] = .error .noTarget ∧
    ParseCommand ["goto", "-1"] = .error (.invalidTarget "-1") ∧
    ParseCommand ["goto", "v2"] = .error (.invalidTarget "v2") :=
  ⟨(C20_ParseCommand_accepts_iff ["up", "3"] ⟨CommandType.UpCommand, true, 3⟩).mpr
      (Or.inr (Or.inr (Or.inr (Or.inl
        ⟨"3", [], 3, rfl, rfl, by decide, by decide, rfl⟩)))),
    rfl, rfl, rfl, rfl, rfl, rfl, rfl, rfl, rfl, rfl, rfl⟩

/-! ## No catalog access out of range -/

theorem search_total {ms : Migrations} (hne : ms ≠ []) (v : Int) :
    ∃ i b, search ms v = .ok (i, b) := by
  by_cases h0 : v = 0
  · exact ⟨-1, true, by simp [search, h0]⟩
  · have hlen : 0 < ms.length := List.length_pos.mpr hne
    obtain ⟨r, hr, _, hlt⟩ :=
      searchLoop_bounds ms v ms.length 0 ms.length hlen (le_refl _) (by omega)
    have hget : ms[r]? = some ms[r] := List.getElem?_eq_getElem hlt
    exact ⟨(r : Int), decide (ms[r].Version = v), by simp [search, h0, hr, hget]⟩

theorem resolve_total {ms : Migrations} (hne : ms ≠ []) (cmd : Command) (v : Int) :
    (∃ p, resolveExecutionPlan cmd v ms = .ok p) ∨
    ∃ e, resolveExecutionPlan cmd v ms = .err e := by
  obtain ⟨i, b, hi⟩ := search_total hne v
  cases b with
  | false =>
    exact Or.inr ⟨ResolveError.currentNotFound v, by simp [resolveExecutionPlan, hi]⟩
  | true =>
    obtain ⟨typ, hasOp, n⟩ := cmd
    cases typ with
    | UpCommand => exact Or.inl ⟨_, resolve_up hi hasOp n⟩
    | DownCommand => exact Or.inl ⟨_, resolve_down hi hasOp n⟩
    | HelpCommand =>
      exact Or.inl ⟨⟨actionType.noAction, 0, 0⟩, by simp [resolveExecutionPlan, hi]⟩
    | GotoCommand =>
      obtain ⟨t, b2, ht⟩ := search_total hne n
      cases b2 with
      | false =>
        exact Or.inr ⟨ResolveError.targetNotFound n, by simp [resolveExecutionPlan, hi, ht]⟩
      | true => exact Or.inl ⟨_, resolve_goto hi ht hasOp⟩

/-- `Migration.load` returns the loaded migration or an error: the loader never
reads a line out of range and never runs out of fuel. -/
theorem load_total (w : World) (m : Migration) :
    (∃ m1, m.load w = .ok m1) ∨ ∃ e, m.load w = .err e := by
  cases hf : w.readFileLines m.Path with
  | error e => exact Or.inr ⟨.read e, by simp [Migration.load, hf]⟩
  | ok lines =>
    rw [load_eq_loadLines w m hf]
    rcases loadLines_total lines with ⟨⟨up, down⟩, h⟩ | ⟨e, h⟩
    · exact Or.inl ⟨_, by rw [h]⟩
    · exact Or.inr ⟨e, by rw [h]⟩

theorem run_total (w : World) (m : Migration) (action : actionType) (conn : Connection)
    (final : Int) :
    (∃ c1, m.run w action conn final = (.ok (), c1)) ∨
    ∃ e c1, m.run w action conn final = (.err e, c1) := by
  rcases run_cases w m action conn final with h | ⟨r, c1, hr, hne, _, _⟩
  · exact Or.inl ⟨_, h⟩
  · right
    rcases load_total w m with ⟨m1, hl⟩ | ⟨e, hl⟩
    · have hr0 := hr
      unfold Migration.run at hr
      simp only [hl] at hr
      split at hr
      · simp only [Prod.mk.injEq] at hr
        exact ⟨_, c1, by rw [hr0, ← hr.1]⟩
      · simp only [Prod.mk.injEq] at hr
        exact absurd hr.1.symm hne
    · exact ⟨.load e, conn, run_of_load_err hl action conn final⟩

theorem specLoop_total (w : World) (action : actionType) (ms : Migrations) :
    ∀ (ks : List Int) (conn : Connection), (∀ k ∈ ks, ∃ m, index ms k = some m) →
      (∃ c1, specLoop w action ms ks conn = (.ok (), c1)) ∨
      ∃ e c1, specLoop w action ms ks conn = (.err e, c1) := by
  intro ks
  induction ks with
  | nil => intro conn _; exact Or.inl ⟨conn, rfl⟩
  | cons k ks ih =>
    intro conn hv
    obtain ⟨m, hm⟩ := hv k (List.mem_cons_self _ _)
    rcases run_total w m action conn (persisted action ms k) with ⟨c1, hr⟩ | ⟨e, c1, hr⟩
    · have hs : specLoop w action ms (k :: ks) conn = specLoop w action ms ks c1 := by
        simp [specLoop, hm, hr]
      rw [hs]
      exact ih c1 (fun j hj => hv j (List.mem_cons_of_mem _ hj))
    · exact Or.inr ⟨{ name := m.Name, cause := e }, c1, by simp [specLoop, hm, hr]⟩

/-- C21: on a non-empty catalog, of any order, for every current version, every
command and every operand, in every world: `search` and `resolveExecutionPlan`
return a result or an error, never the index-out-of-range panic; and when the
resolver returns a plan, every index `k` that `execute` walks is a valid index
of the catalog, for a backward plan so is `k-1` whenever `k ≠ 0` (the accesses
`migrations[i]`, `migrations[i-1]` and `migrations[0]`), and `execute` returns
success or an error, never the panic.  None of these calls runs out of fuel. -/
theorem C21_no_catalog_access_out_of_range (w : World) (cmd : Command) (v : Int)
    (ms : Migrations) (conn : Connection) (hne : ms ≠ []) :
    (search ms v ≠ .panic ∧ search ms v ≠ .stuck) ∧
    (search ms cmd.Operand ≠ .panic ∧ search ms cmd.Operand ≠ .stuck) ∧
    (resolveExecutionPlan cmd v ms ≠ .panic ∧ resolveExecutionPlan cmd v ms ≠ .stuck) ∧
    (∀ p, resolveExecutionPlan cmd v ms = .ok p →
      (∀ k ∈ planIndices p, (0 ≤ k ∧ k < ms.length ∧ ∃ m, index ms k = some m) ∧
        (p.action = actionType.downAction → k ≠ 0 →
          0 ≤ k - 1 ∧ k - 1 < ms.length ∧ ∃ prev, index ms (k - 1) = some prev)) ∧
      (p.execute w ms conn).1 ≠ .panic ∧ (p.execute w ms conn).1 ≠ .stuck) := by
  have hsearch : ∀ x, search ms x ≠ .panic ∧ search ms x ≠ .stuck := by
    intro x
    obtain ⟨i, b, h⟩ := search_total hne x
    rw [h]
    exact ⟨(fun hc => by cases hc), (fun hc => by cases hc)⟩
  refine ⟨hsearch v, hsearch cmd.Operand, ?_, ?_⟩
  · rcases resolve_total hne cmd v with ⟨p, h⟩ | ⟨e, h⟩ <;> rw [h] <;>
      exact ⟨(fun hc => by cases hc), (fun hc => by cases hc)⟩
  · intro p hres
    have hvalid := planIndices_valid hres
    refine ⟨?_, ?_⟩
    · intro k hk
      obtain ⟨m, hm⟩ := hvalid k hk
      obtain ⟨h0, h1, _⟩ := index_some hm
      refine ⟨⟨h0, h1, m, hm⟩, fun _ hk0 => ?_⟩
      exact ⟨by omega, by omega, index_isSome ms (by omega) (by omega)⟩
    · rw [execute_resolved w hres]
      rcases specLoop_total w p.action ms (planIndices p) conn hvalid with ⟨c1, h⟩ | ⟨e, c1, h⟩ <;>
        rw [h] <;> exact ⟨(fun hc => by cases hc), (fun hc => by cases hc)⟩

/-- Catalog `[1,2,3]`, current version 3: `down 9223372036854775807` walks the
indices 2, 1, 0, all inside the catalog, also in the world where a script fails. -/
theorem C21_scenario_indices_in_range :
    resolveExecutionPlan ⟨CommandType.DownCommand, true, 9223372036854775807⟩ 3
      scenarioCatalog = .ok ⟨actionType.downAction, 2, -1⟩ ∧
    planIndices ⟨actionType.downAction, 2, -1⟩ = [2, 1, 0] ∧
    ((⟨actionType.downAction, 2, -1⟩ : executionPlan).execute failingWorld scenarioCatalog
      (scenarioConn 3 [1, 2, 3])).1 ≠ .panic ∧
    ((⟨actionType.downAction, 2, -1⟩ : executionPlan).execute failingWorld scenarioCatalog
      (scenarioConn 3 [1, 2, 3])).1 = .ok () :=
  ⟨by decide, by decide,
    ((C21_no_catalog_access_out_of_range failingWorld
      ⟨CommandType.DownCommand, true, 9223372036854775807⟩ 3 scenarioCatalog
      (scenarioConn 3 [1, 2, 3]) (by decide)).2.2.2 ⟨actionType.downAction, 2, -1⟩
      (by decide)).2.1,
    by decide⟩

end Schemer
